import Mathlib

/-!
# A shallow embedding of `avl_file.c`

This file embeds the core of the `avl-file` library (file-based threaded
AVL-trees with multiple keys, fixed-length records in a single file) and
proves properties of the embedded operations.

Modelling conventions, fixed once for the whole file:

* The record arena is a total function `slots : Int → AvlRec`.  Offsets are
  `Int` (the C `off_t`); offset `0` means "none" and negative values are the
  threaded-pointer encoding (`-off` points at the in-order neighbour).
  Offsets are measured in record units (the C code spaces records `reclen`
  bytes apart; the spacing constant plays no role in the algorithms, so one
  record unit stands for `reclen` bytes).
* `lread`/`lwrite` of a record become `State.read`/`State.write`; the
  `pos > lim` corruption abort of the C code cannot fire in the states our
  theorems quantify over (all offsets are below the high-water mark), so
  reads are total.  `State.write` extends the high-water mark `endOff`
  exactly as `avl_file_lwrite` extends `*lim`.
* A payload (`char b[len]`) is a `List Int` of the record's data bytes; all
  payloads of one file have the same length `len`, so `memcmp (a, b, len)`
  is list equality and `memcpy (dst.b, data, len)` replaces the payload.
* The comparison callback `avl_file_cmp_fn_t` is a parameter
  `cmp : Nat → Payload → Payload → Int` of the state.
* C functions returning `0`/`-1` return that `Int`; functions that also
  fill the caller's buffer return the (possibly updated) buffer as well.
  Loops that follow file offsets take a fuel argument and return `none`
  when the fuel runs out; every theorem supplies enough fuel explicitly.
* `int64_t` arithmetic that can overflow (`hdr.nextnum++`) is modelled by
  two's-complement wrap-around `wrap64`.
-/

namespace AvlFile

/-- The data bytes of a record (`char b[len]` of `struct avl_struct`). -/
abbrev Payload := List Int

/-- `struct avl_node_struct`: per-key balance byte `b` and child/thread
fields `l`, `r` (a positive value is a child offset, a non-positive value is
the negated offset of the in-order neighbour, `0` meaning none). -/
structure AvlNode where
  b : Int
  l : Int
  r : Int
deriving DecidableEq, Repr

/-- `struct avl_struct`: the per-key node array, the sequential-list fields
`prev`/`next`, and the payload. -/
structure AvlRec where
  n : List AvlNode
  prev : Int
  next : Int
  b : Payload
deriving DecidableEq, Repr

/-- `struct hdr_struct` (the `magic`, `len` and `reclen` fields are
constants checked at open time and are omitted). -/
structure Hdr where
  n_avl : Int
  nextnum : Int
  root : List Int
  head_seq : Int
  head_empty : Int
  head_cpr : Int
deriving DecidableEq, Repr

/-- The comparison callback `avl_file_cmp_fn_t`. -/
abbrev CmpFn := Nat → Payload → Payload → Int

/-- The whole mutable state an operation sees: the handle data
(`avl_fp->n_keys`, `avl_fp->cmp`, `avl_fp->cpr`), the header, the record
arena and the high-water mark (file length, in record units). -/
structure State where
  n_keys : Nat
  cmp : CmpFn
  hdr : Hdr
  slots : Int → AvlRec
  cpr : Int
  endOff : Int

/-- Access the `k`-th per-key node of a record (`r.n[k]`). -/
def AvlRec.node (r : AvlRec) (k : Nat) : AvlNode :=
  r.n.getD k ⟨0, 0, 0⟩

/-- Replace the `k`-th per-key node of a record (`r.n[k] = nd`). -/
def AvlRec.setNode (r : AvlRec) (k : Nat) (nd : AvlNode) : AvlRec :=
  { r with n := r.n.set k nd }

/-- `hdr.root[k]`. -/
def Hdr.rootAt (h : Hdr) (k : Nat) : Int :=
  h.root.getD k 0

/-- `hdr.root[k] = v`. -/
def Hdr.setRoot (h : Hdr) (k : Nat) (v : Int) : Hdr :=
  { h with root := h.root.set k v }

/-- `avl_file_lread` of one record (total; see the module comment). -/
def State.read (s : State) (off : Int) : AvlRec :=
  s.slots off

/-- `avl_file_lwrite` of one record, extending the high-water mark the way
`avl_file_lwrite` extends `*lim`. -/
def State.write (s : State) (off : Int) (r : AvlRec) : State :=
  { s with
    slots := fun o => if o = off then r else s.slots o
    endOff := if s.endOff < off + 1 then off + 1 else s.endOff }

/-- Update the header in place (an `avl_file_lwrite` at offset 0). -/
def State.setHdr (s : State) (h : Hdr) : State :=
  { s with hdr := h }

/-- Two's-complement wrap-around of a 64-bit signed increment result. -/
def wrap64 (x : Int) : Int :=
  (x + 2 ^ 63) % 2 ^ 64 - 2 ^ 63

/-! ## `avl_file_getnum` (avl_file.c lines 434-477)

Under the gate: read the header, `hdr.nextnum++`, write the header back,
return `hdr.nextnum`. -/

def avl_file_getnum (s : State) : State × Int :=
  let nn := wrap64 (s.hdr.nextnum + 1)
  (s.setHdr { s.hdr with nextnum := nn }, nn)

/-! ## `avl_file_startseq` (lines 481-537) and `avl_file_readseq` (541-593) -/

/-- `avl_file_startseq`: copy `hdr.head_seq` into the cursor record's
`prev` field. -/
def avl_file_startseq (s : State) : State :=
  let cpr := s.read s.cpr
  s.write s.cpr { cpr with prev := s.hdr.head_seq }

/-- `avl_file_readseq`: if the cursor's `prev` is 0 return -1; otherwise
copy out the payload of the record at `prev`, advance `prev` to that
record's `next`, and return 0.  The result is `(state, ret, buffer)`; the
caller's buffer is only overwritten on success, as in the C code. -/
def avl_file_readseq (s : State) (data : Payload) : State × Int × Payload :=
  let cpr := s.read s.cpr
  if cpr.prev = 0 then
    (s, -1, data)
  else
    let ar := s.read cpr.prev
    let s' := s.write s.cpr { cpr with prev := ar.next }
    (s', 0, ar.b)

/-- Ghost driver for the sequential-scan specification: call
`avl_file_readseq` repeatedly with an empty buffer, collecting the
returned payloads until the first failure (the fuel bounds the loop). -/
def drainReadseq (s : State) : Nat → List Payload
  | 0 => []
  | fuel + 1 =>
    let r := avl_file_readseq s []
    if r.2.1 = 0 then r.2.2 :: drainReadseq r.1 fuel else []

/-! ## `avl_file_startge` (lines 1603-1718), `avl_file_startlt` (1485-1600),
`avl_file_next` (1721-1788), `avl_file_prev` (1791-1858),
`avl_file_find` (1861-1887) -/

/-- The descent loop of `avl_file_startge` (lines 1657-1673): while the
current offset is a real node, go left on `cmp ≤ 0` (stopping at the node
when there is no left child) and right otherwise (following the negated
right thread when there is no right child).  Fuel bounds the loop. -/
def startgeDescend (s : State) (k : Nat) (key : Payload) :
    Nat → Int → Option Int
  | 0, _ => none
  | fuel + 1, a =>
    if 0 < a then
      let ar := s.read a
      if s.cmp k key ar.b ≤ 0 then
        if 0 < (ar.node k).l then startgeDescend s k key fuel (ar.node k).l
        else some a
      else
        if 0 < (ar.node k).r then startgeDescend s k key fuel (ar.node k).r
        else some (-(ar.node k).r)
    else some a

/-- The descent loop of `avl_file_startlt` (lines 1540-1555), the mirror
image of `startgeDescend`. -/
def startltDescend (s : State) (k : Nat) (key : Payload) :
    Nat → Int → Option Int
  | 0, _ => none
  | fuel + 1, a =>
    if 0 < a then
      let ar := s.read a
      if s.cmp k key ar.b ≤ 0 then
        if 0 < (ar.node k).l then startltDescend s k key fuel (ar.node k).l
        else some (-(ar.node k).l)
      else
        if 0 < (ar.node k).r then startltDescend s k key fuel (ar.node k).r
        else some a
    else some a

/-- The rightmost-descendant loop used to find a node's in-order
predecessor when its left child exists (e.g. lines 1681-1690:
`sp = ar.n[k].l; while (sr.n[k].r > 0) sp = sr.n[k].r`); called with the
left-child offset. -/
def rightmostFrom (s : State) (k : Nat) : Nat → Int → Option Int
  | 0, _ => none
  | fuel + 1, sp =>
    let sr := s.read sp
    if 0 < (sr.node k).r then rightmostFrom s k fuel (sr.node k).r
    else some sp

/-- The leftmost-descendant loop used to find a node's in-order successor
when its right child exists (e.g. lines 1693-1702); called with the
right-child offset. -/
def leftmostFrom (s : State) (k : Nat) : Nat → Int → Option Int
  | 0, _ => none
  | fuel + 1, sp =>
    let sr := s.read sp
    if 0 < (sr.node k).l then leftmostFrom s k fuel (sr.node k).l
    else some sp

/-- The in-order predecessor of the record `ar`, as computed at lines
1681-1691: rightmost node of the left subtree, or the negated left
thread. -/
def predOf (s : State) (k : Nat) (fuel : Nat) (ar : AvlRec) : Option Int :=
  if 0 < (ar.node k).l then rightmostFrom s k fuel (ar.node k).l
  else some (-(ar.node k).l)

/-- The in-order successor of the record `ar`, as computed at lines
1693-1703: leftmost node of the right subtree, or the negated right
thread. -/
def succOf (s : State) (k : Nat) (fuel : Nat) (ar : AvlRec) : Option Int :=
  if 0 < (ar.node k).r then leftmostFrom s k fuel (ar.node k).r
  else some (-(ar.node k).r)

/-- `avl_file_startge`: find the first record `≥ data` under key `k`, copy
it into the buffer, and seed the cursor's per-key `(l, r)` with its
in-order predecessor and successor.  Returns `none` when the fuel runs
out, otherwise `(state, ret, buffer)`. -/
def avl_file_startge (s : State) (data : Payload) (k : Nat) (fuel : Nat) :
    Option (State × Int × Payload) :=
  if k ≥ s.n_keys then some (s, -1, data)
  else
    match startgeDescend s k data fuel (s.hdr.rootAt k) with
    | none => none
    | some a =>
      let cpr := s.read s.cpr
      if 0 < a then
        let ar := s.read a
        match predOf s k fuel ar, succOf s k fuel ar with
        | some pl, some pr =>
          let cpr := cpr.setNode k { cpr.node k with l := pl, r := pr }
          some (s.write s.cpr cpr, 0, ar.b)
        | _, _ => none
      else
        let cpr := cpr.setNode k { cpr.node k with l := 0, r := 0 }
        some (s.write s.cpr cpr, -1, data)

/-- `avl_file_startlt`, the mirror image of `avl_file_startge`. -/
def avl_file_startlt (s : State) (data : Payload) (k : Nat) (fuel : Nat) :
    Option (State × Int × Payload) :=
  if k ≥ s.n_keys then some (s, -1, data)
  else
    match startltDescend s k data fuel (s.hdr.rootAt k) with
    | none => none
    | some a =>
      let cpr := s.read s.cpr
      if 0 < a then
        let ar := s.read a
        match predOf s k fuel ar, succOf s k fuel ar with
        | some pl, some pr =>
          let cpr := cpr.setNode k { cpr.node k with l := pl, r := pr }
          some (s.write s.cpr cpr, 0, ar.b)
        | _, _ => none
      else
        let cpr := cpr.setNode k { cpr.node k with l := 0, r := 0 }
        some (s.write s.cpr cpr, -1, data)

/-- `avl_file_next`: read the record at the cursor's per-key `r` field,
advance that field to the record's in-order successor, and return the
payload; `-1` when the field is not a positive offset. -/
def avl_file_next (s : State) (data : Payload) (k : Nat) (fuel : Nat) :
    Option (State × Int × Payload) :=
  if k ≥ s.n_keys then some (s, -1, data)
  else
    let cpr := s.read s.cpr
    let a := (cpr.node k).r
    if 0 < a then
      let ar := s.read a
      match succOf s k fuel ar with
      | none => none
      | some sp =>
        let cpr := cpr.setNode k { cpr.node k with r := sp }
        some (s.write s.cpr cpr, 0, ar.b)
    else some (s, -1, data)

/-- `avl_file_prev`, the mirror image of `avl_file_next` on the cursor's
per-key `l` field. -/
def avl_file_prev (s : State) (data : Payload) (k : Nat) (fuel : Nat) :
    Option (State × Int × Payload) :=
  if k ≥ s.n_keys then some (s, -1, data)
  else
    let cpr := s.read s.cpr
    let a := (cpr.node k).l
    if 0 < a then
      let ar := s.read a
      match predOf s k fuel ar with
      | none => none
      | some sp =>
        let cpr := cpr.setNode k { cpr.node k with l := sp }
        some (s.write s.cpr cpr, 0, ar.b)
    else some (s, -1, data)

/-- `avl_file_find` (lines 1861-1887): run `avl_file_startge` on a private
copy `b` of the caller's buffer; on success compare the found record with
the original buffer under key `k` and copy it back only when equal. -/
def avl_file_find (s : State) (data : Payload) (k : Nat) (fuel : Nat) :
    Option (State × Int × Payload) :=
  let b := data
  match avl_file_startge s b k fuel with
  | none => none
  | some (s', ret, b') =>
    if ret = 0 then
      if s.cmp k b' data = 0 then some (s', 0, b')
      else some (s', -1, data)
    else some (s', -1, data)

/-! ## The duplicate-key path search

`avl_file_update` (lines 1440-1465), the second search of `avl_file_delete`
(lines 945-971), the tree-removal search of `avl_file_delete`
(lines 1064-1087) and the search of `avl_file_squash` (lines 2347-2371)
all run the same stack machine over one tree: descend from the root going
left on `cmp ≤ 0` (remembering each node comparing equal on a stack) and
right on `cmp > 0`; on falling off the tree pop the deepest remembered
equal node, accept it if it passes the caller's test, and otherwise resume
the descent in its right subtree.  The C code keeps the descent path in
arrays `pa[]`/`par[]` with the stack holding indices; we keep the path as
a root-first list of `(pa[l], par[l])` pairs with the stack holding list
indices. -/

/-- One descent-path entry: the offset `pa[l]` and the record copy
`par[l]`. -/
abbrev PathEntry := Int × AvlRec

/-- The `loop1`/`loop2`/pop stack machine described above.  Arguments:
current offset `cur` (the would-be `pa[l]`), the path of entries already
read (root first, so `l = path.length`), and the stack of pushed indices
(deepest first).  Results: `none` = out of fuel; `some none` = no node
passed `test`; `some (some (pre, e))` = the node `e` passed `test`, with
`pre` the strict ancestor part of its descent path (so `pre ++ [e]` is
`pa[0..l]`). -/
def findPath (s : State) (k : Nat) (key : Payload) (test : Int → AvlRec → Bool) :
    Nat → Int → List PathEntry → List Nat →
    Option (Option (List PathEntry × PathEntry))
  | 0, _, _, _ => none
  | fuel + 1, cur, path, stk =>
    if 0 < cur then
      let pr := s.read cur
      let i := s.cmp k key pr.b
      if i ≤ 0 then
        findPath s k key test fuel (pr.node k).l (path ++ [(cur, pr)])
          (if i = 0 then path.length :: stk else stk)
      else
        findPath s k key test fuel (pr.node k).r (path ++ [(cur, pr)]) stk
    else
      match stk with
      | [] => some none
      | l :: stk' =>
        let e := path.getD l (0, s.read 0)
        if test e.1 e.2 then some (some (path.take l, e))
        else findPath s k key test fuel (e.2.node k).r (path.take (l + 1)) stk'

/-- The test of `avl_file_update`'s search (lines 1460-1462): the record
compares equal to the probe under every key. -/
def allKeysEq (s : State) (key : Payload) (pr : AvlRec) : Bool :=
  (List.range s.n_keys).all fun i => s.cmp i key pr.b == 0

/-! ## `avl_file_update` (lines 1390-1481) -/

/-- `avl_file_update`: search tree 0 for a record comparing equal to
`data` under every key (duplicate keys make this a stack search); if
found, overwrite its payload in place.  No header field is written. -/
def avl_file_update (s : State) (data : Payload) (fuel : Nat) :
    Option (State × Int) :=
  if 0 < s.n_keys then
    match findPath s 0 data (fun _ pr => allKeysEq s data pr) fuel
        (s.hdr.rootAt 0) [] [] with
    | none => none
    | some none => some (s, -1)
    | some (some (_, (y, yr))) => some (s.write y { yr with b := data }, 0)
  else some (s, -1)

/-! ## `avl_file_insert` (lines 596-847) -/

/-- The insert descent (lines 688-699): walk from the root to the leaf
position, remembering the deepest node `a` with non-zero balance and its
parent `f`, and the prospective parent `q` of the new node.  Returns the
final `(p, a, f, q)` and the record copies `(ar, fr, qr)` exactly as the
C loop leaves them. -/
def insDescend (s : State) (k : Nat) (yb : Payload) :
    Nat → Int → Int → Int → Int → AvlRec → AvlRec → AvlRec →
    Option (Int × Int × Int × Int × AvlRec × AvlRec × AvlRec)
  | 0, _, _, _, _, _, _, _ => none
  | fuel + 1, p, a, f, q, ar, fr, qr =>
    if 0 < p then
      let pr := s.read p
      let acc : Int × AvlRec × Int × AvlRec :=
        if (pr.node k).b ≠ 0 then (p, pr, q, qr) else (a, ar, f, fr)
      if s.cmp k yb pr.b < 0 then
        insDescend s k yb fuel (pr.node k).l acc.1 acc.2.2.1 p acc.2.1
          acc.2.2.2 pr
      else
        insDescend s k yb fuel (pr.node k).r acc.1 acc.2.2.1 p acc.2.1
          acc.2.2.2 pr
    else some (p, a, f, q, ar, fr, qr)

/-- The balance-setting walk of insert (lines 716-727): from the child of
`a` on the search path down to the new node `y`, set each balance to `+1`
or `-1` according to the comparison. -/
def insWalk (s : State) (k : Nat) (yb : Payload) (y : Int) :
    Nat → Int → Option State
  | 0, _ => none
  | fuel + 1, p =>
    if p = y then some s
    else
      let pr := s.read p
      if s.cmp k yb pr.b < 0 then
        let pr := pr.setNode k { pr.node k with b := 1 }
        insWalk (s.write p pr) k yb y fuel (pr.node k).l
      else
        let pr := pr.setNode k { pr.node k with b := -1 }
        insWalk (s.write p pr) k yb y fuel (pr.node k).r

/-- The rotation block of insert for the `d = +1` case (lines 738-777):
single LL rotation when `b`'s balance is `+1`, double LR rotation
otherwise, with thread preservation in every child field that becomes
missing.  Returns the state and the new subtree root. -/
def insRotPlus (s : State) (k : Nat) (a b : Int) (ar : AvlRec) :
    State × Int :=
  let br := s.read b
  if (br.node k).b = 1 then
    let ar := ar.setNode k { ar.node k with
      l := if 0 < (br.node k).r then (br.node k).r else -b, b := 0 }
    let br := br.setNode k { br.node k with r := a, b := 0 }
    ((s.write a ar).write b br, b)
  else
    let c := (br.node k).r
    let cr := s.read c
    let br := br.setNode k { br.node k with
      r := if 0 < (cr.node k).l then (cr.node k).l else -c }
    let ar := ar.setNode k { ar.node k with
      l := if 0 < (cr.node k).r then (cr.node k).r else -c }
    let cr := cr.setNode k { cr.node k with l := b, r := a }
    let abb : Int × Int :=
      if (cr.node k).b = 1 then (-1, 0)
      else if (cr.node k).b = -1 then (0, 1)
      else if (cr.node k).b = 0 then (0, 0)
      else ((ar.node k).b, (br.node k).b)
    let ar := ar.setNode k { ar.node k with b := abb.1 }
    let br := br.setNode k { br.node k with b := abb.2 }
    let cr := cr.setNode k { cr.node k with b := 0 }
    ((((s.write a ar).write b br).write c cr), c)

/-- The rotation block of insert for the `d = -1` case (lines 778-818),
the mirror image of `insRotPlus`. -/
def insRotMinus (s : State) (k : Nat) (a b : Int) (ar : AvlRec) :
    State × Int :=
  let br := s.read b
  if (br.node k).b = -1 then
    let ar := ar.setNode k { ar.node k with
      r := if 0 < (br.node k).l then (br.node k).l else -b, b := 0 }
    let br := br.setNode k { br.node k with l := a, b := 0 }
    ((s.write a ar).write b br, b)
  else
    let c := (br.node k).l
    let cr := s.read c
    let ar := ar.setNode k { ar.node k with
      r := if 0 < (cr.node k).l then (cr.node k).l else -c }
    let br := br.setNode k { br.node k with
      l := if 0 < (cr.node k).r then (cr.node k).r else -c }
    let cr := cr.setNode k { cr.node k with r := b, l := a }
    let abb : Int × Int :=
      if (cr.node k).b = 1 then (0, -1)
      else if (cr.node k).b = -1 then (1, 0)
      else if (cr.node k).b = 0 then (0, 0)
      else ((ar.node k).b, (br.node k).b)
    let ar := ar.setNode k { ar.node k with b := abb.1 }
    let br := br.setNode k { br.node k with b := abb.2 }
    let cr := cr.setNode k { cr.node k with b := 0 }
    ((((s.write a ar).write b br).write c cr), c)

/-- The tail of one key's share of insert (lines 728-828): the two
balance-adjustment ifs on the last unbalanced ancestor `a`, the rotation
when the tree grew out of balance, and the update of the parent `f`'s
child pointer (or the root) to the new subtree root. -/
def insFinish (s : State) (k : Nat) (a b d f : Int) (ar fr : AvlRec) :
    State :=
  let u1 : State × AvlRec × Bool :=
    if (ar.node k).b = 0 then
      let ar := ar.setNode k { ar.node k with b := d }
      (s.write a ar, ar, false)
    else (s, ar, true)
  let u2 : State × AvlRec × Bool :=
    if (u1.2.1.node k).b + d = 0 then
      let ar := u1.2.1.setNode k { u1.2.1.node k with b := 0 }
      (u1.1.write a ar, ar, false)
    else u1
  let s := u2.1
  let ar := u2.2.1
  if u2.2.2 then
    let sb : State × Int :=
      if d = 1 then insRotPlus s k a b ar else insRotMinus s k a b ar
    let s := sb.1
    let b := sb.2
    -- update F's child pointer, or the root (lines 819-828)
    if f = 0 then s.setHdr (s.hdr.setRoot k b)
    else
      let fr :=
        if a = (fr.node k).l then fr.setNode k { fr.node k with l := b }
        else if a = (fr.node k).r then
          fr.setNode k { fr.node k with r := b }
        else fr
      s.write f fr
  else s

/-- One key's share of insert (the body of the `for (k = 0; ...)` loop,
lines 682-834): link the new record `y` as a threaded leaf, update
balances from the last unbalanced ancestor `a`, and rotate if needed. -/
def insKey (s : State) (y : Int) (k : Nat) (fuel : Nat) : Option State :=
  let yr := s.read y
  let a := s.hdr.rootAt k
  if 0 < a then
    let ar := s.read a
    match insDescend s k yr.b fuel a a 0 0 ar ar ar with
    | none => none
    | some (p, a, f, q, _, fr, qr) =>
      -- leaf link with thread inheritance (lines 700-708)
      let yq : AvlRec × AvlRec :=
        if s.cmp k yr.b qr.b < 0 then
          (yr.setNode k ⟨0, p, -q⟩, qr.setNode k { qr.node k with l := y })
        else
          (yr.setNode k ⟨0, -q, p⟩, qr.setNode k { qr.node k with r := y })
      let yr := yq.1
      let qr := yq.2
      let s := (s.write y yr).write q qr
      -- fresh re-read of `a` (line 710), then the balance walk
      let ar := s.read a
      let pbd : Int × Int × Int :=
        if s.cmp k yr.b ar.b < 0 then ((ar.node k).l, (ar.node k).l, 1)
        else ((ar.node k).r, (ar.node k).r, -1)
      let p := pbd.1
      let b := pbd.2.1
      let d := pbd.2.2
      (insWalk s k yr.b y fuel p).map fun s => insFinish s k a b d f ar fr
  else
    -- empty tree (lines 830-834)
    let yr := yr.setNode k ⟨0, 0, 0⟩
    some ((s.write y yr).setHdr (s.hdr.setRoot k y))

/-- Fold `insKey` over keys `k₀, k₀+1, …, n_keys-1` (the `for` loop of
lines 682-835). -/
def insKeys (s : State) (y : Int) (fuel : Nat) : Nat → Nat → Option State
  | _, 0 => some s
  | k, rem + 1 =>
    match insKey s y k fuel with
    | none => none
    | some s' => insKeys s' y fuel (k + 1) rem

/-- Slot allocation of insert (lines 657-668): pop the free-list head if
there is one, else take the record slot at the end of the file. -/
def insAlloc (s : State) : State × Int :=
  if s.hdr.head_empty = 0 then (s, s.endOff)
  else
    let y := s.hdr.head_empty
    let yr := s.read y
    (s.setHdr { s.hdr with head_empty := yr.next }, y)

/-- The slot that `avl_file_insert` allocates (lines 657-668): the head of
the free list, or the end of the file when the free list is empty. -/
def yAlloc (s : State) : Int :=
  if s.hdr.head_empty = 0 then s.endOff else s.hdr.head_empty

/-- `avl_file_insert`: allocate a slot (free-list head or append), prepend
the record to the sequential list, then add it to every tree.  The header
mutations become visible immediately (the C code batches them in its local
header copy and writes the header once at line 838; no other code reads
the header in between, so the states agree). -/
def avl_file_insert (s : State) (data : Payload) (fuel : Nat) :
    Option (State × Int) :=
  if wrap64 (s.hdr.n_avl + 1) < 0 then some (s, -1)
  else
    -- slot allocation (lines 657-668)
    let sy : State × Int := insAlloc s
    let s := sy.1
    let y := sy.2
    -- sequential-list prepend (lines 669-680)
    let yr := s.read y
    let yr : AvlRec := { yr with prev := 0, next := s.hdr.head_seq }
    let s :=
      if 0 < yr.next then
        let p := yr.next
        let pr := s.read p
        s.write p { pr with prev := y }
      else s
    let s := s.setHdr { s.hdr with head_seq := y }
    let yr := { yr with b := data }
    let s := s.write y yr
    (insKeys s y fuel 0 s.n_keys).map fun s =>
      (s.setHdr { s.hdr with n_avl := wrap64 (s.hdr.n_avl + 1) }, 0)

/-! ## `avl_file_delete` (lines 851-1382) -/

/-- Set the per-key nodes `0 ≤ i < n_keys` of a record to `nd` (the
`for (i = 0; i < n_keys; i++) { r.n[i].b = …; … }` pattern used when a
slot changes kind, e.g. lines 1367-1369). -/
def setAllNodes (r : AvlRec) (n_keys : Nat) (nd : AvlNode) : AvlRec :=
  { r with n := r.n.mapIdx fun i old => if i < n_keys then nd else old }

/-- The first search of delete (lines 912-939): for each key in turn, run
the `startge` descent; when it lands on a real node that compares equal
and is bytewise equal to the probe, the target is found.  Result
`some none` = all keys exhausted without a match. -/
def delPhase1 (s : State) (data : Payload) (fuel : Nat) :
    Nat → Nat → Option (Option (Int × AvlRec))
  | _, 0 => some none
  | k, rem + 1 =>
    match startgeDescend s k data fuel (s.hdr.rootAt k) with
    | none => none
    | some a =>
      if 0 < a then
        let ar := s.read a
        if s.cmp k data ar.b = 0 then
          if data = ar.b then some (some (a, ar))
          else delPhase1 s data fuel (k + 1) rem
        else delPhase1 s data fuel (k + 1) rem
      else delPhase1 s data fuel (k + 1) rem

/-- The sequential search of delete (lines 978-988): walk the sequential
list from `hdr.head_seq` looking for a bytewise-equal record. -/
def delSeqScan (s : State) (data : Payload) : Nat → Int → Option (Option (Int × AvlRec))
  | 0, _ => none
  | fuel + 1, a =>
    if 0 < a then
      let ar := s.read a
      if data = ar.b then some (some (a, ar))
      else delSeqScan s data fuel ar.next
    else some none

/-- Lines 998-1022: compute the in-order predecessor (`ur.n[k].l`) and
successor (`ur.n[k].r`) of the target under each key, using threads when
the corresponding subtree is missing. -/
def delNeighbors (s : State) (yr : AvlRec) (fuel : Nat) :
    Nat → Nat → Option (List AvlNode)
  | _, 0 => some []
  | k, rem + 1 =>
    match predOf s k fuel yr, succOf s k fuel yr with
    | some pl, some pr =>
      match delNeighbors s yr fuel (k + 1) rem with
      | none => none
      | some rest => some (⟨0, pl, pr⟩ :: rest)
    | _, _ => none

/-- The per-key body of the cursor-advance loop (lines 1038-1047):
repoint any cursor field equal to the deleted offset at the appropriate
neighbour.  Returns the adjusted record and the `updated` flag. -/
def curAdjustK (y : Int) (urn : List AvlNode) :
    Nat → Nat → AvlRec → Bool → AvlRec × Bool
  | _, 0, cpr, upd => (cpr, upd)
  | k, rem + 1, cpr, upd =>
    let u := urn.getD k ⟨0, 0, 0⟩
    let c1 : AvlRec × Bool :=
      if (cpr.node k).l = y then
        (cpr.setNode k { cpr.node k with l := u.l }, true)
      else (cpr, upd)
    let c2 : AvlRec × Bool :=
      if (c1.1.node k).r = y then
        (c1.1.setNode k { c1.1.node k with r := u.r }, true)
      else c1
    curAdjustK y urn (k + 1) rem c2.1 c2.2

/-- The cursor-advance walk of delete (lines 1027-1053): for every record
on the `hdr.head_cpr` list, advance its sequential pointer and per-key
fields off the deleted record, writing the record back only when a field
changed. -/
def delCursors (s : State) (y ynext : Int) (urn : List AvlNode) (n_keys : Nat) :
    Nat → Int → Option State
  | 0, _ => none
  | fuel + 1, cp =>
    if 0 < cp then
      let cpr := s.read cp
      let c1 : AvlRec × Bool :=
        if cpr.prev = y then ({ cpr with prev := ynext }, true) else (cpr, false)
      let c2 := curAdjustK y urn 0 n_keys c1.1 c1.2
      let s' := if c2.2 then s.write cp c2.1 else s
      delCursors s' y ynext urn n_keys fuel c2.1.next
    else some s

/-- The rightmost-descent of the splice (lines 1098-1101): push path
entries while the current record has a real right child.  Arguments carry
the current offset/record and the stack built so far (`top` on `below`,
deepest first); the result is the final entry (the in-order predecessor),
its parent entry, and the rest of the stack. -/
def chainRight (s : State) (k : Nat) :
    Nat → Int → AvlRec → PathEntry → List PathEntry →
    Option (PathEntry × PathEntry × List PathEntry)
  | 0, _, _, _, _ => none
  | fuel + 1, cur, cr, top, below =>
    if 0 < (cr.node k).r then
      let nxt := (cr.node k).r
      chainRight s k fuel nxt (s.read nxt) (cur, cr) (top :: below)
    else some ((cur, cr), top, below)

/-- The leftmost-descent of the splice (lines 1141-1144), mirror image of
`chainRight`. -/
def chainLeft (s : State) (k : Nat) :
    Nat → Int → AvlRec → PathEntry → List PathEntry →
    Option (PathEntry × PathEntry × List PathEntry)
  | 0, _, _, _, _ => none
  | fuel + 1, cur, cr, top, below =>
    if 0 < (cr.node k).l then
      let nxt := (cr.node k).l
      chainLeft s k fuel nxt (s.read nxt) (cur, cr) (top :: below)
    else some ((cur, cr), top, below)

/-- Common tail of the splice cases that found a replacement node `P`
(lines 1126-1134, 1168-1176): the parent (or the root pointer for key
`k`) is redirected from the target to `P`, and the re-balancing path is
returned deepest first. -/
def spliceFinish (s : State) (k : Nat) (y P : Int) (newP yr : AvlRec)
    (pre anc : List PathEntry) : State × List PathEntry × AvlRec :=
  match anc with
  | [] => (s.setHdr (s.hdr.setRoot k P), pre ++ [(P, newP)], yr)
  | (pp, ppr) :: anc' =>
    let ppr :=
      if (ppr.node k).l = y then ppr.setNode k { ppr.node k with l := P }
      else ppr.setNode k { ppr.node k with r := P }
    (s.write pp ppr, pre ++ (P, newP) :: (pp, ppr) :: anc', yr)

/-- Splice continuation when the in-order predecessor `P` sits strictly
below the target's left child (lines 1097-1109 and 1115-1124): detach `P`
from its parent `q`, move it into the target's node position, and fix the
successor's left thread. -/
def spliceDeepL (s : State) (k : Nat) (y : Int) (yr : AvlRec)
    (urk : AvlNode) (anc : List PathEntry)
    (t : PathEntry × PathEntry × List PathEntry) :
    State × List PathEntry × AvlRec :=
  let ((P, Pr), (q, qr), below) := t
  let qr := qr.setNode k { qr.node k with
    r := if 0 < (Pr.node k).l then (Pr.node k).l else -P
    b := (qr.node k).b + 1 }
  let s := s.write q qr
  -- lines 1115-1117: move the predecessor into the target's position
  let newP := Pr.setNode k (yr.node k)
  let s := s.write P newP
  -- lines 1119-1124: rewrite the successor's left thread
  let s :=
    if 0 < (yr.node k).r then
      let sp := urk.r
      let spr := s.read sp
      s.write sp (spr.setNode k { spr.node k with l := -P })
    else s
  spliceFinish s k y P newP yr ((q, qr) :: below) anc

/-- Mirror of `spliceDeepL` for the in-order successor (lines 1140-1152
and 1158-1167). -/
def spliceDeepR (s : State) (k : Nat) (y : Int) (yr : AvlRec)
    (urk : AvlNode) (anc : List PathEntry)
    (t : PathEntry × PathEntry × List PathEntry) :
    State × List PathEntry × AvlRec :=
  let ((P, Pr), (q, qr), below) := t
  let qr := qr.setNode k { qr.node k with
    l := if 0 < (Pr.node k).r then (Pr.node k).r else -P
    b := (qr.node k).b - 1 }
  let s := s.write q qr
  let newP := Pr.setNode k (yr.node k)
  let s := s.write P newP
  -- lines 1162-1167: rewrite the predecessor's right thread
  let s :=
    if 0 < (yr.node k).l then
      let sp := urk.l
      let spr := s.read sp
      s.write sp (spr.setNode k { spr.node k with r := -P })
    else s
  spliceFinish s k y P newP yr ((q, qr) :: below) anc

/-- The splice step of delete for one key (lines 1090-1193): replace the
target by its in-order predecessor (when a left child exists), by its
in-order successor (when only a right child exists), or remove the leaf.
`yr` is delete's running copy of the target record (whose `n[k]` fields
the C code adjusts in place), `ypr` the copy read by the removal search,
`urk` the precomputed neighbours for key `k`, `anc` the strict ancestors
of the target (deepest first).  Returns the state, the path from which
re-balancing starts (deepest first), and the updated `yr`. -/
def delSplice (s : State) (k : Nat) (fuel : Nat) (y : Int) (yr : AvlRec)
    (ypr : AvlRec) (urk : AvlNode) (anc : List PathEntry) :
    Option (State × List PathEntry × AvlRec) :=
  if 0 < (ypr.node k).l then
    let L := (ypr.node k).l
    let lr := s.read L
    if 0 < (lr.node k).r then
      -- the predecessor is deeper: lines 1097-1109
      (chainRight s k fuel ((lr.node k).r) (s.read ((lr.node k).r))
          (L, lr) []).map (spliceDeepL s k y yr urk anc)
    else
      -- the left child itself is the predecessor: lines 1110-1113
      let yr := yr.setNode k { yr.node k with
        l := (lr.node k).l, b := (yr.node k).b - 1 }
      let newP := lr.setNode k (yr.node k)
      let s := s.write L newP
      let s :=
        if 0 < (yr.node k).r then
          let sp := urk.r
          let spr := s.read sp
          s.write sp (spr.setNode k { spr.node k with l := -L })
        else s
      some (spliceFinish s k y L newP yr [] anc)
  else if 0 < (ypr.node k).r then
    let R := (ypr.node k).r
    let rr := s.read R
    if 0 < (rr.node k).l then
      -- the successor is deeper: lines 1140-1152
      (chainLeft s k fuel ((rr.node k).l) (s.read ((rr.node k).l))
          (R, rr) []).map (spliceDeepR s k y yr urk anc)
    else
      -- the right child itself is the successor: lines 1153-1156
      let yr := yr.setNode k { yr.node k with
        r := (rr.node k).r, b := (yr.node k).b + 1 }
      let newP := rr.setNode k (yr.node k)
      let s := s.write R newP
      let s :=
        if 0 < (yr.node k).l then
          let sp := urk.l
          let spr := s.read sp
          s.write sp (spr.setNode k { spr.node k with r := -R })
        else s
      some (spliceFinish s k y R newP yr [] anc)
  else
    -- no sub-trees: lines 1179-1193
    match anc with
    | [] => some (s.setHdr (s.hdr.setRoot k 0), [], yr)
    | (pp, ppr) :: anc' =>
      let ppr :=
        if (ppr.node k).l = y then
          ppr.setNode k { ppr.node k with
            l := (yr.node k).l, b := (ppr.node k).b - 1 }
        else if (ppr.node k).r = y then
          ppr.setNode k { ppr.node k with
            r := (yr.node k).r, b := (ppr.node k).b + 1 }
        else ppr
      let s := s.write pp ppr
      some (s, (pp, ppr) :: anc', yr)

/-- The `+2` rotation of delete's re-balancing (lines 1222-1271); unlike
insertion the single rotation also covers a balanced left child.  Returns
the state and the new subtree root with its record. -/
def delRotPlus (s : State) (k : Nat) (a : Int) (ar : AvlRec) :
    State × PathEntry :=
  let b := (ar.node k).l
  let br := s.read b
  if (br.node k).b = 0 ∨ (br.node k).b = 1 then
    let ar := ar.setNode k { ar.node k with
      l := if 0 < (br.node k).r then (br.node k).r else -b }
    let br := br.setNode k { br.node k with r := a }
    let abb : Int × Int :=
      if (br.node k).b = 0 then (1, -1) else (0, 0)
    let ar := ar.setNode k { ar.node k with b := abb.1 }
    let br := br.setNode k { br.node k with b := abb.2 }
    ((s.write a ar).write b br, (b, br))
  else
    let c := (br.node k).r
    let cr := s.read c
    let br := br.setNode k { br.node k with
      r := if 0 < (cr.node k).l then (cr.node k).l else -c }
    let ar := ar.setNode k { ar.node k with
      l := if 0 < (cr.node k).r then (cr.node k).r else -c }
    let cr := cr.setNode k { cr.node k with l := b, r := a }
    let abb : Int × Int :=
      if (cr.node k).b = 1 then (-1, 0)
      else if (cr.node k).b = -1 then (0, 1)
      else if (cr.node k).b = 0 then (0, 0)
      else ((ar.node k).b, (br.node k).b)
    let ar := ar.setNode k { ar.node k with b := abb.1 }
    let br := br.setNode k { br.node k with b := abb.2 }
    let cr := cr.setNode k { cr.node k with b := 0 }
    ((((s.write a ar).write b br).write c cr), (c, cr))

/-- The `-2` rotation of delete's re-balancing (lines 1272-1321), mirror
image of `delRotPlus`. -/
def delRotMinus (s : State) (k : Nat) (a : Int) (ar : AvlRec) :
    State × PathEntry :=
  let b := (ar.node k).r
  let br := s.read b
  if (br.node k).b = 0 ∨ (br.node k).b = -1 then
    let ar := ar.setNode k { ar.node k with
      r := if 0 < (br.node k).l then (br.node k).l else -b }
    let br := br.setNode k { br.node k with l := a }
    let abb : Int × Int :=
      if (br.node k).b = 0 then (-1, 1) else (0, 0)
    let ar := ar.setNode k { ar.node k with b := abb.1 }
    let br := br.setNode k { br.node k with b := abb.2 }
    ((s.write a ar).write b br, (b, br))
  else
    let c := (br.node k).l
    let cr := s.read c
    let ar := ar.setNode k { ar.node k with
      r := if 0 < (cr.node k).l then (cr.node k).l else -c }
    let br := br.setNode k { br.node k with
      l := if 0 < (cr.node k).r then (cr.node k).r else -c }
    let cr := cr.setNode k { cr.node k with r := b, l := a }
    let abb : Int × Int :=
      if (cr.node k).b = 1 then (0, -1)
      else if (cr.node k).b = -1 then (1, 0)
      else if (cr.node k).b = 0 then (0, 0)
      else ((ar.node k).b, (br.node k).b)
    let ar := ar.setNode k { ar.node k with b := abb.1 }
    let br := br.setNode k { br.node k with b := abb.2 }
    let cr := cr.setNode k { cr.node k with b := 0 }
    ((((s.write a ar).write b br).write c cr), (c, cr))

/-- Delete's re-balancing walk (lines 1198-1337) over the path (deepest
first).  A balance of `±1` stops the walk, `0` propagates the height
decrease to the parent, `±2` rotates (re-examining the same level), and
anything else is the corruption case that breaks out of the loop. -/
def delRebalance (s : State) (k : Nat) : Nat → List PathEntry → Option State
  | 0, _ => none
  | _ + 1, [] => some s
  | fuel + 1, (a, ar) :: up =>
    if (ar.node k).b = 1 ∨ (ar.node k).b = -1 then some s
    else if (ar.node k).b = 0 then
      -- lines 1206-1217
      match up with
      | [] => delRebalance s k fuel []
      | (p, pr) :: rest =>
        let pr :=
          if (pr.node k).l = a then
            pr.setNode k { pr.node k with b := (pr.node k).b - 1 }
          else if (pr.node k).r = a then
            pr.setNode k { pr.node k with b := (pr.node k).b + 1 }
          else pr
        delRebalance (s.write p pr) k fuel ((p, pr) :: rest)
    else if (ar.node k).b = 2 ∨ (ar.node k).b = -2 then
      let se :=
        if (ar.node k).b = 2 then delRotPlus s k a ar else delRotMinus s k a ar
      let s := se.1
      let e := se.2
      -- lines 1327-1336: the parent (or root) now points at the new root
      match up with
      | [] => delRebalance (s.setHdr (s.hdr.setRoot k e.1)) k fuel [e]
      | (p, pr) :: rest =>
        let pr :=
          if (pr.node k).l = a then pr.setNode k { pr.node k with l := e.1 }
          else if (pr.node k).r = a then
            pr.setNode k { pr.node k with r := e.1 }
          else pr
        delRebalance (s.write p pr) k fuel (e :: (p, pr) :: rest)
    else some s

/-- One key's share of the tree removal (the body of the
`for (k = 0; …)` loop at lines 1060-1337): search for the path to the
target (skipping the tree with the error message of line 1085 when it is
absent), splice it out, and re-balance. -/
def delKey (s : State) (y : Int) (k : Nat) (fuel : Nat) (yr : AvlRec)
    (urk : AvlNode) : Option (State × AvlRec) :=
  match findPath s k yr.b (fun off _ => off == y) fuel (s.hdr.rootAt k) [] [] with
  | none => none
  | some none => some (s, yr)
  | some (some (pre, (_, ypr))) =>
    match delSplice s k fuel y yr ypr urk pre.reverse with
    | none => none
    | some (s, rpath, yr) =>
      match delRebalance s k fuel rpath with
      | none => none
      | some s => some (s, yr)

/-- Fold `delKey` over all keys. -/
def delKeys (s : State) (y : Int) (fuel : Nat) (urn : List AvlNode) :
    Nat → Nat → AvlRec → Option (State × AvlRec)
  | _, 0, yr => some (s, yr)
  | k, rem + 1, yr =>
    match delKey s y k fuel yr (urn.getD k ⟨0, 0, 0⟩) with
    | none => none
    | some (s', yr') => delKeys s' y fuel urn (k + 1) rem yr'

/-- The deterministic end of delete (lines 1344-1373): unlink the target
from the sequential list, prepend it to the free list and decrement the
live count. -/
def delUnlink (s : State) (y : Int) (yr : AvlRec) : State :=
  -- lines 1344-1358: unlink from the sequential list
  let s :=
    if 0 < yr.next then
      let a := yr.next
      let ar := s.read a
      s.write a { ar with prev := yr.prev }
    else s
  let s :=
    if s.hdr.head_seq = y then
      s.setHdr { s.hdr with head_seq := yr.next }
    else
      let a := yr.prev
      let ar := s.read a
      s.write a { ar with next := yr.next }
  -- lines 1364-1373: prepend to the free list
  let yr : AvlRec := { yr with next := s.hdr.head_empty, prev := 0 }
  let s := s.setHdr { s.hdr with head_empty := y }
  let yr := setAllNodes yr s.n_keys ⟨0x40, 0, 0⟩
  let s := s.write y yr
  s.setHdr { s.hdr with n_avl := wrap64 (s.hdr.n_avl - 1) }

/-- The removal proper (lines 998-1373), run once delete has located the
target `y` with record copy `yr`: compute the neighbours, advance the
cursors, remove `y` from every tree, unlink it from the sequential list
and prepend it to the free list. -/
def delFinish (s : State) (y : Int) (yr : AvlRec) (fuel : Nat) :
    Option (State × Int) :=
  match delNeighbors s yr fuel 0 s.n_keys with
  | none => none
  | some urn =>
    match delCursors s y yr.next urn s.n_keys fuel s.hdr.head_cpr with
    | none => none
    | some s =>
      match delKeys s y fuel urn 0 s.n_keys yr with
      | none => none
      | some (s, yr) => some (delUnlink s y yr, 0)

/-- `avl_file_delete`: locate a bytewise-equal record (tree descent per
key, then the duplicate-key stack search on key 0, then the sequential
scan), advance cursors off it, remove it from every tree, unlink it from
the sequential list and prepend it to the free list. -/
def avl_file_delete (s : State) (data : Payload) (fuel : Nat) :
    Option (State × Int) :=
  match delPhase1 s data fuel 0 s.n_keys with
  | none => none
  | some r1 =>
    let step2 : Option (Option (Int × AvlRec)) :=
      match r1 with
      | some yy => some (some yy)
      | none =>
        if 0 < s.n_keys then
          match findPath s 0 data
              (fun _ pr => allKeysEq s data pr && (data == pr.b)) fuel
              (s.hdr.rootAt 0) [] [] with
          | none => none
          | some none => some none
          | some (some (_, e)) => some (some e)
        else some none
    match step2 with
    | none => none
    | some r2 =>
      let step3 : Option (Option (Int × AvlRec)) :=
        match r2 with
        | some yy => some (some yy)
        | none => delSeqScan s data fuel s.hdr.head_seq
      match step3 with
      | none => none
      | some none => some (s, -1)
      | some (some (y, yr)) => delFinish s y yr fuel

/-! ## `avl_file_close` (lines 349-426) and reopening an existing file
(`avl_file_open`, lines 194-346)

Only the state-changing core is modelled: the descriptor plumbing,
advisory locks and `malloc` failures are outside the file state.  The
byte-range-lock probe of the cursor scan becomes an oracle
`unlocked : Int → Bool`, and the caller's PID a byte list `pid`. -/

/-- The cursor-list unlink walk of close (lines 400-408): find the
predecessor of the closing handle's cursor record and bypass it.  When no
entry links to it the walk falls off the list leaving the state
unchanged, exactly as the C loop does. -/
def closeUnlink (s : State) (cp cnext : Int) : Nat → Int → Option State
  | 0, _ => none
  | fuel + 1, sp =>
    if 0 < sp then
      let spr := s.read sp
      if spr.next = cp then some (s.write sp { spr with next := cnext })
      else closeUnlink s cp cnext fuel spr.next
    else some s

/-- `avl_file_close`: unlink the handle's cursor record from the cursor
list, mark it free and prepend it to the free list.  The header's
`nextnum` is read and written back unchanged. -/
def avl_file_close (s : State) (fuel : Nat) : Option State :=
  let cp := s.cpr
  let cpr := s.read cp
  let os :=
    if s.hdr.head_cpr = cp then
      some (s.setHdr { s.hdr with head_cpr := cpr.next })
    else closeUnlink s cp cpr.next fuel s.hdr.head_cpr
  match os with
  | none => none
  | some s =>
    let cpr := setAllNodes cpr s.n_keys ⟨0x40, 0, 0⟩
    let cpr : AvlRec := { cpr with next := s.hdr.head_empty }
    let s := s.setHdr { s.hdr with head_empty := cp }
    some (s.write cp cpr)

/-- The reusable-cursor scan of open (lines 308-318): find a cursor record
stamped with a different PID whose byte range is not locked; `0` when the
list is exhausted. -/
def openFindCpr (s : State) (pid : Payload) (unlocked : Int → Bool) :
    Nat → Int → Option Int
  | 0, _ => none
  | fuel + 1, cp =>
    if 0 < cp then
      let cpr := s.read cp
      if pid.length ≤ cpr.b.length then
        if cpr.b.take pid.length ≠ pid ∧ unlocked cp then some cp
        else openFindCpr s pid unlocked fuel cpr.next
      else openFindCpr s pid unlocked fuel cpr.next
    else some 0

/-- Reopening an existing file (the tail of `avl_file_open`, lines
302-345): steal an abandoned cursor record, or pop the free list, or
append; stamp the PID, zero the per-key cursor fields, and write the
header back (its `n_avl`/`nextnum`/roots untouched). -/
def avl_file_open_existing (s : State) (pid : Payload)
    (unlocked : Int → Bool) (fuel : Nat) : Option State :=
  match openFindCpr s pid unlocked fuel s.hdr.head_cpr with
  | none => none
  | some cp0 =>
    let scc : State × Int × AvlRec :=
      if cp0 = 0 then
        let scc0 : State × Int × AvlRec :=
          if s.hdr.head_empty = 0 then (s, s.endOff, s.read s.endOff)
          else
            let cp := s.hdr.head_empty
            let cpr := s.read cp
            (s.setHdr { s.hdr with head_empty := cpr.next }, cp, cpr)
        let cpr : AvlRec := { scc0.2.2 with next := scc0.1.hdr.head_cpr }
        (scc0.1.setHdr { scc0.1.hdr with head_cpr := scc0.2.1 }, scc0.2.1, cpr)
      else (s, cp0, s.read cp0)
    let s := scc.1
    let cp := scc.2.1
    let cpr := scc.2.2
    let cpr := setAllNodes cpr s.n_keys ⟨0x20, 0, 0⟩
    let cpr : AvlRec :=
      if pid.length ≤ cpr.b.length then
        { cpr with b := pid ++ cpr.b.drop pid.length }
      else cpr
    let cpr : AvlRec := { cpr with prev := 0 }
    let s := s.write cp cpr
    some { s with cpr := cp }

/-! ## Ghost view of one key's threaded tree

The specification side needs to talk about the shape of a tree.  An
`STree` remembers the offset of every node; `toTree` decodes the tree
rooted at an offset by following only positive (real) child links, with
fuel bounding the depth, and `inorder` lists the offsets left-to-right.
`IsTree` is the fuel-free relational version used inside proofs. -/

inductive STree where
  | leaf : STree
  | node : Int → STree → STree → STree
deriving DecidableEq

def STree.inorder : STree → List Int
  | .leaf => []
  | .node a l r => l.inorder ++ a :: r.inorder

def toTree (s : State) (k : Nat) : Nat → Int → Option STree
  | 0, _ => none
  | fuel + 1, a =>
    if 0 < a then
      match toTree s k fuel ((s.read a).node k).l,
          toTree s k fuel ((s.read a).node k).r with
      | some l, some r => some (.node a l r)
      | _, _ => none
    else some .leaf

inductive IsTree (s : State) (k : Nat) : Int → STree → Prop
  | leaf : ∀ a, ¬ 0 < a → IsTree s k a .leaf
  | node : ∀ a l r, 0 < a →
      IsTree s k ((s.read a).node k).l l →
      IsTree s k ((s.read a).node k).r r →
      IsTree s k a (.node a l r)

/-- The offsets in the tree whose records compare equal to the probe under
key `k` — the candidates that the duplicate-aware search of
`avl_file_update` (and delete phase 1) must consider. -/
def cands (s : State) (k : Nat) (key : Payload) (T : STree) : List Int :=
  T.inorder.filter fun z => s.cmp k key (s.read z).b == 0

/-- Searchability of a tree for one probe: descending left on
`cmp < 0` loses no candidate on the right, and descending right on
`cmp > 0` loses none on the left.  This is the part of the binary-search
order invariant that the probe actually uses. -/
def probeOk (s : State) (k : Nat) (key : Payload) : STree → Bool
  | .leaf => true
  | .node a l r =>
    (if s.cmp k key (s.read a).b < 0 then
        r.inorder.all fun z => !(s.cmp k key (s.read z).b == 0)
      else true) &&
    (if 0 < s.cmp k key (s.read a).b then
        l.inorder.all fun z => !(s.cmp k key (s.read z).b == 0)
      else true) &&
    probeOk s k key l && probeOk s k key r

/-- Invariant of the pop stack of `findPath`: each stacked index points
below `bound` into the path, at an entry that is a faithful read of a
real node comparing equal to the probe, whose right subtree is searchable;
`pend` lists the candidates these stack entries still owe, in pop
order. -/
def StkSpec (s : State) (k : Nat) (key : Payload) (path : List PathEntry) :
    Nat → List Nat → List Int → Prop
  | _, [], pend => pend = []
  | bound, l :: stk, pend =>
    l < bound ∧
    (path.getD l (0, s.read 0)).2 = s.read (path.getD l (0, s.read 0)).1 ∧
    0 < (path.getD l (0, s.read 0)).1 ∧
    s.cmp k key (path.getD l (0, s.read 0)).2.b = 0 ∧
    ∃ Tr pend', IsTree s k (((path.getD l (0, s.read 0)).2.node k).r) Tr ∧
      probeOk s k key Tr = true ∧
      StkSpec s k key path l stk pend' ∧
      pend = (path.getD l (0, s.read 0)).1 :: (cands s k key Tr ++ pend')

/-- Correct threading of one key's tree (claim C3's property, used as a
ghost hypothesis): in context `(lo, hi)` — the in-order neighbors
contributed by the ancestors — a missing left child stores the negated
predecessor `-lo` and a missing right child the negated successor
`-hi`. -/
def threadsOk (s : State) (k : Nat) : STree → Int → Int → Bool
  | .leaf, _, _ => true
  | .node a l r, lo, hi =>
    (match l with
     | .leaf => ((s.read a).node k).l == -lo
     | .node _ _ _ => true) &&
    (match r with
     | .leaf => ((s.read a).node k).r == -hi
     | .node _ _ _ => true) &&
    threadsOk s k l lo a && threadsOk s k r a hi

/-- Searchability of a tree for the `≥`-scan of `avl_file_startge`:
whenever the descent goes right (`cmp > 0`), the skipped left subtree
holds no record `≥` the probe. -/
def geOk (s : State) (k : Nat) (key : Payload) : STree → Bool
  | .leaf => true
  | .node a l r =>
    (if 0 < s.cmp k key (s.read a).b then
        l.inorder.all fun z => decide (0 < s.cmp k key (s.read z).b)
      else true) &&
    geOk s k key l && geOk s k key r

/-- Ghost driver for the forward iteration: call `avl_file_next`
repeatedly with an empty buffer, collecting payloads until the first
failure; `none` when a call runs out of fuel. -/
def drainNext (s : State) (k : Nat) (f : Nat) : Nat → Option (List Payload)
  | 0 => some []
  | n + 1 =>
    match avl_file_next s [] k f with
    | none => none
    | some (s', ret, q) =>
      if ret = 0 then (drainNext s' k f n).map fun L => q :: L
      else some []

/-! ## Basic state lemmas -/

@[simp]
theorem read_write_self (s : State) (o : Int) (r : AvlRec) :
    (s.write o r).read o = r := by
  simp [State.read, State.write]

theorem read_write_ne (s : State) (o o' : Int) (r : AvlRec) (h : o' ≠ o) :
    (s.write o r).read o' = s.read o' := by
  simp [State.read, State.write, h]

@[simp]
theorem write_hdr (s : State) (o : Int) (r : AvlRec) :
    (s.write o r).hdr = s.hdr := rfl

@[simp]
theorem write_cpr (s : State) (o : Int) (r : AvlRec) :
    (s.write o r).cpr = s.cpr := rfl

@[simp]
theorem write_n_keys (s : State) (o : Int) (r : AvlRec) :
    (s.write o r).n_keys = s.n_keys := rfl

@[simp]
theorem write_cmp (s : State) (o : Int) (r : AvlRec) :
    (s.write o r).cmp = s.cmp := rfl

@[simp]
theorem setHdr_read (s : State) (h : Hdr) (o : Int) :
    (s.setHdr h).read o = s.read o := rfl

@[simp]
theorem setHdr_hdr (s : State) (h : Hdr) : (s.setHdr h).hdr = h := rfl

@[simp]
theorem setHdr_cpr (s : State) (h : Hdr) : (s.setHdr h).cpr = s.cpr := rfl

@[simp]
theorem setHdr_n_keys (s : State) (h : Hdr) :
    (s.setHdr h).n_keys = s.n_keys := rfl

@[simp]
theorem setHdr_cmp (s : State) (h : Hdr) : (s.setHdr h).cmp = s.cmp := rfl

/-! ## Claim C8: `getnum` sequences

The values handed out by `N` consecutive `avl_file_getnum` calls, and the
state left behind. -/

/-- The state after `n` consecutive `avl_file_getnum` calls. -/
def getnumIter (s : State) : Nat → State
  | 0 => s
  | n + 1 => getnumIter (avl_file_getnum s).1 n

/-- The values returned by `n` consecutive `avl_file_getnum` calls. -/
def getnumSeq (s : State) : Nat → List Int
  | 0 => []
  | n + 1 => (avl_file_getnum s).2 :: getnumSeq (avl_file_getnum s).1 n

theorem wrap64_eq_self {x : Int} (h0 : -2 ^ 63 ≤ x) (h1 : x < 2 ^ 63) :
    wrap64 x = x := by
  unfold wrap64
  have hnn : (0 : Int) ≤ x + 2 ^ 63 := by linarith
  have hlt : x + 2 ^ 63 < 2 ^ 64 := by norm_num; linarith
  rw [Int.emod_eq_of_lt hnn hlt]
  ring

theorem getnum_nextnum (s : State)
    (h0 : -2 ^ 63 ≤ s.hdr.nextnum + 1) (h1 : s.hdr.nextnum + 1 < 2 ^ 63) :
    (avl_file_getnum s).1.hdr.nextnum = s.hdr.nextnum + 1 ∧
      (avl_file_getnum s).2 = s.hdr.nextnum + 1 := by
  simp [avl_file_getnum, wrap64_eq_self h0 h1]

theorem getnumIter_nextnum (s : State) (n : Nat)
    (h0 : -2 ^ 63 ≤ s.hdr.nextnum) (h1 : s.hdr.nextnum + n < 2 ^ 63) :
    (getnumIter s n).hdr.nextnum = s.hdr.nextnum + n := by
  induction n generalizing s with
  | zero => simp [getnumIter]
  | succ n ih =>
    have hstep : (avl_file_getnum s).1.hdr.nextnum = s.hdr.nextnum + 1 := by
      refine (getnum_nextnum s (by linarith) ?_).1
      have : (0 : Int) ≤ n := Int.ofNat_nonneg n
      push_cast at h1 ⊢
      linarith
    rw [getnumIter, ih _ (by rw [hstep]; linarith) (by rw [hstep]; push_cast at h1 ⊢; linarith)]
    rw [hstep]; push_cast; ring

theorem getnumSeq_eq (s : State) (n : Nat)
    (h0 : -2 ^ 63 ≤ s.hdr.nextnum) (h1 : s.hdr.nextnum + n < 2 ^ 63) :
    getnumSeq s n = (List.range n).map (fun i => s.hdr.nextnum + Int.ofNat i + 1) := by
  induction n generalizing s with
  | zero => simp [getnumSeq]
  | succ n ih =>
    have hb : s.hdr.nextnum + 1 < 2 ^ 63 := by
      have : (0 : Int) ≤ n := Int.ofNat_nonneg n
      push_cast at h1; linarith
    have hstep := getnum_nextnum s (by linarith) hb
    rw [getnumSeq, hstep.2, ih _ (by rw [hstep.1]; linarith)
      (by rw [hstep.1]; push_cast at h1 ⊢; linarith)]
    rw [hstep.1, List.range_succ_eq_map, List.map_cons, List.map_map]
    refine List.cons_eq_cons.mpr ⟨by push_cast; ring, List.map_congr_left fun i _ => ?_⟩
    simp only [Function.comp_apply, Int.ofNat_eq_natCast]
    push_cast
    ring

theorem closeUnlink_hdr (s : State) (cp cnext : Int) (fuel : Nat) (sp : Int)
    (s' : State) (h : closeUnlink s cp cnext fuel sp = some s') :
    s'.hdr = s.hdr := by
  induction fuel generalizing sp with
  | zero => simp [closeUnlink] at h
  | succ fuel ih =>
    simp only [closeUnlink] at h
    split_ifs at h with h1 h2
    · simp only [Option.some.injEq] at h
      rw [← h]
      rfl
    · exact ih _ h
    · simp only [Option.some.injEq] at h
      rw [← h]

theorem closeUnlink_hdr_of_eq (s : State) (cp cnext : Int) (fuel : Nat)
    (sp : Int) (os : Option State)
    (h : closeUnlink s cp cnext fuel sp = os) :
    ∀ s', os = some s' → s'.hdr = s.hdr := by
  intro s' hs'
  exact closeUnlink_hdr s cp cnext fuel sp s' (h.trans hs')

theorem close_nextnum (s : State) (fuel : Nat) (s' : State)
    (h : avl_file_close s fuel = some s') :
    s'.hdr.nextnum = s.hdr.nextnum := by
  simp only [avl_file_close] at h
  by_cases h1 : s.hdr.head_cpr = s.cpr
  · rw [if_pos h1] at h
    simp only [Option.some.injEq] at h
    rw [← h]
    rfl
  · rw [if_neg h1] at h
    match hu : closeUnlink s s.cpr (s.read s.cpr).next fuel s.hdr.head_cpr with
    | none => rw [hu] at h; exact absurd h (by simp)
    | some su =>
      rw [hu] at h
      simp only [Option.some.injEq] at h
      have hsu := closeUnlink_hdr _ _ _ _ _ _ hu
      rw [← h]
      simp [State.write, State.setHdr, hsu]

theorem open_existing_nextnum (s : State) (pid : Payload)
    (unlocked : Int → Bool) (fuel : Nat) (s' : State)
    (h : avl_file_open_existing s pid unlocked fuel = some s') :
    s'.hdr.nextnum = s.hdr.nextnum := by
  simp only [avl_file_open_existing] at h
  match hcase : openFindCpr s pid unlocked fuel s.hdr.head_cpr with
  | none => rw [hcase] at h; simp at h
  | some cp0 =>
    rw [hcase] at h
    simp only [Option.some.injEq] at h
    subst h
    split <;> split <;> simp [State.setHdr, State.write]

theorem getnumSeq_nextnum_only (s : State) :
    getnumSeq s 2 = [wrap64 (s.hdr.nextnum + 1),
      wrap64 (wrap64 (s.hdr.nextnum + 1) + 1)] := by
  simp [getnumSeq, avl_file_getnum]

/-- A state whose header carries `NextNumber = 0`, exactly as
`avl_file_open` initialises the header of a newly created file
(lines 253-260 zero the header). -/
def freshNumState : State :=
  ⟨0, fun _ _ _ => 0, ⟨0, 0, [], 0, 0, 0⟩, fun _ => ⟨[], 0, 0, []⟩, 0, 1⟩

/-- C8 counterexample: the 64-bit counter wraps.  Starting from a freshly
created file, `2^63 - 2` calls drive `NextNumber` to `2^63 - 2` (so the
state is reachable by public operations alone), and the next two calls
return `2^63 - 1` followed by `-2^63`: not strictly increasing, and not
consecutive. -/
theorem getnum_wraps_counterexample :
    (getnumIter freshNumState (2 ^ 63 - 2)).hdr.nextnum = 2 ^ 63 - 2 ∧
    getnumSeq (getnumIter freshNumState (2 ^ 63 - 2)) 2 =
      [2 ^ 63 - 1, -2 ^ 63] ∧
    ¬ List.Chain' (· < ·)
      (getnumSeq (getnumIter freshNumState (2 ^ 63 - 2)) 2) := by
  have hn : (getnumIter freshNumState (2 ^ 63 - 2)).hdr.nextnum
      = 2 ^ 63 - 2 := by
    have := getnumIter_nextnum freshNumState (2 ^ 63 - 2)
      (by norm_num [freshNumState]) (by norm_num [freshNumState])
    rw [this]
    norm_num [freshNumState]
  refine ⟨hn, ?_, ?_⟩
  · rw [getnumSeq_nextnum_only, hn]
    norm_num [wrap64]
  · rw [getnumSeq_nextnum_only, hn]
    norm_num [wrap64]

/-- C8 (amended): as long as the counter does not overflow
(`NextNumber + N + M < 2^63`), `N` consecutive `getnum` calls, a close, a
reopen and `M` further calls return the `N + M` consecutive strictly
increasing values `NextNumber + 1, …, NextNumber + N + M`. -/
theorem getnum_monotone_across_reopen
    (s : State) (N M : Nat) (fuel : Nat) (pid : Payload)
    (unlocked : Int → Bool) (sc so : State)
    (h0 : -2 ^ 63 ≤ s.hdr.nextnum)
    (h1 : s.hdr.nextnum + N + M < 2 ^ 63)
    (hc : avl_file_close (getnumIter s N) fuel = some sc)
    (ho : avl_file_open_existing sc pid unlocked fuel = some so) :
    getnumSeq s N ++ getnumSeq so M =
      (List.range (N + M)).map (fun i => s.hdr.nextnum + Int.ofNat i + 1) ∧
    List.Chain' (· < ·) (getnumSeq s N ++ getnumSeq so M) := by
  have hNM : (0 : Int) ≤ N ∧ (0 : Int) ≤ M :=
    ⟨Int.ofNat_nonneg N, Int.ofNat_nonneg M⟩
  have hso : so.hdr.nextnum = s.hdr.nextnum + N := by
    rw [open_existing_nextnum _ _ _ _ _ ho, close_nextnum _ _ _ hc,
      getnumIter_nextnum s N h0 (by linarith)]
  have h2 : getnumSeq s N ++ getnumSeq so M =
      (List.range (N + M)).map (fun i => s.hdr.nextnum + Int.ofNat i + 1) := by
    rw [getnumSeq_eq s N h0 (by linarith),
      getnumSeq_eq so M (by rw [hso]; linarith) (by rw [hso]; push_cast at h1 ⊢; linarith),
      List.range_add, List.map_append, List.map_map]
    congr 1
    refine List.map_congr_left fun i _ => ?_
    simp only [Function.comp_apply, hso, Int.ofNat_eq_natCast]
    push_cast
    ring
  refine ⟨h2, ?_⟩
  rw [h2]
  refine List.Pairwise.chain' ?_
  refine List.Pairwise.map _ (fun a b hab => ?_) (List.pairwise_lt_range (N + M))
  simp only [Int.ofNat_eq_natCast]
  have : (a : Int) < b := by exact_mod_cast hab
  linarith

/-- A tiny one-cursor, zero-key file state used to witness the `getnum`
theorem on a concrete input. -/
def numWitState : State :=
  ⟨0, fun _ _ _ => 0, ⟨0, 5, [], 0, 0, 1⟩,
    fun o => if o = 1 then ⟨[], 0, 0, [7]⟩ else ⟨[], 0, 0, []⟩, 1, 2⟩

def numWitClosed : State :=
  (avl_file_close (getnumIter numWitState 2) 9).getD numWitState

def numWitReopened : State :=
  (avl_file_open_existing numWitClosed [9] (fun _ => true) 9).getD numWitState

theorem getnum_monotone_witness :
    getnumSeq numWitState 2 ++ getnumSeq numWitReopened 1 =
      (List.range (2 + 1)).map
        (fun i => numWitState.hdr.nextnum + Int.ofNat i + 1) ∧
    List.Chain' (· < ·)
      (getnumSeq numWitState 2 ++ getnumSeq numWitReopened 1) :=
  getnum_monotone_across_reopen numWitState 2 1 9 [9] (fun _ => true)
    numWitClosed numWitReopened (by norm_num [numWitState])
    (by norm_num [numWitState]) (by rfl) (by rfl)

/-! ## Claim C9: `find` leaves the buffer unchanged on failure -/

/-- C9: whenever `avl_file_find` returns `-1` (including the
out-of-range-key case), the caller's buffer comes back bytewise unchanged,
because the search runs on a private copy; by contrast `avl_file_startge`
and `avl_file_startlt` overwrite the buffer with the found record's
payload whenever they find one. -/
theorem find_buffer_frame (s : State) (data : Payload) (k : Nat)
    (fuel : Nat) :
    (∀ s' ret buf, avl_file_find s data k fuel = some (s', ret, buf) →
        ret = -1 → buf = data) ∧
    (∀ s' ret buf, avl_file_startge s data k fuel = some (s', ret, buf) →
        ret = 0 → ∃ a, 0 < a ∧ buf = (s.read a).b) ∧
    (∀ s' ret buf, avl_file_startlt s data k fuel = some (s', ret, buf) →
        ret = 0 → ∃ a, 0 < a ∧ buf = (s.read a).b) := by
  refine ⟨?_, ?_, ?_⟩
  · intro s' ret buf h hret
    subst hret
    simp only [avl_file_find] at h
    match hge : avl_file_startge s data k fuel with
    | none => rw [hge] at h; exact absurd h (by simp)
    | some (s1, r1, b1) =>
      rw [hge] at h
      simp only at h
      split_ifs at h with hr1 hcmp
      · simp at h
      · simp only [Option.some.injEq, Prod.mk.injEq] at h
        exact h.2.2.symm
      · simp only [Option.some.injEq, Prod.mk.injEq] at h
        exact h.2.2.symm
  · intro s' ret buf h hret
    subst hret
    simp only [avl_file_startge] at h
    split_ifs at h with hk
    · simp at h
    · match hd : startgeDescend s k data fuel (s.hdr.rootAt k) with
      | none => rw [hd] at h; exact absurd h (by simp)
      | some a =>
        rw [hd] at h
        simp only at h
        split_ifs at h with ha
        · match hp : predOf s k fuel (s.read a), hq : succOf s k fuel (s.read a) with
          | some pl, some pr =>
            rw [hp, hq] at h
            simp only [Option.some.injEq, Prod.mk.injEq] at h
            exact ⟨a, ha, h.2.2.symm⟩
          | some pl, none => rw [hp, hq] at h; simp at h
          | none, some pr => rw [hp, hq] at h; simp at h
          | none, none => rw [hp, hq] at h; simp at h
        · simp at h
  · intro s' ret buf h hret
    subst hret
    simp only [avl_file_startlt] at h
    split_ifs at h with hk
    · simp at h
    · match hd : startltDescend s k data fuel (s.hdr.rootAt k) with
      | none => rw [hd] at h; exact absurd h (by simp)
      | some a =>
        rw [hd] at h
        simp only at h
        split_ifs at h with ha
        · match hp : predOf s k fuel (s.read a), hq : succOf s k fuel (s.read a) with
          | some pl, some pr =>
            rw [hp, hq] at h
            simp only [Option.some.injEq, Prod.mk.injEq] at h
            exact ⟨a, ha, h.2.2.symm⟩
          | some pl, none => rw [hp, hq] at h; simp at h
          | none, some pr => rw [hp, hq] at h; simp at h
          | none, none => rw [hp, hq] at h; simp at h
        · simp at h

/-- A one-record, one-key state for concrete witnesses: a single live
record with payload `[3]` that is root of tree 0 and head of the
sequential list, plus the cursor record at offset 1. -/
def oneRecState : State :=
  ⟨1, (fun k a b => a.getD k 0 - b.getD k 0), ⟨1, 0, [2], 2, 0, 1⟩,
    fun o =>
      if o = 1 then ⟨[⟨0x20, 0, 0⟩], 0, 0, [9]⟩
      else if o = 2 then ⟨[⟨0, 0, 0⟩], 0, 0, [3]⟩
      else ⟨[⟨0, 0, 0⟩], 0, 0, []⟩, 1, 3⟩

theorem find_buffer_frame_witness :
    (avl_file_find oneRecState [5] 0 9).map (fun r => (r.2.1, r.2.2)) =
      some (-1, [5]) ∧
    (avl_file_startge oneRecState [2] 0 9).map (fun r => (r.2.1, r.2.2)) =
      some (0, [3]) := by
  have h := (find_buffer_frame oneRecState [5] 0 9).1
  constructor
  · have hr : (avl_file_find oneRecState [5] 0 9).map
        (fun r : State × Int × Payload => r.2.1) = some (-1) := by decide
    obtain ⟨⟨s', ret, buf⟩, hfind, hproj⟩ := Option.map_eq_some'.mp hr
    have hbuf := h _ _ _ hfind hproj
    rw [hfind]
    simp only at hproj
    simp [hproj, hbuf]
  · decide

/-! ## Claim C10 (update half): with `n_keys = 0` update always fails -/

/-- With `KeyCount = 0` the update search is skipped entirely
(`if (avl_fp->n_keys > 0)`, line 1440), so `avl_file_update` returns `-1`
and leaves the state untouched, whatever the file contains. -/
theorem update_nkeys_zero (s : State) (data : Payload) (fuel : Nat)
    (h : s.n_keys = 0) :
    avl_file_update s data fuel = some (s, -1) := by
  unfold avl_file_update
  rw [h]
  simp

/-! ## Ghost predicates for the on-file linked lists -/

/-- `seqSeg s p h L t`: starting at offset `h`, whose `prev` field is `p`,
the doubly linked sequential list passes exactly through `L` and the last
element's `next` field is `t` (with `h = t` when `L` is empty). -/
def seqSeg (s : State) : Int → Int → List Int → Int → Bool
  | _, h, [], t => h == t
  | p, h, o :: rest, t =>
    h == o && decide (0 < o) && (s.read o).prev == p &&
      seqSeg s o (s.read o).next rest t

/-- The whole sequential list: from `hdr.head_seq` with no predecessor,
ending at 0. -/
def seqChain (s : State) (p h : Int) (L : List Int) : Bool :=
  seqSeg s p h L 0

/-- A singly linked list following `next` (the cursor list from
`hdr.head_cpr` and the free list from `hdr.head_empty`). -/
def nextChain (s : State) : Int → List Int → Bool
  | h, [] => h == 0
  | h, o :: rest =>
    h == o && decide (0 < o) && nextChain s (s.read o).next rest

theorem seqSeg_pos (s : State) (p h t : Int) (L : List Int)
    (hch : seqSeg s p h L t = true) : ∀ o ∈ L, 0 < o := by
  induction L generalizing p h with
  | nil => simp
  | cons o rest ih =>
    simp only [seqSeg, Bool.and_eq_true, beq_iff_eq, decide_eq_true_eq] at hch
    intro o' ho'
    rcases List.mem_cons.mp ho' with rfl | hmem
    · exact hch.1.1.2
    · exact ih _ _ hch.2 o' hmem

theorem seqSeg_frame (s s' : State) (p h t : Int) (L : List Int)
    (hfr : ∀ o ∈ L, (s'.read o).prev = (s.read o).prev ∧
      (s'.read o).next = (s.read o).next) :
    seqSeg s' p h L t = seqSeg s p h L t := by
  induction L generalizing p h with
  | nil => rfl
  | cons o rest ih =>
    have ho := hfr o (List.mem_cons_self o rest)
    simp only [seqSeg, ho.1, ho.2,
      ih _ _ (fun o' ho' => hfr o' (List.mem_cons_of_mem _ ho'))]

theorem seqSeg_append (s : State) (p h t : Int) (A B : List Int) :
    seqSeg s p h (A ++ B) t =
      (seqSeg s p h A (B.headD t) &&
        seqSeg s (A.getLastD p) (B.headD t) B t) := by
  induction A generalizing p h with
  | nil =>
    cases B with
    | nil => simp [seqSeg]
    | cons b rest =>
      simp only [List.nil_append, List.headD, List.getLastD, seqSeg]
      cases hb : h == b
      · simp [seqSeg, hb, (by simpa using hb : ¬ h = b)]
      · have : h = b := by simpa using hb
        subst this
        simp [seqSeg]
  | cons a arest ih =>
    simp only [List.cons_append, seqSeg, List.getLastD_cons]
    cases h == a <;> simp [Bool.and_assoc, ih]

theorem nextChain_frame (s s' : State) (h : Int) (C : List Int)
    (hfr : ∀ o ∈ C, (s'.read o).next = (s.read o).next) :
    nextChain s' h C = nextChain s h C := by
  induction C generalizing h with
  | nil => rfl
  | cons o rest ih =>
    simp only [nextChain, hfr o (List.mem_cons_self o rest),
      ih _ (fun o' ho' => hfr o' (List.mem_cons_of_mem _ ho'))]

/-! ## The sequential scan of delete (phase 3) -/

theorem delSeqScan_found (s : State) (data : Payload) (p h : Int)
    (L : List Int) (fuel : Nat)
    (hchain : seqSeg s p h L 0 = true)
    (hfuel : L.length + 1 ≤ fuel)
    (hmem : ∃ o ∈ L, (s.read o).b = data) :
    ∃ y ∈ L, (s.read y).b = data ∧
      delSeqScan s data fuel h = some (some (y, s.read y)) := by
  induction L generalizing p h fuel with
  | nil => simp at hmem
  | cons o rest ih =>
    simp only [seqSeg, Bool.and_eq_true, beq_iff_eq, decide_eq_true_eq] at hchain
    obtain ⟨⟨⟨rfl, hpos⟩, hprev⟩, hrest⟩ := hchain
    match fuel, hfuel with
    | fuel + 1, hfuel =>
      rw [delSeqScan, if_pos hpos]
      by_cases hd : data = (s.read h).b
      · exact ⟨h, List.mem_cons_self _ _, hd.symm, by simp [hd]⟩
      · simp only [if_neg hd]
        have hmem' : ∃ o ∈ rest, (s.read o).b = data := by
          rcases hmem with ⟨o', ho', hb⟩
          rcases List.mem_cons.mp ho' with rfl | h'
          · exact absurd hb.symm hd
          · exact ⟨o', h', hb⟩
        obtain ⟨y, hy, hyb, hscan⟩ :=
          ih _ _ (fuel) hrest (by simpa using hfuel) hmem'
        exact ⟨y, List.mem_cons_of_mem _ hy, hyb, hscan⟩

theorem delSeqScan_not_found (s : State) (data : Payload) (p h : Int)
    (L : List Int) (fuel : Nat)
    (hchain : seqSeg s p h L 0 = true)
    (hfuel : L.length + 1 ≤ fuel)
    (hmem : ∀ o ∈ L, (s.read o).b ≠ data) :
    delSeqScan s data fuel h = some none := by
  induction L generalizing p h fuel with
  | nil =>
    simp only [seqSeg, beq_iff_eq] at hchain
    match fuel, hfuel with
    | fuel + 1, _ =>
      rw [delSeqScan, hchain]
      simp
  | cons o rest ih =>
    simp only [seqSeg, Bool.and_eq_true, beq_iff_eq, decide_eq_true_eq] at hchain
    obtain ⟨⟨⟨rfl, hpos⟩, hprev⟩, hrest⟩ := hchain
    match fuel, hfuel with
    | fuel + 1, hfuel =>
      rw [delSeqScan, if_pos hpos,
        if_neg (fun hd => hmem h (List.mem_cons_self _ _) hd.symm)]
      exact ih _ _ fuel hrest (by simpa using hfuel)
        (fun o' ho' => hmem o' (List.mem_cons_of_mem _ ho'))

/-! ## The cursor-advance walk of delete -/

theorem curAdjustK_prev_next (y : Int) (urn : List AvlNode) (k rem : Nat)
    (cpr : AvlRec) (upd : Bool) :
    (curAdjustK y urn k rem cpr upd).1.prev = cpr.prev ∧
    (curAdjustK y urn k rem cpr upd).1.next = cpr.next ∧
    (curAdjustK y urn k rem cpr upd).1.b = cpr.b := by
  induction rem generalizing k cpr upd with
  | zero => exact ⟨rfl, rfl, rfl⟩
  | succ rem ih =>
    rw [curAdjustK]
    split_ifs <;>
      simpa [AvlRec.setNode] using ih (k + 1) _ _

theorem delCursors_spec (y ynext : Int) (urn : List AvlNode) (nk : Nat)
    (C : List Int) :
    ∀ (s : State) (fuel : Nat) (h : Int),
    nextChain s h C = true → C.length + 1 ≤ fuel →
    ∃ s', delCursors s y ynext urn nk fuel h = some s' ∧
      (∀ o, o ∉ C → s'.read o = s.read o) ∧
      (∀ o, (s'.read o).next = (s.read o).next ∧
        (s'.read o).b = (s.read o).b) ∧
      s'.hdr = s.hdr ∧ s'.cpr = s.cpr ∧ s'.n_keys = s.n_keys ∧
      s'.cmp = s.cmp := by
  induction C with
  | nil =>
    intro s fuel h hchain hfuel
    simp only [nextChain, beq_iff_eq] at hchain
    match fuel, hfuel with
    | fuel + 1, _ =>
      rw [delCursors, hchain]
      exact ⟨s, by norm_num, fun o _ => rfl, fun o => ⟨rfl, rfl⟩, rfl, rfl,
        rfl, rfl⟩
  | cons o rest ih =>
    intro s fuel h hchain hfuel
    simp only [nextChain, Bool.and_eq_true, beq_iff_eq, decide_eq_true_eq]
      at hchain
    obtain ⟨⟨rfl, hpos⟩, hrest⟩ := hchain
    match fuel, hfuel with
    | fuel + 1, hfuel =>
      set c1 : AvlRec × Bool :=
        if (s.read h).prev = y then ({ s.read h with prev := ynext }, true)
        else (s.read h, false) with hc1
      set c2 := curAdjustK y urn 0 nk c1.1 c1.2 with hc2
      have hc1pn : c1.1.next = (s.read h).next ∧ c1.1.b = (s.read h).b := by
        rw [hc1]; split_ifs <;> exact ⟨rfl, rfl⟩
      have hc2pn : c2.1.next = (s.read h).next ∧ c2.1.b = (s.read h).b := by
        have := curAdjustK_prev_next y urn 0 nk c1.1 c1.2
        rw [hc2]
        exact ⟨this.2.1.trans hc1pn.1, this.2.2.trans hc1pn.2⟩
      set s2 : State := if c2.2 then s.write h c2.1 else s with hs2
      have hs2ne : ∀ o', o' ≠ h → s2.read o' = s.read o' := by
        intro o' ho'
        rw [hs2]
        split_ifs with hu
        · exact read_write_ne s h o' c2.1 ho'
        · rfl
      have hs2nb : ∀ o', (s2.read o').next = (s.read o').next ∧
          (s2.read o').b = (s.read o').b := by
        intro o'
        by_cases ho' : o' = h
        · subst ho'
          rw [hs2]
          split_ifs with hu
          · simpa using hc2pn
          · exact ⟨rfl, rfl⟩
        · rw [hs2ne o' ho']; exact ⟨rfl, rfl⟩
      have hs2hdr : s2.hdr = s.hdr ∧ s2.cpr = s.cpr ∧ s2.n_keys = s.n_keys ∧
          s2.cmp = s.cmp := by
        rw [hs2]
        split_ifs with hu <;> exact ⟨rfl, rfl, rfl, rfl⟩
      have hrest2 : nextChain s2 (s.read h).next rest = true := by
        rw [nextChain_frame s s2 _ rest (fun o' _ => (hs2nb o').1)]
        exact hrest
      obtain ⟨s', hrun, hne, hnb, hhdr, hcpr, hnk, hcmp⟩ :=
        ih s2 fuel (s.read h).next hrest2 (by simpa using hfuel)
      have hstep : delCursors s y ynext urn nk (fuel + 1) h =
          delCursors s2 y ynext urn nk fuel c2.1.next := by
        rw [delCursors, if_pos hpos]
      refine ⟨s', ?_, ?_, ?_, hhdr.trans hs2hdr.1, hcpr.trans hs2hdr.2.1,
        hnk.trans hs2hdr.2.2.1, hcmp.trans hs2hdr.2.2.2⟩
      · rw [hstep, hc2pn.1]
        exact hrun
      · intro o' ho'
        have h1 : o' ∉ rest := fun hm => ho' (List.mem_cons_of_mem _ hm)
        have h2 : o' ≠ h := fun he => ho' (he ▸ List.mem_cons_self _ _)
        rw [hne o' h1, hs2ne o' h2]
      · intro o'
        refine ⟨(hnb o').1.trans (hs2nb o').1, (hnb o').2.trans (hs2nb o').2⟩

/-- C10: when the file is opened with `KeyCount = 0`, `avl_file_update`
always returns `-1` with the state untouched, because its search only runs
when `n_keys > 0`; `avl_file_delete` in the same configuration still
succeeds, locating the record by the sequential-list scan.  `L` is the
sequential list, `C` the cursor list. -/
theorem nkeys_zero_update_fails_delete_succeeds
    (s : State) (data : Payload) (fuel : Nat) (L C : List Int)
    (h0 : s.n_keys = 0)
    (hchain : seqChain s 0 s.hdr.head_seq L = true)
    (hcpr : nextChain s s.hdr.head_cpr C = true)
    (hmem : ∃ o ∈ L, (s.read o).b = data)
    (hfL : L.length + 1 ≤ fuel) (hfC : C.length + 1 ≤ fuel) :
    avl_file_update s data fuel = some (s, -1) ∧
    ∃ s', avl_file_delete s data fuel = some (s', 0) := by
  refine ⟨update_nkeys_zero s data fuel h0, ?_⟩
  obtain ⟨y, hyL, hyb, hscan⟩ :=
    delSeqScan_found s data 0 s.hdr.head_seq L fuel hchain hfL hmem
  have h1 : delPhase1 s data fuel 0 0 = some none := rfl
  have h4 : delNeighbors s (s.read y) fuel 0 0 = some [] := rfl
  obtain ⟨s1, hcur, _, _, _, _, hnk1, _⟩ :=
    delCursors_spec y (s.read y).next [] 0 C s fuel s.hdr.head_cpr hcpr hfC
  have h6 : delKeys s1 y fuel [] 0 0 (s.read y) = some (s1, s.read y) := rfl
  simp only [avl_file_delete, delFinish, h0, h1, hscan, h4, hcur, hnk1, h6,
    if_neg (Nat.lt_irrefl 0)]
  exact ⟨_, rfl⟩

/-- A `KeyCount = 0` file with a cursor record at offset 1 and two live
records at offsets 2 and 3 (payloads `[7]` and `[4]`). -/
def zeroKeyState : State :=
  ⟨0, fun _ _ _ => 0, ⟨2, 0, [], 2, 0, 1⟩,
    fun o =>
      if o = 1 then ⟨[], 0, 0, [9]⟩
      else if o = 2 then ⟨[], 0, 3, [7]⟩
      else if o = 3 then ⟨[], 2, 0, [4]⟩
      else ⟨[], 0, 0, []⟩, 1, 4⟩

theorem nkeys_zero_witness :
    avl_file_update zeroKeyState [4] 9 = some (zeroKeyState, -1) ∧
    ∃ s', avl_file_delete zeroKeyState [4] 9 = some (s', 0) :=
  nkeys_zero_update_fails_delete_succeeds zeroKeyState [4] 9 [2, 3] [1] rfl
    (by decide) (by decide) (by decide) (by decide) (by decide)

/-! ## Tree phases only touch per-key node fields

The tree loops of insert and delete write every record back with the
`prev`/`next`/payload bytes it was read with, so those fields — and hence
the sequential list — survive any tree surgery.  `recPN s₀ o r` says the
copy `r` agrees with slot `o` of the base state on those fields; `pnEq`
says a whole state does. -/

def recPN (s₀ : State) (o : Int) (r : AvlRec) : Prop :=
  r.prev = (s₀.read o).prev ∧ r.next = (s₀.read o).next ∧
    r.b = (s₀.read o).b

def pnEq (s₀ s : State) : Prop :=
  (∀ o, recPN s₀ o (s.read o)) ∧
  s.hdr.head_seq = s₀.hdr.head_seq ∧
  s.hdr.head_empty = s₀.hdr.head_empty ∧
  s.hdr.head_cpr = s₀.hdr.head_cpr ∧
  s.hdr.n_avl = s₀.hdr.n_avl ∧
  s.hdr.nextnum = s₀.hdr.nextnum ∧
  s.cpr = s₀.cpr ∧ s.n_keys = s₀.n_keys ∧ s.cmp = s₀.cmp

theorem pnEq_refl (s : State) : pnEq s s :=
  ⟨fun _ => ⟨rfl, rfl, rfl⟩, rfl, rfl, rfl, rfl, rfl, rfl, rfl, rfl⟩

theorem recPN_of_pnEq (s₀ s : State) (h : pnEq s₀ s) (o : Int) (r : AvlRec)
    (hr : recPN s o r) : recPN s₀ o r :=
  ⟨hr.1.trans (h.1 o).1, hr.2.1.trans (h.1 o).2.1, hr.2.2.trans (h.1 o).2.2⟩

theorem recPN_read (s : State) (o : Int) : recPN s o (s.read o) :=
  ⟨rfl, rfl, rfl⟩

theorem recPN_setNode (s₀ : State) (o : Int) (r : AvlRec) (k : Nat)
    (nd : AvlNode) (h : recPN s₀ o r) : recPN s₀ o (r.setNode k nd) := h

/-- A record that agrees on `prev`/`next`/payload with a faithful copy is
itself faithful; the three equations close by `rfl` through any chain of
`setNode`s. -/
theorem recPN_ext (s₀ : State) (o : Int) (r' r : AvlRec)
    (h : recPN s₀ o r') (hp : r.prev = r'.prev) (hn : r.next = r'.next)
    (hb : r.b = r'.b) : recPN s₀ o r :=
  ⟨hp.trans h.1, hn.trans h.2.1, hb.trans h.2.2⟩

theorem pnEq_write (s₀ s : State) (o : Int) (r : AvlRec)
    (h : pnEq s₀ s) (hr : recPN s₀ o r) : pnEq s₀ (s.write o r) := by
  refine ⟨fun o' => ?_, h.2.1, h.2.2.1, h.2.2.2.1, h.2.2.2.2.1,
    h.2.2.2.2.2.1, h.2.2.2.2.2.2.1, h.2.2.2.2.2.2.2.1, h.2.2.2.2.2.2.2.2⟩
  by_cases ho : o' = o
  · subst ho
    simpa using hr
  · rw [read_write_ne s o o' r ho]
    exact h.1 o'

theorem pnEq_setRoot (s₀ s : State) (k : Nat) (v : Int) (h : pnEq s₀ s) :
    pnEq s₀ (s.setHdr (s.hdr.setRoot k v)) := by
  refine ⟨h.1, ?_⟩
  simpa [Hdr.setRoot, State.setHdr] using h.2

theorem pnEq_trans (s₀ s₁ s₂ : State) (h1 : pnEq s₀ s₁) (h2 : pnEq s₁ s₂) :
    pnEq s₀ s₂ := by
  refine ⟨fun o => recPN_of_pnEq s₀ s₁ h1 o _ (h2.1 o), ?_, ?_, ?_, ?_, ?_,
    ?_, ?_, ?_⟩ <;>
    first
      | exact h2.2.1.trans h1.2.1
      | exact h2.2.2.1.trans h1.2.2.1
      | exact h2.2.2.2.1.trans h1.2.2.2.1
      | exact h2.2.2.2.2.1.trans h1.2.2.2.2.1
      | exact h2.2.2.2.2.2.1.trans h1.2.2.2.2.2.1
      | exact h2.2.2.2.2.2.2.1.trans h1.2.2.2.2.2.2.1
      | exact h2.2.2.2.2.2.2.2.1.trans h1.2.2.2.2.2.2.2.1
      | exact h2.2.2.2.2.2.2.2.2.trans h1.2.2.2.2.2.2.2.2

theorem insRotPlus_pn (s₀ s : State) (k : Nat) (a b : Int) (ar : AvlRec)
    (h : pnEq s₀ s) (har : recPN s₀ a ar) :
    pnEq s₀ (insRotPlus s k a b ar).1 := by
  simp only [insRotPlus]
  split_ifs <;>
    first
      | exact pnEq_write _ _ _ _ (pnEq_write _ _ _ _ h
          (recPN_ext _ _ _ _ har rfl rfl rfl))
          (recPN_ext _ _ _ _ (recPN_of_pnEq _ _ h _ _ (recPN_read s b))
            rfl rfl rfl)
      | exact pnEq_write _ _ _ _
          (pnEq_write _ _ _ _ (pnEq_write _ _ _ _ h
            (recPN_ext _ _ _ _ har rfl rfl rfl))
            (recPN_ext _ _ _ _ (recPN_of_pnEq _ _ h _ _ (recPN_read s b))
              rfl rfl rfl))
          (recPN_ext _ _ _ _ (recPN_of_pnEq _ _ h _ _ (recPN_read s _))
            rfl rfl rfl)

theorem insRotMinus_pn (s₀ s : State) (k : Nat) (a b : Int) (ar : AvlRec)
    (h : pnEq s₀ s) (har : recPN s₀ a ar) :
    pnEq s₀ (insRotMinus s k a b ar).1 := by
  simp only [insRotMinus]
  split_ifs <;>
    first
      | exact pnEq_write _ _ _ _ (pnEq_write _ _ _ _ h
          (recPN_ext _ _ _ _ har rfl rfl rfl))
          (recPN_ext _ _ _ _ (recPN_of_pnEq _ _ h _ _ (recPN_read s b))
            rfl rfl rfl)
      | exact pnEq_write _ _ _ _
          (pnEq_write _ _ _ _ (pnEq_write _ _ _ _ h
            (recPN_ext _ _ _ _ har rfl rfl rfl))
            (recPN_ext _ _ _ _ (recPN_of_pnEq _ _ h _ _ (recPN_read s b))
              rfl rfl rfl))
          (recPN_ext _ _ _ _ (recPN_of_pnEq _ _ h _ _ (recPN_read s _))
            rfl rfl rfl)

theorem insWalk_pn (s₀ : State) (k : Nat) (yb : Payload) (y : Int) :
    ∀ (fuel : Nat) (s : State) (p : Int) (s' : State), pnEq s₀ s →
      insWalk s k yb y fuel p = some s' → pnEq s₀ s' := by
  intro fuel
  induction fuel with
  | zero => intro s p s' _ h; simp [insWalk] at h
  | succ fuel ih =>
    intro s p s' hpn h
    simp only [insWalk] at h
    split_ifs at h with hy hc
    · cases h
      exact hpn
    · refine ih _ _ _ ?_ h
      exact pnEq_write _ _ _ _ hpn
        (recPN_ext _ _ _ _
          (recPN_of_pnEq _ _ hpn _ _ (recPN_read s p)) rfl rfl rfl)
    · refine ih _ _ _ ?_ h
      exact pnEq_write _ _ _ _ hpn
        (recPN_ext _ _ _ _
          (recPN_of_pnEq _ _ hpn _ _ (recPN_read s p)) rfl rfl rfl)

theorem insDescend_pn (s : State) (k : Nat) (yb : Payload) :
    ∀ (fuel : Nat) (p a f q : Int) (ar fr qr : AvlRec)
      (res : Int × Int × Int × Int × AvlRec × AvlRec × AvlRec),
      (f ≠ 0 → recPN s f fr) → (q ≠ 0 → recPN s q qr) → (0 < p ∨ q ≠ 0) →
      insDescend s k yb fuel p a f q ar fr qr = some res →
      (res.2.2.1 ≠ 0 → recPN s res.2.2.1 res.2.2.2.2.2.1) ∧
        recPN s res.2.2.2.1 res.2.2.2.2.2.2 := by
  intro fuel
  induction fuel with
  | zero => intro p a f q ar fr qr res _ _ _ h; simp [insDescend] at h
  | succ fuel ih =>
    intro p a f q ar fr qr res hf hq hpq h
    simp only [insDescend] at h
    split_ifs at h with hp hb hc hc
    · exact ih _ _ _ _ _ _ _ _ hq
        (fun _ => recPN_read s p) (Or.inr (ne_of_gt hp)) h
    · exact ih _ _ _ _ _ _ _ _ hf
        (fun _ => recPN_read s p) (Or.inr (ne_of_gt hp)) h
    · exact ih _ _ _ _ _ _ _ _ hq
        (fun _ => recPN_read s p) (Or.inr (ne_of_gt hp)) h
    · exact ih _ _ _ _ _ _ _ _ hf
        (fun _ => recPN_read s p) (Or.inr (ne_of_gt hp)) h
    · cases h
      rcases hpq with hpq | hpq
      · exact absurd hpq hp
      · exact ⟨hf, hq hpq⟩

theorem insFinish_pn (s₀ s : State) (k : Nat) (a b d f : Int)
    (ar fr : AvlRec) (h : pnEq s₀ s) (har : recPN s₀ a ar)
    (hfr : f ≠ 0 → recPN s₀ f fr) :
    pnEq s₀ (insFinish s k a b d f ar fr) := by
  simp only [insFinish]
  split_ifs <;>
    first
      | exact (False.elim (by assumption))
      | exact h
      | exact pnEq_write _ _ _ _ h (recPN_ext _ _ _ _ har rfl rfl rfl)
      | exact pnEq_write _ _ _ _
          (pnEq_write _ _ _ _ h (recPN_ext _ _ _ _ har rfl rfl rfl))
          (recPN_ext _ _ _ _ har rfl rfl rfl)
      | exact pnEq_setRoot _ _ _ _ (insRotPlus_pn s₀ s k a b ar h har)
      | exact pnEq_setRoot _ _ _ _ (insRotMinus_pn s₀ s k a b ar h har)
      | exact pnEq_write _ _ _ _ (insRotPlus_pn s₀ s k a b ar h har)
          (recPN_ext _ _ _ _ (hfr (by assumption)) rfl rfl rfl)
      | exact pnEq_write _ _ _ _ (insRotMinus_pn s₀ s k a b ar h har)
          (recPN_ext _ _ _ _ (hfr (by assumption)) rfl rfl rfl)

theorem insKey_pn (s₀ s : State) (y : Int) (k : Nat) (fuel : Nat)
    (s' : State) (hpn : pnEq s₀ s) (h : insKey s y k fuel = some s') :
    pnEq s₀ s' := by
  rw [insKey] at h
  by_cases ha : 0 < s.hdr.rootAt k
  · rw [if_pos ha] at h
    simp only [] at h
    rcases hdes : insDescend s k (s.read y).b fuel (s.hdr.rootAt k)
        (s.hdr.rootAt k) 0 0 (s.read (s.hdr.rootAt k))
        (s.read (s.hdr.rootAt k)) (s.read (s.hdr.rootAt k)) with _ | res
    · rw [hdes] at h; cases h
    · obtain ⟨hfres, hqres⟩ := insDescend_pn s k (s.read y).b fuel
        (s.hdr.rootAt k) (s.hdr.rootAt k) 0 0 (s.read (s.hdr.rootAt k))
        (s.read (s.hdr.rootAt k)) (s.read (s.hdr.rootAt k)) res
        (fun hf0 => absurd rfl hf0) (fun hq0 => absurd rfl hq0)
        (Or.inl ha) hdes
      obtain ⟨p, a2, f, q, ar2, fr, qr⟩ := res
      rw [hdes] at h
      simp only [] at h hfres hqres
      -- the state after the leaf link preserves prev/next/payload
      have hlink : ∀ yr1 qr1 : AvlRec,
          yr1.prev = (s.read y).prev → yr1.next = (s.read y).next →
          yr1.b = (s.read y).b →
          qr1.prev = qr.prev → qr1.next = qr.next → qr1.b = qr.b →
          pnEq s₀ ((s.write y yr1).write q qr1) := by
        intro yr1 qr1 hyp hyn hyb hqp hqn hqb
        exact pnEq_write _ _ _ _
          (pnEq_write _ _ _ _ hpn (recPN_ext _ _ _ _
            (recPN_of_pnEq _ _ hpn _ _ (recPN_read s y)) hyp hyn hyb))
          (recPN_ext _ _ _ _ (recPN_of_pnEq _ _ hpn _ _ hqres)
            hqp hqn hqb)
      split_ifs at h with hcmp hdir
      all_goals
        obtain ⟨s₂, hw, hfin⟩ := Option.map_eq_some'.mp h
      all_goals cases hfin
      all_goals
        refine insFinish_pn s₀ s₂ k a2 _ _ f _ fr ?_ ?_
          (fun hf0 => recPN_of_pnEq _ _ hpn _ _ (hfres hf0))
      all_goals
        first
          | (refine insWalk_pn s₀ k _ y fuel _ _ _ ?_ hw
             exact hlink _ _ rfl rfl rfl rfl rfl rfl)
          | (refine recPN_of_pnEq _ _ ?_ _ _ (recPN_read _ a2)
             exact hlink _ _ rfl rfl rfl rfl rfl rfl)
  · rw [if_neg ha] at h
    cases h
    exact pnEq_setRoot _ _ _ _
      (pnEq_write _ _ _ _ hpn (recPN_setNode _ _ _ _ _
        (recPN_of_pnEq _ _ hpn _ _ (recPN_read s y))))

theorem insKeys_pn (s₀ : State) (y : Int) (fuel : Nat) :
    ∀ (rem k : Nat) (s s' : State), pnEq s₀ s →
      insKeys s y fuel k rem = some s' → pnEq s₀ s' := by
  intro rem
  induction rem with
  | zero =>
    intro k s s' hpn h
    rw [insKeys] at h
    cases h
    exact hpn
  | succ rem ih =>
    intro k s s' hpn h
    rw [insKeys] at h
    rcases hk : insKey s y k fuel with _ | s₁ <;> rw [hk] at h
    · cases h
    · exact ih _ _ _ (insKey_pn s₀ s y k fuel s₁ hpn hk) h

/-! ## The sequential-list shape of insert (claim C5) -/

theorem insAlloc_read (s : State) (o : Int) :
    (insAlloc s).1.read o = s.read o := by
  rw [insAlloc]; split_ifs <;> rfl

theorem insAlloc_head_seq (s : State) :
    (insAlloc s).1.hdr.head_seq = s.hdr.head_seq := by
  rw [insAlloc]; split_ifs <;> rfl

theorem insAlloc_cpr (s : State) : (insAlloc s).1.cpr = s.cpr := by
  rw [insAlloc]; split_ifs <;> rfl

theorem insAlloc_n_keys (s : State) : (insAlloc s).1.n_keys = s.n_keys := by
  rw [insAlloc]; split_ifs <;> rfl

theorem insAlloc_snd (s : State) : (insAlloc s).2 = yAlloc s := by
  rw [insAlloc, yAlloc]; split_ifs <;> rfl

/-- Draining `avl_file_readseq` from a state whose cursor points at the
head of a well-formed chain returns exactly the payloads of the chain, in
chain order. -/
theorem drainReadseq_spec (L : List Int) : ∀ (s : State) (p : Int),
    seqSeg s p ((s.read s.cpr).prev) L 0 = true → s.cpr ∉ L →
    drainReadseq s (L.length + 1) = L.map (fun o => (s.read o).b) := by
  induction L with
  | nil =>
    intro s p hch _
    simp only [seqSeg, beq_iff_eq] at hch
    simp [drainReadseq, avl_file_readseq, hch]
  | cons o rest ih =>
    intro s p hch hcpr
    simp only [seqSeg, Bool.and_eq_true, beq_iff_eq, decide_eq_true_eq] at hch
    obtain ⟨⟨⟨ho, hopos⟩, hprev⟩, hrest⟩ := hch
    have hone : avl_file_readseq s [] =
        (s.write s.cpr { s.read s.cpr with prev := (s.read o).next },
          0, (s.read o).b) := by
      rw [avl_file_readseq]
      simp only [ho]
      rw [if_neg (ne_of_gt hopos)]
    have hstep : drainReadseq s ((o :: rest).length + 1) =
        (s.read o).b :: drainReadseq
          (s.write s.cpr { s.read s.cpr with prev := (s.read o).next })
          (rest.length + 1) := by
      show drainReadseq s (rest.length + 1 + 1) = _
      rw [drainReadseq, hone]
      rfl
    rw [hstep]
    have hccpr : ∀ o' ∈ rest, o' ≠ s.cpr := by
      intro o' ho' he
      exact hcpr (he ▸ List.mem_cons_of_mem _ ho')
    have hframe : ∀ o' ∈ rest,
        ((s.write s.cpr { s.read s.cpr with
          prev := (s.read o).next }).read o').prev = (s.read o').prev ∧
        ((s.write s.cpr { s.read s.cpr with
          prev := (s.read o).next }).read o').next = (s.read o').next := by
      intro o' ho'
      rw [read_write_ne _ _ _ _ (hccpr o' ho')]
      exact ⟨rfl, rfl⟩
    have hch2 : seqSeg
        (s.write s.cpr { s.read s.cpr with prev := (s.read o).next }) o
        (((s.write s.cpr { s.read s.cpr with prev := (s.read o).next }).read
          (s.write s.cpr { s.read s.cpr with
            prev := (s.read o).next }).cpr).prev) rest 0 = true := by
      rw [write_cpr, read_write_self]
      rw [seqSeg_frame _ _ _ _ _ _ hframe]
      exact hrest
    have hcpr2 : (s.write s.cpr { s.read s.cpr with
        prev := (s.read o).next }).cpr ∉ rest := by
      rw [write_cpr]
      intro hmem
      exact hcpr (List.mem_cons_of_mem _ hmem)
    rw [ih _ o hch2 hcpr2]
    rw [List.map_cons]
    congr 1
    refine List.map_congr_left ?_
    intro o' ho'
    rw [read_write_ne _ _ _ _ (hccpr o' ho')]

/-- Successful insert prepends the freshly allocated slot to the
sequential list and leaves every other record's payload in place. -/
theorem insert_prepends_aux (s : State) (data : Payload) (fuel : Nat)
    (L : List Int) (s' : State) (ret : Int)
    (hov : ¬ wrap64 (s.hdr.n_avl + 1) < 0)
    (hchain : seqChain s 0 s.hdr.head_seq L = true)
    (hnd : L.Nodup)
    (hy : 0 < yAlloc s) (hymem : yAlloc s ∉ L)
    (h : avl_file_insert s data fuel = some (s', ret)) :
    ret = 0 ∧ s'.hdr.head_seq = yAlloc s ∧ s'.cpr = s.cpr ∧
      seqChain s' 0 (yAlloc s) (yAlloc s :: L) = true ∧
      (s'.read (yAlloc s)).b = data ∧
      (∀ o ∈ L, (s'.read o).b = (s.read o).b) := by
  rw [avl_file_insert, if_neg hov] at h
  simp only [insAlloc_snd, insAlloc_read, insAlloc_head_seq] at h
  rcases L with _ | ⟨o, rest⟩
  · -- empty sequential list: the `0 < yr.next` write is skipped
    simp only [seqChain, seqSeg, beq_iff_eq] at hchain
    rw [hchain] at h
    rw [if_neg (lt_irrefl (0 : Int))] at h
    obtain ⟨s5, hk, hfin⟩ := Option.map_eq_some'.mp h
    injection hfin with hfin1 hfin2
    subst hfin1
    subst hfin2
    have hpn := insKeys_pn _ _ _ _ _ _ _ (pnEq_refl _) hk
    have hchain4 : ∀ t : State, (t.read (yAlloc s)).prev = 0 →
        (t.read (yAlloc s)).next = 0 →
        seqChain t 0 (yAlloc s) [yAlloc s] = true := by
      intro t h1 h2
      simp only [seqChain, seqSeg, Bool.and_eq_true, beq_iff_eq,
        decide_eq_true_eq]
      refine ⟨⟨⟨by trivial, hy⟩, h1⟩, ?_⟩
      rw [h2]
    refine ⟨rfl, hpn.2.1, (hpn.2.2.2.2.2.2.1).trans (insAlloc_cpr s),
      hchain4 _ (((hpn.1 _).1).trans (by rw [read_write_self]))
        (((hpn.1 _).2.1).trans (by rw [read_write_self])),
      ((hpn.1 _).2.2).trans (by rw [read_write_self]),
      fun o' ho' => absurd ho' (List.not_mem_nil o')⟩
  · -- nonempty list: the head record's back pointer is redirected
    simp only [seqChain, seqSeg, Bool.and_eq_true, beq_iff_eq,
      decide_eq_true_eq] at hchain
    obtain ⟨⟨⟨hH, hopos⟩, hprev⟩, hrest⟩ := hchain
    rw [hH] at h
    rw [if_pos hopos] at h
    obtain ⟨s5, hk, hfin⟩ := Option.map_eq_some'.mp h
    injection hfin with hfin1 hfin2
    subst hfin1
    subst hfin2
    have hpn := insKeys_pn _ _ _ _ _ _ _ (pnEq_refl _) hk
    have hoy : o ≠ yAlloc s := fun e =>
      hymem (by rw [← e]; exact List.mem_cons_self o rest)
    obtain ⟨honotin, hndrest⟩ := List.nodup_cons.mp hnd
    have hrny : ∀ o' ∈ rest, o' ≠ yAlloc s := fun o' ho' e =>
      hymem (by rw [← e]; exact List.mem_cons_of_mem _ ho')
    have hrno : ∀ o' ∈ rest, o' ≠ o := fun o' ho' e => honotin (e ▸ ho')
    have hchain4 : ∀ t : State,
        (t.read (yAlloc s)).prev = 0 → (t.read (yAlloc s)).next = o →
        (t.read o).prev = yAlloc s → (t.read o).next = (s.read o).next →
        (∀ o' ∈ rest, (t.read o').prev = (s.read o').prev ∧
            (t.read o').next = (s.read o').next) →
        seqChain t 0 (yAlloc s) (yAlloc s :: o :: rest) = true := by
      intro t h1 h2 h3 h4 h5
      simp only [seqChain, seqSeg, Bool.and_eq_true, beq_iff_eq,
        decide_eq_true_eq]
      refine ⟨⟨⟨by trivial, hy⟩, h1⟩, ⟨⟨h2, hopos⟩, h3⟩, ?_⟩
      rw [h4, seqSeg_frame _ _ _ _ _ _ h5]
      exact hrest
    refine ⟨rfl, hpn.2.1, (hpn.2.2.2.2.2.2.1).trans (insAlloc_cpr s),
      hchain4 _ (((hpn.1 _).1).trans (by rw [read_write_self]))
        (((hpn.1 _).2.1).trans (by rw [read_write_self]))
        (((hpn.1 _).1).trans (by
          rw [read_write_ne _ _ _ _ hoy, setHdr_read, read_write_self]))
        (((hpn.1 _).2.1).trans (by
          rw [read_write_ne _ _ _ _ hoy, setHdr_read, read_write_self]))
        (fun o' ho' =>
          ⟨((hpn.1 o').1).trans (by
            rw [read_write_ne _ _ _ _ (hrny o' ho'), setHdr_read,
              read_write_ne _ _ _ _ (hrno o' ho'), insAlloc_read]),
           ((hpn.1 o').2.1).trans (by
            rw [read_write_ne _ _ _ _ (hrny o' ho'), setHdr_read,
              read_write_ne _ _ _ _ (hrno o' ho'), insAlloc_read])⟩),
      ((hpn.1 _).2.2).trans (by rw [read_write_self]), ?_⟩
    intro o' ho'
    rcases List.mem_cons.mp ho' with rfl | ho2
    · exact ((hpn.1 o').2.2).trans (by
        rw [read_write_ne _ _ _ _ hoy, setHdr_read, read_write_self])
    · exact ((hpn.1 o').2.2).trans (by
        rw [read_write_ne _ _ _ _ (hrny o' ho2), setHdr_read,
          read_write_ne _ _ _ _ (hrno o' ho2), insAlloc_read])

/-- C5: after `avl_file_startseq` seeds the cursor with `head_seq`,
draining `avl_file_readseq` returns the payloads of exactly the records
of the sequential chain, each once and in chain order; `avl_file_readseq`
returns `-1` exactly when the cursor's `prev` field is `0`; and a
successful `avl_file_insert` prepends its freshly allocated record to the
chain, so after the insert the scan yields the new payload first — the
chain order is reverse insertion order. -/
theorem readseq_reverse_insertion_order
    (s : State) (data : Payload) (fuel : Nat) (L : List Int)
    (s' : State) (ret : Int)
    (hchain : seqChain s 0 s.hdr.head_seq L = true)
    (hnd : L.Nodup)
    (hcpr : s.cpr ∉ L)
    (hov : ¬ wrap64 (s.hdr.n_avl + 1) < 0)
    (hy : 0 < yAlloc s) (hymem : yAlloc s ∉ L) (hycpr : yAlloc s ≠ s.cpr)
    (hins : avl_file_insert s data fuel = some (s', ret)) :
    drainReadseq (avl_file_startseq s) (L.length + 1) =
        L.map (fun o => (s.read o).b) ∧
      (∀ (t : State) (buf : Payload),
        (avl_file_readseq t buf).2.1 = -1 ↔ (t.read t.cpr).prev = 0) ∧
      ret = 0 ∧
      seqChain s' 0 s'.hdr.head_seq (yAlloc s :: L) = true ∧
      drainReadseq (avl_file_startseq s') (L.length + 2) =
        data :: L.map (fun o => (s.read o).b) := by
  have hstartseq : ∀ (t : State), avl_file_startseq t =
      t.write t.cpr { t.read t.cpr with prev := t.hdr.head_seq } :=
    fun t => rfl
  have hdrain : ∀ (t : State) (M : List Int),
      seqChain t 0 t.hdr.head_seq M = true → t.cpr ∉ M →
      drainReadseq (avl_file_startseq t) (M.length + 1) =
        M.map (fun o => (t.read o).b) := by
    intro t M hch hc
    have hne : ∀ o' ∈ M, o' ≠ t.cpr := fun o' ho' e => hc (e ▸ ho')
    have hfr : ∀ o' ∈ M,
        ((avl_file_startseq t).read o').prev = (t.read o').prev ∧
        ((avl_file_startseq t).read o').next = (t.read o').next := by
      intro o' ho'
      rw [hstartseq, read_write_ne _ _ _ _ (hne o' ho')]
      exact ⟨rfl, rfl⟩
    have hcp : (avl_file_startseq t).cpr ∉ M := hc
    have hp : ((avl_file_startseq t).read (avl_file_startseq t).cpr).prev =
        t.hdr.head_seq := by
      rw [hstartseq, write_cpr, read_write_self]
    have hch2 : seqSeg (avl_file_startseq t) 0
        (((avl_file_startseq t).read (avl_file_startseq t).cpr).prev) M 0 =
        true := by
      rw [hp, seqSeg_frame _ _ _ _ _ _ hfr]
      exact hch
    rw [drainReadseq_spec M (avl_file_startseq t) 0 hch2 hcp]
    refine List.map_congr_left ?_
    intro o' ho'
    rw [hstartseq, read_write_ne _ _ _ _ (hne o' ho')]
  have hiff : ∀ (t : State) (buf : Payload),
      (avl_file_readseq t buf).2.1 = -1 ↔ (t.read t.cpr).prev = 0 := by
    intro t buf
    simp only [avl_file_readseq]
    by_cases hp : (t.read t.cpr).prev = 0
    · simp [hp]
    · simp [hp]
  obtain ⟨hret, hhd, hcpr', hch', hyb, hpay⟩ :=
    insert_prepends_aux s data fuel L s' ret hov hchain hnd hy hymem hins
  have hcpr2 : s'.cpr ∉ yAlloc s :: L := by
    rw [hcpr']
    intro hmem
    rcases List.mem_cons.mp hmem with e | hm
    · exact hycpr e.symm
    · exact hcpr hm
  have hch2 : seqChain s' 0 s'.hdr.head_seq (yAlloc s :: L) = true := by
    rw [hhd]
    exact hch'
  have hd2 : drainReadseq (avl_file_startseq s') (L.length + 2) =
      (yAlloc s :: L).map (fun o => (s'.read o).b) :=
    hdrain s' (yAlloc s :: L) hch2 hcpr2
  refine ⟨hdrain s L hchain hcpr, hiff, hret, hch2, ?_⟩
  rw [hd2, List.map_cons, hyb]
  congr 1
  exact List.map_congr_left hpay

/-- The witness instance for C5: one live record with payload `[5]` at
slot 2, the cursor at slot 1, no trees (`n_keys = 0`), free list empty. -/
def c5WitState : State :=
  { n_keys := 0
    cmp := fun _ _ _ => 0
    hdr := ⟨1, 0, [], 2, 0, 0⟩
    slots := fun o => if o = 2 then ⟨[], 0, 0, [5]⟩ else ⟨[], 0, 0, []⟩
    cpr := 1
    endOff := 3 }

def c5WitRes : State × Int :=
  (avl_file_insert c5WitState [9] 5).getD (c5WitState, 37)

/-! ## The duplicate-aware tree search of update (claim C7) -/

theorem getD_append_left (L X : List PathEntry) (n : Nat)
    (d : PathEntry) (h : n < L.length) : (L ++ X).getD n d = L.getD n d := by
  induction L generalizing n with
  | nil => simp at h
  | cons a t ih =>
    cases n with
    | zero => simp [List.getD_cons_zero]
    | succ n =>
      simp only [List.cons_append, List.getD_cons_succ]
      exact ih n (by simpa using h)

theorem getD_concat (L : List PathEntry) (x d : PathEntry) :
    (L ++ [x]).getD L.length d = x := by
  induction L with
  | nil => simp [List.getD_cons_zero]
  | cons a t ih => simp [List.getD_cons_succ, ih]

theorem getD_take (L : List PathEntry) (m n : Nat) (d : PathEntry)
    (h : n < m) : (L.take m).getD n d = L.getD n d := by
  induction L generalizing m n with
  | nil => simp
  | cons a t ih =>
    cases m with
    | zero => exact absurd h (Nat.not_lt_zero n)
    | succ m =>
      cases n with
      | zero => simp [List.getD_cons_zero]
      | succ n =>
        simp only [List.take_succ_cons, List.getD_cons_succ]
        exact ih m n (Nat.lt_of_succ_lt_succ h)

theorem StkSpec_mono (s : State) (k : Nat) (key : Payload)
    (path : List PathEntry) (stk : List Nat) (pend : List Int)
    (b b' : Nat) (hb : b ≤ b') (h : StkSpec s k key path b stk pend) :
    StkSpec s k key path b' stk pend := by
  cases stk with
  | nil => exact h
  | cons l stk' => exact ⟨lt_of_lt_of_le h.1 hb, h.2⟩

theorem StkSpec_append (s : State) (k : Nat) (key : Payload)
    (path X : List PathEntry) : ∀ (stk : List Nat) (pend : List Int)
    (b : Nat), b ≤ path.length → StkSpec s k key path b stk pend →
    StkSpec s k key (path ++ X) b stk pend := by
  intro stk
  induction stk with
  | nil => intro pend b _ h; exact h
  | cons l stk' ih =>
    intro pend b hb h
    obtain ⟨hl, h2, h3, h4, Tr, pend', h5, h6, h7, h8⟩ := h
    have hg : (path ++ X).getD l (0, s.read 0) = path.getD l (0, s.read 0) :=
      getD_append_left _ _ _ _ (lt_of_lt_of_le hl hb)
    refine ⟨hl, ?_, ?_, ?_, Tr, pend', ?_, h6,
      ih _ _ (le_of_lt (lt_of_lt_of_le hl hb)) h7, ?_⟩ <;> rw [hg]
    · exact h2
    · exact h3
    · exact h4
    · exact h5
    · exact h8

theorem StkSpec_take (s : State) (k : Nat) (key : Payload)
    (path : List PathEntry) : ∀ (stk : List Nat) (pend : List Int)
    (b m : Nat), b ≤ m → StkSpec s k key path b stk pend →
    StkSpec s k key (path.take m) b stk pend := by
  intro stk
  induction stk with
  | nil => intro pend b m _ h; exact h
  | cons l stk' ih =>
    intro pend b m hb h
    obtain ⟨hl, h2, h3, h4, Tr, pend', h5, h6, h7, h8⟩ := h
    have hg : (path.take m).getD l (0, s.read 0) = path.getD l (0, s.read 0) :=
      getD_take _ _ _ _ (lt_of_lt_of_le hl hb)
    refine ⟨hl, ?_, ?_, ?_, Tr, pend', ?_, h6,
      ih _ _ _ (le_of_lt (lt_of_lt_of_le hl hb)) h7, ?_⟩ <;> rw [hg]
    · exact h2
    · exact h3
    · exact h4
    · exact h5
    · exact h8

theorem cands_node (s : State) (k : Nat) (key : Payload) (a : Int)
    (l r : STree) :
    cands s k key (.node a l r) = cands s k key l ++
      (if s.cmp k key (s.read a).b = 0 then a :: cands s k key r
        else cands s k key r) := by
  by_cases hc : s.cmp k key (s.read a).b = 0 <;>
    simp [cands, STree.inorder, List.filter_append, List.filter_cons, hc]

theorem probeOk_node (s : State) (k : Nat) (key : Payload) (a : Int)
    (l r : STree) (h : probeOk s k key (.node a l r) = true) :
    (s.cmp k key (s.read a).b < 0 → cands s k key r = []) ∧
    (0 < s.cmp k key (s.read a).b → cands s k key l = []) ∧
    probeOk s k key l = true ∧ probeOk s k key r = true := by
  simp only [probeOk, Bool.and_eq_true] at h
  obtain ⟨⟨⟨h1, h2⟩, h3⟩, h4⟩ := h
  refine ⟨?_, ?_, h3, h4⟩
  · intro hlt
    rw [if_pos hlt] at h1
    rw [cands, List.filter_eq_nil_iff]
    intro z hz
    simpa using List.all_eq_true.mp h1 z hz
  · intro hgt
    rw [if_pos hgt] at h2
    rw [cands, List.filter_eq_nil_iff]
    intro z hz
    simpa using List.all_eq_true.mp h2 z hz

theorem toTree_isTree (s : State) (k : Nat) :
    ∀ (fuel : Nat) (a : Int) (T : STree),
      toTree s k fuel a = some T → IsTree s k a T := by
  intro fuel
  induction fuel with
  | zero => intro a T h; simp [toTree] at h
  | succ fuel ih =>
    intro a T h
    rw [toTree] at h
    split_ifs at h with ha
    · rcases hl : toTree s k fuel ((s.read a).node k).l with _ | l <;>
        rw [hl] at h
      · cases h
      · rcases hr : toTree s k fuel ((s.read a).node k).r with _ | r <;>
          rw [hr] at h
        · cases h
        · cases h
          exact IsTree.node a l r ha (ih _ _ hl) (ih _ _ hr)
    · cases h
      exact IsTree.leaf a ha

/-- The `findPath` stack machine, run on a searchable tree, returns a
faithful read that passes the test (in which case the node is a candidate
of the tree or of the pending stack), or `some none` only after every
candidate has failed the test. -/
theorem findPath_go (s : State) (k : Nat) (key : Payload)
    (test : Int → AvlRec → Bool) :
    ∀ (fuel : Nat) (cur : Int) (path : List PathEntry) (stk : List Nat)
      (T : STree) (pend : List Int)
      (res : Option (List PathEntry × PathEntry)),
      IsTree s k cur T → probeOk s k key T = true →
      StkSpec s k key path path.length stk pend →
      findPath s k key test fuel cur path stk = some res →
      ((res = none → ∀ z ∈ cands s k key T ++ pend,
        test z (s.read z) = false) ∧
       (∀ found, res = some found →
         found.2.2 = s.read found.2.1 ∧ test found.2.1 found.2.2 = true ∧
         found.2.1 ∈ cands s k key T ++ pend)) := by
  intro fuel
  induction fuel with
  | zero => intro cur path stk T pend res _ _ _ h; simp [findPath] at h
  | succ fuel ih =>
    intro cur path stk T pend res hT hpo hstk h
    by_cases hcur : 0 < cur
    · rcases hT with ⟨_, hna⟩ | ⟨_, l, r, _, hTl, hTr⟩
      · exact absurd hcur hna
      · obtain ⟨hpr, hpl, hpol, hpor⟩ := probeOk_node s k key cur l r hpo
        simp only [findPath] at h
        rw [if_pos hcur] at h
        split_ifs at h with hle heq
        · -- cmp = 0: remember this node, descend left
          have hstk2 : StkSpec s k key (path ++ [(cur, s.read cur)])
              (path ++ [(cur, s.read cur)]).length (path.length :: stk)
              (cur :: (cands s k key r ++ pend)) := by
            have hg := getD_concat path (cur, s.read cur) (0, s.read 0)
            refine ⟨by simp, ?_, ?_, ?_, r, pend, ?_, hpor,
              StkSpec_append s k key path _ stk pend _ le_rfl hstk, ?_⟩ <;>
              rw [hg]
            · exact hcur
            · exact heq
            · exact hTr
          obtain ⟨c1, c2⟩ := ih _ _ _ l _ _ hTl hpol hstk2 h
          have hmem : ∀ z, z ∈ cands s k key (.node cur l r) ++ pend ↔
              z ∈ cands s k key l ++ (cur :: (cands s k key r ++ pend)) := by
            intro z
            rw [cands_node, if_pos heq]
            simp [List.mem_append, List.mem_cons, or_assoc]
          constructor
          · intro hres z hz
            exact c1 hres z ((hmem z).mp hz)
          · intro found hres
            obtain ⟨f1, f2, f3⟩ := c2 found hres
            exact ⟨f1, f2, (hmem _).mpr f3⟩
        · -- cmp < 0: descend left, nothing lost on the right
          have hlt : s.cmp k key (s.read cur).b < 0 := lt_of_le_of_ne hle heq
          have hstk2 : StkSpec s k key (path ++ [(cur, s.read cur)])
              (path ++ [(cur, s.read cur)]).length stk pend :=
            StkSpec_mono _ _ _ _ _ _ _ _
              (by simp only [List.length_append, List.length_singleton]
                  omega)
              (StkSpec_append s k key path _ stk pend _ le_rfl hstk)
          obtain ⟨c1, c2⟩ := ih _ _ _ l _ _ hTl hpol hstk2 h
          have hmem : ∀ z, z ∈ cands s k key (.node cur l r) ++ pend ↔
              z ∈ cands s k key l ++ pend := by
            intro z
            rw [cands_node, if_neg heq, hpr hlt, List.append_nil]
          constructor
          · intro hres z hz
            exact c1 hres z ((hmem z).mp hz)
          · intro found hres
            obtain ⟨f1, f2, f3⟩ := c2 found hres
            exact ⟨f1, f2, (hmem _).mpr f3⟩
        · -- cmp > 0: descend right, nothing lost on the left
          have hgt : 0 < s.cmp k key (s.read cur).b := not_le.mp hle
          have hstk2 : StkSpec s k key (path ++ [(cur, s.read cur)])
              (path ++ [(cur, s.read cur)]).length stk pend :=
            StkSpec_mono _ _ _ _ _ _ _ _
              (by simp only [List.length_append, List.length_singleton]
                  omega)
              (StkSpec_append s k key path _ stk pend _ le_rfl hstk)
          obtain ⟨c1, c2⟩ := ih _ _ _ r _ _ hTr hpor hstk2 h
          have hmem : ∀ z, z ∈ cands s k key (.node cur l r) ++ pend ↔
              z ∈ cands s k key r ++ pend := by
            intro z
            rw [cands_node, if_neg (ne_of_gt hgt), hpl hgt, List.nil_append]
          constructor
          · intro hres z hz
            exact c1 hres z ((hmem z).mp hz)
          · intro found hres
            obtain ⟨f1, f2, f3⟩ := c2 found hres
            exact ⟨f1, f2, (hmem _).mpr f3⟩
    · cases stk with
      | nil =>
        have hpend : pend = [] := hstk
        simp only [findPath] at h
        rw [if_neg hcur] at h
        cases h
        subst hpend
        constructor
        · intro _ z hz
          rcases hT with ⟨_, _⟩ | ⟨_, l, r, ha, _, _⟩
          · simp [cands, STree.inorder] at hz
          · exact absurd ha hcur
        · intro found hres
          cases hres
      | cons l0 stk' =>
        obtain ⟨hlb, hread, hpos, hceq, Tr, pend', hTr, hpor, hstk', hpeq⟩ :=
          hstk
        simp only [findPath] at h
        rw [if_neg hcur] at h
        split_ifs at h with htest
        · cases h
          subst hpeq
          constructor
          · intro hres
            cases hres
          · intro found hres
            cases hres
            refine ⟨hread, htest, ?_⟩
            rcases hT with ⟨_, _⟩ | ⟨_, l, r, ha, _, _⟩
            · simp [cands, STree.inorder]
            · exact absurd ha hcur
        · have hstk2 : StkSpec s k key (path.take (l0 + 1))
              (path.take (l0 + 1)).length stk' pend' := by
            refine StkSpec_mono _ _ _ _ _ _ _ _ ?_
              (StkSpec_take s k key path stk' pend' l0 (l0 + 1)
                (Nat.le_succ l0) hstk')
            rw [List.length_take]
            omega
          obtain ⟨c1, c2⟩ := ih _ _ _ Tr _ _ hTr hpor hstk2 h
          have htf : test (path.getD l0 (0, s.read 0)).1
              (s.read (path.getD l0 (0, s.read 0)).1) = false := by
            rw [← hread]
            exact Bool.eq_false_iff.mpr htest
          subst hpeq
          rcases hT with ⟨_, _⟩ | ⟨_, l, r, ha, _, _⟩
          · constructor
            · intro hres z hz
              simp only [cands, STree.inorder, List.filter_nil,
                List.nil_append, List.mem_cons] at hz
              rcases hz with rfl | hz2
              · exact htf
              · exact c1 hres z hz2
            · intro found hres
              obtain ⟨f1, f2, f3⟩ := c2 found hres
              refine ⟨f1, f2, ?_⟩
              simp only [cands, STree.inorder, List.filter_nil,
                List.nil_append, List.mem_cons]
              exact Or.inr f3
          · exact absurd ha hcur

/-- C7: with at least one key configured, `avl_file_update` returns 0
exactly when some record of tree 0 compares equal to the probe under
every key; on success it overwrites exactly the found record's payload in
place — its per-key tree nodes, its sequential links, every other
record, and the header survive unchanged — and on failure it returns -1
with the state unchanged. -/
theorem update_overwrites_exactly_one_payload
    (s : State) (data : Payload) (fuel tfuel : Nat) (T : STree)
    (s' : State) (ret : Int)
    (hnk : 0 < s.n_keys)
    (htree : toTree s 0 tfuel (s.hdr.rootAt 0) = some T)
    (hpo : probeOk s 0 data T = true)
    (h : avl_file_update s data fuel = some (s', ret)) :
    (ret = 0 ↔ ∃ y ∈ T.inorder, allKeysEq s data (s.read y) = true) ∧
    (ret = 0 → ∃ y ∈ T.inorder, allKeysEq s data (s.read y) = true ∧
      s' = s.write y { s.read y with b := data } ∧
      s'.hdr = s.hdr ∧ s'.cpr = s.cpr ∧
      (s'.read y).n = (s.read y).n ∧
      (s'.read y).prev = (s.read y).prev ∧
      (s'.read y).next = (s.read y).next ∧ (s'.read y).b = data ∧
      (∀ o, o ≠ y → s'.read o = s.read o)) ∧
    (ret = -1 → s' = s) ∧ (ret = 0 ∨ ret = -1) := by
  rw [avl_file_update, if_pos hnk] at h
  rcases hfp : findPath s 0 data (fun _ pr => allKeysEq s data pr) fuel
      (s.hdr.rootAt 0) [] [] with _ | res <;> rw [hfp] at h
  · cases h
  · obtain ⟨c1, c2⟩ := findPath_go s 0 data
      (fun _ pr => allKeysEq s data pr) fuel (s.hdr.rootAt 0) [] [] T []
      res (toTree_isTree s 0 tfuel _ T htree) hpo rfl hfp
    rcases res with _ | ⟨pre, y, yr⟩
    · -- nothing passed the all-keys-equal test
      cases h
      refine ⟨⟨fun h0 => absurd h0 (by decide), ?_⟩,
        fun h0 => absurd h0 (by decide), fun _ => rfl, Or.inr rfl⟩
      rintro ⟨y, hy, hake⟩
      have hc0 : s.cmp 0 data (s.read y).b = 0 := by
        simpa using List.all_eq_true.mp hake 0 (List.mem_range.mpr hnk)
      have hyc : y ∈ cands s 0 data T :=
        List.mem_filter.mpr ⟨hy, by simpa using hc0⟩
      have hfalse := c1 rfl y (by simpa using hyc)
      rw [hake] at hfalse
      simp at hfalse
    · -- found: exactly one payload is overwritten
      obtain ⟨f1, f2, f3⟩ := c2 (pre, (y, yr)) rfl
      have f1' : yr = s.read y := f1
      subst f1'
      cases h
      have f3' : y ∈ cands s 0 data T := by simpa using f3
      have hyio : y ∈ T.inorder := (List.mem_filter.mp f3').1
      have hake : allKeysEq s data (s.read y) = true := f2
      refine ⟨⟨fun _ => ⟨y, hyio, hake⟩, fun _ => rfl⟩, ?_,
        fun hm1 => absurd hm1 (by decide), Or.inl rfl⟩
      intro _
      refine ⟨y, hyio, hake, rfl, rfl, rfl, by rw [read_write_self],
        by rw [read_write_self], by rw [read_write_self],
        by rw [read_write_self], fun o ho => read_write_ne _ _ _ _ ho⟩

/-- The witness instance for C7: one key, one live record `[5, 7]` at
slot 2 forming tree 0, probe `[5, 9]` equal under key 0. -/
def c7WitState : State :=
  { n_keys := 1
    cmp := fun k a b =>
      if a.getD k 0 > b.getD k 0 then 1
      else if a.getD k 0 < b.getD k 0 then -1 else 0
    hdr := ⟨1, 0, [2], 2, 0, 0⟩
    slots := fun o =>
      if o = 2 then ⟨[⟨0, 0, 0⟩], 0, 0, [5, 7]⟩ else ⟨[⟨0, 0, 0⟩], 0, 0, []⟩
    cpr := 1
    endOff := 3 }

def c7WitRes : State × Int :=
  (avl_file_update c7WitState [5, 9] 5).getD (c7WitState, 37)

theorem update_overwrites_witness :
    c7WitRes.2 = 0 ∧ (c7WitRes.1.read 2).b = [5, 9] ∧
    c7WitRes.1.read 1 = c7WitState.read 1 ∧
    c7WitRes.1.hdr = c7WitState.hdr := by
  obtain ⟨h1, h2, h3, h4⟩ := update_overwrites_exactly_one_payload
    c7WitState [5, 9] 5 2 (.node 2 .leaf .leaf) c7WitRes.1 c7WitRes.2
    (by decide) rfl (by decide) rfl
  have hr0 : c7WitRes.2 = 0 := h1.mpr ⟨2, by decide, by decide⟩
  obtain ⟨y, hy, hake, hseq, hhdr, hcpr, hn, hp, hx, hb, hother⟩ := h2 hr0
  have hy2 : y = 2 := by simpa [STree.inorder] using hy
  subst hy2
  exact ⟨hr0, hb, hother 1 (by decide), hhdr⟩

theorem readseq_reverse_witness :
    drainReadseq (avl_file_startseq c5WitState) 2 = [[5]] ∧
    c5WitRes.2 = 0 ∧
    drainReadseq (avl_file_startseq c5WitRes.1) 3 = [[9], [5]] := by
  obtain ⟨h1, h2, h3, h4, h5⟩ :=
    readseq_reverse_insertion_order c5WitState [9] 5 [2] c5WitRes.1
      c5WitRes.2 (by decide) (by decide) (by decide) (by decide) (by decide)
      (by decide) (by decide) rfl
  exact ⟨h1, h3, h5⟩

/-! ## The ordered scan of startge and next (claim C4) -/

theorem inorder_node_ne_nil (a : Int) (l r : STree) :
    (STree.node a l r).inorder ≠ [] := by
  simp [STree.inorder]

theorem headD_append_of_ne_nil {A B : List Int} (d : Int) (h : A ≠ []) :
    (A ++ B).headD d = A.headD d := by
  cases A
  · exact absurd rfl h
  · rfl

theorem getLastD_irrel (B : List Int) (d d' : Int) (h : B ≠ []) :
    B.getLastD d = B.getLastD d' := by
  cases B with
  | nil => exact absurd rfl h
  | cons x t => rfl

theorem getLastD_append_of_ne_nil {B : List Int} (A : List Int) (d : Int)
    (h : B ≠ []) : (A ++ B).getLastD d = B.getLastD d := by
  induction A generalizing d with
  | nil => rfl
  | cons x t ih =>
    rw [List.cons_append, List.getLastD_cons, ih x, getLastD_irrel B x d h]

theorem getD_set_self (l : List AvlNode) (k : Nat) (a d : AvlNode)
    (h : k < l.length) : (l.set k a).getD k d = a := by
  induction l generalizing k with
  | nil => simp at h
  | cons x t ih =>
    cases k with
    | zero => rfl
    | succ k => exact ih k (by simpa using h)

theorem node_setNode_self (r : AvlRec) (k : Nat) (nd : AvlNode)
    (h : k < r.n.length) : (r.setNode k nd).node k = nd :=
  getD_set_self r.n k nd ⟨0, 0, 0⟩ h

theorem setNode_n_length (r : AvlRec) (k : Nat) (nd : AvlNode) :
    (r.setNode k nd).n.length = r.n.length := by
  simp [AvlRec.setNode]

theorem inorder_pos (s : State) (k : Nat) :
    ∀ (T : STree) (a : Int), IsTree s k a T → ∀ z ∈ T.inorder, 0 < z := by
  intro T
  induction T with
  | leaf => intro a _ z hz; simp [STree.inorder] at hz
  | node a0 l r ihl ihr =>
    intro a hT z hz
    rcases hT with _ | ⟨_, _, _, ha, hl, hr⟩
    simp only [STree.inorder, List.mem_append, List.mem_cons] at hz
    rcases hz with hz | hz | hz
    · exact ihl _ hl z hz
    · exact hz ▸ ha
    · exact ihr _ hr z hz

theorem IsTree_frame (s t : State) (k : Nat) :
    ∀ (T : STree) (a : Int), IsTree s k a T →
      (∀ z ∈ T.inorder, t.read z = s.read z) → IsTree t k a T := by
  intro T
  induction T with
  | leaf =>
    intro a hT _
    rcases hT with ⟨_, hna⟩ | _
    exact IsTree.leaf a hna
  | node a0 l r ihl ihr =>
    intro a hT hfr
    rcases hT with _ | ⟨_, _, _, ha, hl, hr⟩
    have hra : t.read a0 = s.read a0 :=
      hfr a0 (by simp [STree.inorder])
    refine IsTree.node a0 l r ha ?_ ?_
    · rw [hra]
      exact ihl _ hl fun z hz =>
        hfr z (by simp [STree.inorder, List.mem_append, hz])
    · rw [hra]
      exact ihr _ hr fun z hz =>
        hfr z (by simp [STree.inorder, List.mem_append, hz])

theorem threadsOk_frame (s t : State) (k : Nat) :
    ∀ (T : STree) (lo hi : Int),
      (∀ z ∈ T.inorder, t.read z = s.read z) →
      threadsOk t k T lo hi = threadsOk s k T lo hi := by
  intro T
  induction T with
  | leaf => intro lo hi _; rfl
  | node a l r ihl ihr =>
    intro lo hi hfr
    have hra : t.read a = s.read a :=
      hfr a (by simp [STree.inorder])
    simp only [threadsOk, hra,
      ihl _ _ (fun z hz =>
        hfr z (by simp [STree.inorder, List.mem_append, hz])),
      ihr _ _ (fun z hz =>
        hfr z (by simp [STree.inorder, List.mem_append, hz]))]

theorem leftmostFrom_val (t : State) (k : Nat) :
    ∀ (f : Nat) (c : Int) (T : STree) (v : Int), IsTree t k c T → 0 < c →
      leftmostFrom t k f c = some v → v = T.inorder.headD 0 := by
  intro f
  induction f with
  | zero => intro c T v _ _ h; simp [leftmostFrom] at h
  | succ f ih =>
    intro c T v hT hc h
    rcases hT with ⟨_, hna⟩ | ⟨_, l, r, _, hl, hr⟩
    · exact absurd hc hna
    · simp only [leftmostFrom] at h
      split_ifs at h with hlc
      · have hv := ih _ _ _ hl hlc h
        cases l with
        | leaf =>
          rcases hl with ⟨_, hna⟩ | _
          exact absurd hlc hna
        | node a1 l1 r1 =>
          exact hv.trans
            (headD_append_of_ne_nil 0 (inorder_node_ne_nil a1 l1 r1)).symm
      · cases h
        cases l with
        | leaf => simp [STree.inorder]
        | node a1 l1 r1 =>
          rcases hl with _ | ⟨_, _, _, hpos, _, _⟩
          exact absurd hpos hlc

theorem rightmostFrom_val (t : State) (k : Nat) :
    ∀ (f : Nat) (c : Int) (T : STree) (v : Int), IsTree t k c T → 0 < c →
      rightmostFrom t k f c = some v → v = T.inorder.getLastD 0 := by
  intro f
  induction f with
  | zero => intro c T v _ _ h; simp [rightmostFrom] at h
  | succ f ih =>
    intro c T v hT hc h
    rcases hT with ⟨_, hna⟩ | ⟨_, l, r, _, hl, hr⟩
    · exact absurd hc hna
    · simp only [rightmostFrom] at h
      split_ifs at h with hrc
      · have hv := ih _ _ _ hr hrc h
        cases r with
        | leaf =>
          rcases hr with ⟨_, hna⟩ | _
          exact absurd hrc hna
        | node a1 l1 r1 =>
          refine hv.trans ?_
          have h1 : (l.inorder ++ c :: (STree.node a1 l1 r1).inorder).getLastD
              0 = (STree.node a1 l1 r1).inorder.getLastD 0 := by
            rw [getLastD_append_of_ne_nil l.inorder 0 (by simp),
              List.getLastD_cons]
            exact getLastD_irrel _ c 0 (inorder_node_ne_nil a1 l1 r1)
          exact h1.symm
      · cases h
        cases r with
        | leaf =>
          show c = (l.inorder ++ [c]).getLastD 0
          rw [getLastD_append_of_ne_nil l.inorder 0 (by simp)]
          rfl
        | node a1 l1 r1 =>
          rcases hr with _ | ⟨_, _, _, hpos, _, _⟩
          exact absurd hpos hrc

theorem head?_append_singleton {A : List Int} (b : Int) (h : A ≠ []) :
    (A ++ [b]).head? = some (A.headD 0) := by
  cases A
  · exact absurd rfl h
  · rfl

theorem getLast?_cons_of_ne_nil : ∀ (A : List Int), A ≠ [] → ∀ (c : Int),
    (c :: A).getLast? = some (A.getLastD 0) := by
  intro A
  induction A with
  | nil => intro h; exact absurd rfl h
  | cons x t ih =>
    intro _ c
    cases t with
    | nil => rfl
    | cons y u =>
      rw [List.getLast?_cons_cons, ih (by simp) x]
      have h1 : (x :: y :: u).getLastD 0 = (y :: u).getLastD 0 := by
        rw [List.getLastD_cons]
        exact getLastD_irrel _ x 0 (by simp)
      rw [h1]

/-- Along the in-order sequence of a correctly threaded tree (extended by
the successor context `hi`), `succOf` maps each node to the next entry —
whatever fuel it is given, and from any state that differs from `s` only
at the slot `cpr0`, which is not a tree node. -/
theorem succOf_chain (s : State) (k : Nat) (cpr0 : Int) :
    ∀ (T : STree) (a lo hi : Int),
      IsTree s k a T → threadsOk s k T lo hi = true →
      (∀ z ∈ T.inorder, z ≠ cpr0) →
      List.Chain' (fun x y => ∀ (t : State),
        (∀ o, o ≠ cpr0 → t.read o = s.read o) →
        ∀ (f : Nat) (sp : Int), succOf t k f (t.read x) = some sp → sp = y)
        (T.inorder ++ [hi]) := by
  intro T
  induction T with
  | leaf => intro a lo hi _ _ _; simp [STree.inorder]
  | node a0 l r ihl ihr =>
    intro a lo hi hT hth hnc
    rcases hT with _ | ⟨_, _, _, ha, hl, hr⟩
    simp only [threadsOk, Bool.and_eq_true] at hth
    obtain ⟨⟨⟨hthl0, hthr0⟩, hthl⟩, hthr⟩ := hth
    have hncl : ∀ z ∈ l.inorder, z ≠ cpr0 := fun z hz =>
      hnc z (by simp [STree.inorder, List.mem_append, hz])
    have hncr : ∀ z ∈ r.inorder, z ≠ cpr0 := fun z hz =>
      hnc z (by simp [STree.inorder, List.mem_append, hz])
    have hcl := ihl ((s.read a0).node k).l lo a0 hl hthl hncl
    have hcr := ihr ((s.read a0).node k).r a0 hi hr hthr hncr
    have hglue : ∀ y ∈ (r.inorder ++ [hi]).head?, ∀ (t : State),
        (∀ o, o ≠ cpr0 → t.read o = s.read o) →
        ∀ (f : Nat) (sp : Int),
          succOf t k f (t.read a0) = some sp → sp = y := by
      intro y hy t hteq f sp hs
      have hta0 : t.read a0 = s.read a0 :=
        hteq a0 (hnc a0 (by simp [STree.inorder, List.mem_append]))
      rw [hta0, succOf] at hs
      cases r with
      | leaf =>
        have hneg : ¬ 0 < ((s.read a0).node k).r := by
          rcases hr with ⟨_, hna⟩ | _
          exact hna
        rw [if_neg hneg] at hs
        cases hs
        have hthr0' : ((s.read a0).node k).r = -hi := by simpa using hthr0
        have hy' : hi = y := by simpa [STree.inorder] using hy
        rw [hthr0', neg_neg]
        exact hy'
      | node a1 l1 r1 =>
        have hpos : 0 < ((s.read a0).node k).r := by
          rcases hr with _ | ⟨_, _, _, hp, _, _⟩
          exact hp
        rw [if_pos hpos] at hs
        have hTt : IsTree t k ((s.read a0).node k).r (.node a1 l1 r1) :=
          IsTree_frame s t k _ _ hr fun z hz => hteq z (hncr z hz)
        have hv := leftmostFrom_val t k f _ _ sp hTt hpos hs
        rw [head?_append_singleton _
          (inorder_node_ne_nil a1 l1 r1), Option.mem_def] at hy
        rw [hv]
        exact Option.some.inj hy
    have heq : (STree.node a0 l r).inorder ++ [hi] =
        l.inorder ++ (a0 :: (r.inorder ++ [hi])) := by
      simp [STree.inorder]
    rw [heq]
    refine List.chain'_append.mpr
      ⟨(List.chain'_append.mp hcl).1,
       List.chain'_cons'.mpr ⟨hglue, hcr⟩, ?_⟩
    intro x hx y hy
    have hy' : a0 = y := by simpa using hy
    subst hy'
    exact (List.chain'_append.mp hcl).2.2 x hx a0 (by simp)

/-- Mirror of `succOf_chain`: `predOf` maps each entry of
`lo :: inorder` to the previous one. -/
theorem predOf_chain (s : State) (k : Nat) (cpr0 : Int) :
    ∀ (T : STree) (a lo hi : Int),
      IsTree s k a T → threadsOk s k T lo hi = true →
      (∀ z ∈ T.inorder, z ≠ cpr0) →
      List.Chain' (fun x y => ∀ (t : State),
        (∀ o, o ≠ cpr0 → t.read o = s.read o) →
        ∀ (f : Nat) (sp : Int), predOf t k f (t.read y) = some sp → sp = x)
        (lo :: T.inorder) := by
  intro T
  induction T with
  | leaf => intro a lo hi _ _ _; simp [STree.inorder]
  | node a0 l r ihl ihr =>
    intro a lo hi hT hth hnc
    rcases hT with _ | ⟨_, _, _, ha, hl, hr⟩
    simp only [threadsOk, Bool.and_eq_true] at hth
    obtain ⟨⟨⟨hthl0, hthr0⟩, hthl⟩, hthr⟩ := hth
    have hncl : ∀ z ∈ l.inorder, z ≠ cpr0 := fun z hz =>
      hnc z (by simp [STree.inorder, List.mem_append, hz])
    have hncr : ∀ z ∈ r.inorder, z ≠ cpr0 := fun z hz =>
      hnc z (by simp [STree.inorder, List.mem_append, hz])
    have hcl := ihl ((s.read a0).node k).l lo a0 hl hthl hncl
    have hcr := ihr ((s.read a0).node k).r a0 hi hr hthr hncr
    have hglue : ∀ x ∈ (lo :: l.inorder).getLast?, ∀ (t : State),
        (∀ o, o ≠ cpr0 → t.read o = s.read o) →
        ∀ (f : Nat) (sp : Int),
          predOf t k f (t.read a0) = some sp → sp = x := by
      intro x hx t hteq f sp hs
      have hta0 : t.read a0 = s.read a0 :=
        hteq a0 (hnc a0 (by simp [STree.inorder, List.mem_append]))
      rw [hta0, predOf] at hs
      cases l with
      | leaf =>
        have hneg : ¬ 0 < ((s.read a0).node k).l := by
          rcases hl with ⟨_, hna⟩ | _
          exact hna
        rw [if_neg hneg] at hs
        cases hs
        have hthl0' : ((s.read a0).node k).l = -lo := by simpa using hthl0
        have hx' : lo = x := by
          simp only [STree.inorder] at hx
          simpa using hx
        rw [hthl0', neg_neg]
        exact hx'
      | node a1 l1 r1 =>
        have hpos : 0 < ((s.read a0).node k).l := by
          rcases hl with _ | ⟨_, _, _, hp, _, _⟩
          exact hp
        rw [if_pos hpos] at hs
        have hTt : IsTree t k ((s.read a0).node k).l (.node a1 l1 r1) :=
          IsTree_frame s t k _ _ hl fun z hz => hteq z (hncl z hz)
        have hv := rightmostFrom_val t k f _ _ sp hTt hpos hs
        rw [getLast?_cons_of_ne_nil _
          (inorder_node_ne_nil a1 l1 r1) lo, Option.mem_def] at hx
        rw [hv]
        exact Option.some.inj hx
    have heq : lo :: (STree.node a0 l r).inorder =
        (lo :: l.inorder) ++ (a0 :: r.inorder) := by
      simp [STree.inorder]
    rw [heq]
    refine List.chain'_append.mpr ⟨hcl, hcr, ?_⟩
    intro x hx y hy
    have hy' : a0 = y := by simpa using hy
    subst hy'
    exact hglue x hx

/-- The descent loop of `avl_file_startge` lands on the first in-order
record `≥` the probe, or on the successor context `hi` when the subtree
has none. -/
theorem startgeDescend_val (s : State) (k : Nat) (data : Payload) :
    ∀ (fuel : Nat) (a : Int) (T : STree) (lo hi res : Int),
      IsTree s k a T → 0 < a → geOk s k data T = true →
      threadsOk s k T lo hi = true →
      startgeDescend s k data fuel a = some res →
      res = (T.inorder.find? fun z =>
        decide (s.cmp k data (s.read z).b ≤ 0)).getD hi := by
  intro fuel
  induction fuel with
  | zero => intro a T lo hi res _ _ _ _ h; simp [startgeDescend] at h
  | succ fuel ih =>
    intro a T lo hi res hT ha hge hth h
    rcases hT with ⟨_, hna⟩ | ⟨_, l, r, _, hl, hr⟩
    · exact absurd ha hna
    simp only [geOk, Bool.and_eq_true] at hge
    obtain ⟨⟨hgl0, hgel⟩, hger⟩ := hge
    simp only [threadsOk, Bool.and_eq_true] at hth
    obtain ⟨⟨⟨hthl0, hthr0⟩, hthl⟩, hthr⟩ := hth
    simp only [startgeDescend] at h
    rw [if_pos ha] at h
    split_ifs at h with hle hlc hrc
    · -- cmp ≤ 0 and a real left child: recurse left with successor `a`
      have hlpos : 0 < ((s.read a).node k).l := hlc
      refine (ih _ _ _ _ _ hl hlpos hgel hthl h).trans ?_
      show (l.inorder.find? fun z =>
          decide (s.cmp k data (s.read z).b ≤ 0)).getD a = _
      rw [STree.inorder, List.find?_append,
        List.find?_cons_of_pos _ (by simpa using hle)]
      cases hfa : l.inorder.find? fun z =>
          decide (s.cmp k data (s.read z).b ≤ 0) with
      | none => simp
      | some v => simp
    · -- cmp ≤ 0, no left child: this node is the first `≥`
      cases h
      cases l with
      | node a1 l1 r1 =>
        rcases hl with _ | ⟨_, _, _, hpos, _, _⟩
        exact absurd hpos hlc
      | leaf =>
        rw [STree.inorder]
        simp only [STree.inorder, List.nil_append]
        rw [List.find?_cons_of_pos _ (by simpa using hle)]
        rfl
    · -- cmp > 0 and a real right child: the left part holds nothing `≥`
      have hgt : 0 < s.cmp k data (s.read a).b := not_le.mp hle
      rw [if_pos hgt] at hgl0
      have hrpos : 0 < ((s.read a).node k).r := hrc
      refine (ih _ _ _ _ _ hr hrpos hger hthr h).trans ?_
      rw [STree.inorder, List.find?_append,
        List.find?_cons_of_neg _ (by simpa using not_le.mpr hgt)]
      have hnone : (l.inorder.find? fun z =>
          decide (s.cmp k data (s.read z).b ≤ 0)) = none := by
        rw [List.find?_eq_none]
        intro z hz
        have := List.all_eq_true.mp hgl0 z hz
        simp only [decide_eq_true_eq] at this ⊢
        exact not_le.mpr this
      rw [hnone]
      rfl
    · -- cmp > 0, no right child: jump through the thread to `hi`
      cases h
      have hgt : 0 < s.cmp k data (s.read a).b := not_le.mp hle
      rw [if_pos hgt] at hgl0
      cases r with
      | node a1 l1 r1 =>
        rcases hr with _ | ⟨_, _, _, hpos, _, _⟩
        exact absurd hpos hrc
      | leaf =>
        have hthr0' : ((s.read a).node k).r = -hi := by simpa using hthr0
        rw [hthr0', neg_neg, STree.inorder]
        have hnone : ((l.inorder ++ [a]).find? fun z =>
            decide (s.cmp k data (s.read z).b ≤ 0)) = none := by
          rw [List.find?_eq_none]
          intro z hz
          simp only [decide_eq_true_eq]
          rcases List.mem_append.mp hz with hz | hz
          · exact not_le.mpr (by
              simpa using List.all_eq_true.mp hgl0 z hz)
          · have hz' : z = a := by simpa using hz
            exact hz' ▸ not_le.mpr hgt
        show hi = ((l.inorder ++ [a]).find? fun z =>
          decide (s.cmp k data (s.read z).b ≤ 0)).getD hi
        rw [hnone]
        rfl

theorem find?_split (P : Int → Bool) :
    ∀ (N : List Int) (z : Int), N.find? P = some z →
      ∃ pre suf, N = pre ++ z :: suf ∧ (∀ w ∈ pre, P w = false) := by
  intro N
  induction N with
  | nil => intro z h; simp at h
  | cons x t ih =>
    intro z h
    by_cases hx : P x = true
    · rw [List.find?_cons_of_pos _ hx] at h
      cases h
      exact ⟨[], t, rfl, by simp⟩
    · rw [List.find?_cons_of_neg _ (by simpa using hx)] at h
      obtain ⟨pre, suf, hN, hpre⟩ := ih z h
      refine ⟨x :: pre, suf, by rw [hN]; rfl, ?_⟩
      intro w hw
      rcases List.mem_cons.mp hw with rfl | hw2
      · exact Bool.eq_false_iff.mpr hx
      · exact hpre w hw2

theorem find?_first_le (s : State) (k : Nat) (P : Int → Bool) :
    ∀ (N : List Int),
      N.Pairwise (fun x y => s.cmp k (s.read x).b (s.read y).b ≤ 0) →
      ∀ z, N.find? P = some z → ∀ w ∈ N, P w = true →
        z = w ∨ s.cmp k (s.read z).b (s.read w).b ≤ 0 := by
  intro N
  induction N with
  | nil => intro _ z h; simp at h
  | cons x t ih =>
    intro hpw z h w hw hPw
    obtain ⟨hpx, hpt⟩ := List.pairwise_cons.mp hpw
    by_cases hx : P x = true
    · rw [List.find?_cons_of_pos _ hx] at h
      cases h
      rcases List.mem_cons.mp hw with rfl | hw2
      · exact Or.inl rfl
      · exact Or.inr (hpx w hw2)
    · rw [List.find?_cons_of_neg _ (by simpa using hx)] at h
      rcases List.mem_cons.mp hw with rfl | hw2
      · exact absurd hPw hx
      · exact ih hpt z h w hw2 hPw

/-- Driving `avl_file_next` down the remaining in-order suffix: each call
returns the next record's payload and advances the cursor's per-key `r`
to the in-order successor, and the call after the last record fails. -/
theorem drainNext_go (s : State) (k : Nat) (cpr0 : Int) (f : Nat)
    (hk : k < s.n_keys) :
    ∀ (suf : List Int) (t : State) (out : List Payload),
      t.cpr = cpr0 → t.n_keys = s.n_keys →
      (∀ o, o ≠ cpr0 → t.read o = s.read o) →
      k < (t.read t.cpr).n.length →
      ((t.read t.cpr).node k).r = suf.headD 0 →
      (∀ z ∈ suf, z ≠ cpr0 ∧ 0 < z) →
      List.Chain' (fun x y => ∀ (t' : State),
        (∀ o, o ≠ cpr0 → t'.read o = s.read o) →
        ∀ (f' : Nat) (sp : Int),
          succOf t' k f' (t'.read x) = some sp → sp = y)
        (suf ++ [0]) →
      drainNext t k f (suf.length + 1) = some out →
      out = suf.map (fun o => (s.read o).b) := by
  intro suf
  induction suf with
  | nil =>
    intro t out hcpr hnk hrd hlen hr _ _ hdr
    have hkt : ¬ k ≥ t.n_keys := by
      rw [hnk]
      exact not_le.mpr hk
    have hr0 : ((t.read t.cpr).node k).r = (0 : Int) := hr
    have hnext : avl_file_next t [] k f = some (t, -1, []) := by
      rw [avl_file_next, if_neg hkt]
      simp only []
      rw [hr0]
      rw [if_neg (lt_irrefl (0 : Int))]
    rw [drainNext, hnext] at hdr
    simp only [if_neg (by decide : ¬ (-1 : Int) = 0)] at hdr
    cases hdr
    rfl
  | cons x suf' ih =>
    intro t out hcpr hnk hrd hlen hr hmem hch hdr
    obtain ⟨hxne, hxpos⟩ := hmem x (List.mem_cons_self x suf')
    have hkt : ¬ k ≥ t.n_keys := by
      rw [hnk]
      exact not_le.mpr hk
    have hrx : ((t.read t.cpr).node k).r = x := hr
    rcases hso : succOf t k f (t.read x) with _ | sp
    · have hnext : avl_file_next t [] k f = none := by
        rw [avl_file_next, if_neg hkt]
        simp only []
        rw [hrx, if_pos hxpos, hso]
      rw [drainNext, hnext] at hdr
      cases hdr
    · have hnext : avl_file_next t [] k f =
          some (t.write t.cpr ((t.read t.cpr).setNode k
            { (t.read t.cpr).node k with r := sp }), 0, (t.read x).b) := by
        rw [avl_file_next, if_neg hkt]
        simp only []
        rw [hrx, if_pos hxpos, hso]
      rw [List.cons_append] at hch
      obtain ⟨hhd, hch'⟩ := List.chain'_cons'.mp hch
      have hy0 : (suf' ++ [0]).head? = some (suf'.headD 0) := by
        cases suf' <;> rfl
      have hsp : sp = suf'.headD 0 :=
        hhd _ (by rw [hy0]; rfl) t hrd f sp hso
      rw [drainNext, hnext] at hdr
      replace hdr : Option.map (fun L => (t.read x).b :: L)
          (drainNext (t.write t.cpr ((t.read t.cpr).setNode k
            { (t.read t.cpr).node k with r := sp })) k f
            (suf'.length + 1)) = some out := hdr
      obtain ⟨out', hdr', hout⟩ := Option.map_eq_some'.mp hdr
      have hrec : out' = suf'.map (fun o => (s.read o).b) := by
        refine ih _ _ ?_ ?_ ?_ ?_ ?_ ?_ hch' hdr'
        · rw [write_cpr]
          exact hcpr
        · exact hnk
        · intro o ho
          rw [read_write_ne _ _ _ _ (hcpr ▸ ho)]
          exact hrd o ho
        · rw [write_cpr, read_write_self, setNode_n_length]
          exact hlen
        · rw [write_cpr, read_write_self, node_setNode_self _ _ _ hlen]
          exact hsp
        · exact fun z hz => hmem z (List.mem_cons_of_mem _ hz)
      rw [← hout, hrec, List.map_cons, hrd x hxne]

/-- C4: on a non-empty, searchable, correctly threaded tree `k` holding a
record `≥` the probe, `avl_file_startge` returns 0, copies the key-`k`
first (and, by sortedness, smallest) such record into the buffer, and
seeds the cursor's per-key fields with its in-order neighbors; the
subsequent `avl_file_next` calls return the remaining records in in-order
(ascending) sequence, each advancing the cursor's `r` field to the
in-order successor, and `avl_file_next` fails with -1 exactly on a zero
`r` field. -/
theorem startge_next_ordered_scan
    (s : State) (data : Payload) (k : Nat) (fuel tfuel : Nat) (T : STree)
    (s' : State) (ret : Int) (buf : Payload)
    (hk : k < s.n_keys)
    (htree : toTree s k tfuel (s.hdr.rootAt k) = some T)
    (hroot : 0 < s.hdr.rootAt k)
    (hge : geOk s k data T = true)
    (hthr : threadsOk s k T 0 0 = true)
    (hsorted : T.inorder.Pairwise
      (fun x y => s.cmp k (s.read x).b (s.read y).b ≤ 0))
    (hcpr : s.cpr ∉ T.inorder)
    (hclen : k < (s.read s.cpr).n.length)
    (hex : ∃ z ∈ T.inorder, s.cmp k data (s.read z).b ≤ 0)
    (hrun : avl_file_startge s data k fuel = some (s', ret, buf)) :
    ret = 0 ∧
    ∃ z pre suf, T.inorder = pre ++ z :: suf ∧
      s.cmp k data (s.read z).b ≤ 0 ∧
      (∀ w ∈ pre, ¬ s.cmp k data (s.read w).b ≤ 0) ∧
      (∀ w ∈ T.inorder, s.cmp k data (s.read w).b ≤ 0 →
        z = w ∨ s.cmp k (s.read z).b (s.read w).b ≤ 0) ∧
      buf = (s.read z).b ∧
      s'.cpr = s.cpr ∧ (∀ o, o ≠ s.cpr → s'.read o = s.read o) ∧
      ((s'.read s'.cpr).node k).l = pre.getLastD 0 ∧
      ((s'.read s'.cpr).node k).r = suf.headD 0 ∧
      (∀ out, drainNext s' k fuel (suf.length + 1) = some out →
        out = suf.map fun o => (s.read o).b) ∧
      (∀ (t : State) (b2 : Payload) (f : Nat), k < t.n_keys →
        ((t.read t.cpr).node k).r = 0 →
        avl_file_next t b2 k f = some (t, -1, b2)) := by
  have hIT := toTree_isTree s k tfuel _ T htree
  have hnc : ∀ z' ∈ T.inorder, z' ≠ s.cpr :=
    fun z' hz' e => hcpr (e ▸ hz')
  -- the first record `≥` the probe exists
  have hfsome : (T.inorder.find? fun z =>
      decide (s.cmp k data (s.read z).b ≤ 0)).isSome := by
    rw [List.find?_isSome]
    obtain ⟨z, hz, hc⟩ := hex
    exact ⟨z, hz, by simpa using hc⟩
  obtain ⟨z, hfz⟩ := Option.isSome_iff_exists.mp hfsome
  obtain ⟨pre, suf, hN, hpre⟩ := find?_split _ _ z hfz
  have hzN : z ∈ T.inorder := by
    rw [hN]
    simp
  have hPz : s.cmp k data (s.read z).b ≤ 0 := by
    have := List.find?_some hfz
    simpa using this
  have hzpos : 0 < z := inorder_pos s k T _ hIT z hzN
  -- unfold the run of startge
  rw [avl_file_startge, if_neg (not_le.mpr hk)] at hrun
  rcases hdes : startgeDescend s k data fuel (s.hdr.rootAt k) with _ | a <;>
    rw [hdes] at hrun
  · cases hrun
  have hval : a = z := by
    have := startgeDescend_val s k data fuel _ T 0 0 a hIT hroot hge hthr
      hdes
    rw [hfz] at this
    exact this
  have hval' : z = a := hval.symm
  subst hval'
  simp only [] at hrun
  rw [if_pos hzpos] at hrun
  -- the chains pin the two neighbor computations
  have hpch := predOf_chain s k s.cpr T (s.hdr.rootAt k) 0 0 hIT hthr hnc
  have hsch := succOf_chain s k s.cpr T (s.hdr.rootAt k) 0 0 hIT hthr hnc
  rcases hpred : predOf s k fuel (s.read z) with _ | pl <;>
    rw [hpred] at hrun
  · cases hrun
  rcases hsucc : succOf s k fuel (s.read z) with _ | pr <;>
    rw [hsucc] at hrun
  · cases hrun
  cases hrun
  have hplv : pl = pre.getLastD 0 := by
    rw [hN, show (0 :: (pre ++ z :: suf) : List Int) =
      (0 :: pre) ++ (z :: suf) by simp] at hpch
    have hb := (List.chain'_append.mp hpch).2.2
    have hgl : (0 :: pre).getLast? = some (pre.getLastD 0) := by
      cases pre with
      | nil => rfl
      | cons p0 pt => exact getLast?_cons_of_ne_nil _ (by simp) 0
    exact hb _ (by rw [hgl]; rfl) z (by simp) s (fun _ _ => rfl) fuel pl
      hpred
  have hsuffix : List.Chain' (fun x y => ∀ (t' : State),
      (∀ o, o ≠ s.cpr → t'.read o = s.read o) →
      ∀ (f' : Nat) (sp : Int),
        succOf t' k f' (t'.read x) = some sp → sp = y)
      (z :: (suf ++ [0])) := by
    rw [hN, show ((pre ++ z :: suf) ++ [0] : List Int) =
      pre ++ (z :: (suf ++ [0])) by simp] at hsch
    exact (List.chain'_append.mp hsch).2.1
  have hprv : pr = suf.headD 0 := by
    obtain ⟨hhd, _⟩ := List.chain'_cons'.mp hsuffix
    have hy0 : (suf ++ [0]).head? = some (suf.headD 0) := by
      cases suf <;> rfl
    exact hhd _ (by rw [hy0]; rfl) s (fun _ _ => rfl) fuel pr hsucc
  -- read-back of the written cursor record
  have hcl : (((s.write s.cpr ((s.read s.cpr).setNode k
      { (s.read s.cpr).node k with l := pl, r := pr })).read
        s.cpr).node k) =
      { (s.read s.cpr).node k with l := pl, r := pr } := by
    rw [read_write_self, node_setNode_self _ _ _ hclen]
  refine ⟨rfl, z, pre, suf, hN, hPz, ?_, ?_, rfl, write_cpr _ _ _, ?_,
    ?_, ?_, ?_, ?_⟩
  · intro w hw
    have := hpre w hw
    simp only [decide_eq_false_iff_not] at this
    exact this
  · intro w hw hcw
    exact find?_first_le s k _ T.inorder hsorted z hfz w hw
      (by simpa using hcw)
  · intro o ho
    exact read_write_ne _ _ _ _ ho
  · rw [write_cpr, hcl]
    exact hplv
  · rw [write_cpr, hcl]
    exact hprv
  · intro out hdrain
    refine drainNext_go s k s.cpr fuel hk suf _ out (write_cpr _ _ _)
      (write_n_keys _ _ _) (fun o ho => read_write_ne _ _ _ _ ho) ?_ ?_
      ?_ ((List.chain'_cons'.mp hsuffix).2) hdrain
    · rw [write_cpr, read_write_self, setNode_n_length]
      exact hclen
    · rw [write_cpr, hcl]
      exact hprv.symm ▸ hprv ▸ rfl
    · intro z' hz'
      have hz'N : z' ∈ T.inorder := by
        rw [hN]
        simp [hz']
      exact ⟨hnc z' hz'N, inorder_pos s k T _ hIT z' hz'N⟩
  · intro t b2 f' hkt hr0
    rw [avl_file_next, if_neg (not_le.mpr hkt)]
    simp only []
    rw [hr0, if_neg (lt_irrefl (0 : Int))]

/-- The witness instance for C4: one key; tree 0 is the node 2 (keys
`[10, 200]`) with left child 3 (keys `[5, 100]`), correctly threaded;
probe `[7, 0]` falls between them, so startge must land on node 2 via
node 3's right thread. -/
def c4WitState : State :=
  { n_keys := 1
    cmp := fun k a b =>
      if a.getD k 0 > b.getD k 0 then 1
      else if a.getD k 0 < b.getD k 0 then -1 else 0
    hdr := ⟨2, 0, [2], 2, 0, 0⟩
    slots := fun o =>
      if o = 2 then ⟨[⟨0, 3, 0⟩], 0, 0, [10, 200]⟩
      else if o = 3 then ⟨[⟨0, 0, -2⟩], 2, 0, [5, 100]⟩
      else ⟨[⟨0, 0, 0⟩], 0, 0, []⟩
    cpr := 1
    endOff := 4 }

def c4WitRes : State × Int × Payload :=
  (avl_file_startge c4WitState [7, 0] 0 9).getD (c4WitState, 37, [])

theorem startge_next_witness :
    c4WitRes.2.1 = 0 ∧ c4WitRes.2.2 = [10, 200] ∧
    ((c4WitRes.1.read c4WitRes.1.cpr).node 0).l = 3 ∧
    ((c4WitRes.1.read c4WitRes.1.cpr).node 0).r = 0 ∧
    drainNext c4WitRes.1 0 9 1 = some [] := by
  obtain ⟨hret, z, pre, suf, hN, hPz, hpre, hmin, hbuf, hcpr', hrd, hcl,
    hcr, hdrain, hfail⟩ := startge_next_ordered_scan c4WitState [7, 0] 0 9
    3 (.node 2 (.node 3 .leaf .leaf) .leaf) c4WitRes.1 c4WitRes.2.1
    c4WitRes.2.2 (by decide) rfl (by decide) (by decide) (by decide)
    (by decide) (by decide) (by decide) ⟨2, by decide, by decide⟩ rfl
  have hzps : z = 2 ∧ pre = [3] ∧ suf = ([] : List Int) := by
    rcases pre with _ | ⟨p0, pt⟩
    · rw [List.nil_append] at hN
      injection hN with h1 h2
      rw [← h1] at hPz
      exact absurd hPz (by decide)
    · rcases pt with _ | ⟨p1, pt2⟩
      · simp only [List.cons_append, List.nil_append] at hN
        injection hN with h1 h2
        injection h2 with h2a h2b
        exact ⟨h2a.symm, by rw [← h1], h2b.symm⟩
      · have hlen := congrArg List.length hN
        exact absurd hlen (by simp [STree.inorder])
  obtain ⟨rfl, rfl, rfl⟩ := hzps
  exact ⟨hret, hbuf.trans rfl, hcl, hcr, rfl⟩

/-! ## Delete leaves the untouched records' sequential fields alone
(claim C6): the tree-removal phase is pnEq-preserving. -/

theorem delRotPlus_pn (s₀ s : State) (k : Nat) (a : Int) (ar : AvlRec)
    (h : pnEq s₀ s) (har : recPN s₀ a ar) :
    pnEq s₀ (delRotPlus s k a ar).1 ∧
    recPN s₀ (delRotPlus s k a ar).2.1 (delRotPlus s k a ar).2.2 := by
  simp only [delRotPlus]
  split_ifs <;>
    constructor <;>
    first
      | exact pnEq_write _ _ _ _ (pnEq_write _ _ _ _ h
          (recPN_ext _ _ _ _ har rfl rfl rfl))
          (recPN_ext _ _ _ _ (recPN_of_pnEq _ _ h _ _ (recPN_read s _))
            rfl rfl rfl)
      | exact pnEq_write _ _ _ _ (pnEq_write _ _ _ _ (pnEq_write _ _ _ _ h
          (recPN_ext _ _ _ _ har rfl rfl rfl))
          (recPN_ext _ _ _ _ (recPN_of_pnEq _ _ h _ _ (recPN_read s _))
            rfl rfl rfl))
          (recPN_ext _ _ _ _ (recPN_of_pnEq _ _ h _ _ (recPN_read s _))
            rfl rfl rfl)
      | exact recPN_ext _ _ _ _ (recPN_of_pnEq _ _ h _ _ (recPN_read s _))
          rfl rfl rfl

theorem delRotMinus_pn (s₀ s : State) (k : Nat) (a : Int) (ar : AvlRec)
    (h : pnEq s₀ s) (har : recPN s₀ a ar) :
    pnEq s₀ (delRotMinus s k a ar).1 ∧
    recPN s₀ (delRotMinus s k a ar).2.1 (delRotMinus s k a ar).2.2 := by
  simp only [delRotMinus]
  split_ifs <;>
    constructor <;>
    first
      | exact pnEq_write _ _ _ _ (pnEq_write _ _ _ _ h
          (recPN_ext _ _ _ _ har rfl rfl rfl))
          (recPN_ext _ _ _ _ (recPN_of_pnEq _ _ h _ _ (recPN_read s _))
            rfl rfl rfl)
      | exact pnEq_write _ _ _ _ (pnEq_write _ _ _ _ (pnEq_write _ _ _ _ h
          (recPN_ext _ _ _ _ har rfl rfl rfl))
          (recPN_ext _ _ _ _ (recPN_of_pnEq _ _ h _ _ (recPN_read s _))
            rfl rfl rfl))
          (recPN_ext _ _ _ _ (recPN_of_pnEq _ _ h _ _ (recPN_read s _))
            rfl rfl rfl)
      | exact recPN_ext _ _ _ _ (recPN_of_pnEq _ _ h _ _ (recPN_read s _))
          rfl rfl rfl

theorem findPath_entries (s : State) (k : Nat) (key : Payload)
    (test : Int → AvlRec → Bool) :
    ∀ (fuel : Nat) (cur : Int) (path : List PathEntry) (stk : List Nat)
      (pre : List PathEntry) (e : PathEntry),
      (∀ p ∈ path, p.2 = s.read p.1) →
      findPath s k key test fuel cur path stk = some (some (pre, e)) →
      (∀ p ∈ pre, p.2 = s.read p.1) ∧ e.2 = s.read e.1 := by
  intro fuel
  induction fuel with
  | zero => intro cur path stk pre e _ h; simp [findPath] at h
  | succ fuel ih =>
    intro cur path stk pre e hpath h
    by_cases hcur : 0 < cur
    · simp only [findPath] at h
      rw [if_pos hcur] at h
      have hpath2 : ∀ p ∈ path ++ [(cur, s.read cur)],
          p.2 = s.read p.1 := by
        intro p hp
        rcases List.mem_append.mp hp with hp | hp
        · exact hpath p hp
        · have : p = (cur, s.read cur) := by simpa using hp
          rw [this]
      split_ifs at h with hle heq
      · exact ih _ _ _ _ _ hpath2 h
      · exact ih _ _ _ _ _ hpath2 h
      · exact ih _ _ _ _ _ hpath2 h
    · cases stk with
      | nil =>
        simp only [findPath] at h
        rw [if_neg hcur] at h
        cases h
      | cons l stk' =>
        simp only [findPath] at h
        rw [if_neg hcur] at h
        have hgetD : (path.getD l (0, s.read 0)).2 =
            s.read (path.getD l (0, s.read 0)).1 := by
          by_cases hl : l < path.length
          · rw [List.getD_eq_getElem _ _ hl]
            exact hpath _ (List.getElem_mem hl)
          · rw [List.getD_eq_default _ _ (not_lt.mp hl)]
        split_ifs at h with htest
        · cases h
          refine ⟨?_, hgetD⟩
          intro p hp
          exact hpath p (List.mem_of_mem_take hp)
        · exact ih _ _ _ _ _
            (fun p hp => hpath p (List.mem_of_mem_take hp)) h

theorem chainRight_entries (s : State) (k : Nat) :
    ∀ (fuel : Nat) (cur : Int) (cr : AvlRec) (top : PathEntry)
      (below : List PathEntry) (P q : PathEntry) (rest : List PathEntry),
      cr = s.read cur → top.2 = s.read top.1 →
      (∀ p ∈ below, p.2 = s.read p.1) →
      chainRight s k fuel cur cr top below = some (P, q, rest) →
      P.2 = s.read P.1 ∧ q.2 = s.read q.1 ∧
        ∀ p ∈ rest, p.2 = s.read p.1 := by
  intro fuel
  induction fuel with
  | zero => intro cur cr top below P q rest _ _ _ h; simp [chainRight] at h
  | succ fuel ih =>
    intro cur cr top below P q rest hcr htop hbelow h
    simp only [chainRight] at h
    split_ifs at h with hr
    · refine ih _ _ _ _ _ _ _ rfl hcr ?_ h
      intro p hp
      rcases List.mem_cons.mp hp with rfl | hp2
      · exact htop
      · exact hbelow p hp2
    · cases h
      exact ⟨hcr, htop, hbelow⟩

theorem chainLeft_entries (s : State) (k : Nat) :
    ∀ (fuel : Nat) (cur : Int) (cr : AvlRec) (top : PathEntry)
      (below : List PathEntry) (P q : PathEntry) (rest : List PathEntry),
      cr = s.read cur → top.2 = s.read top.1 →
      (∀ p ∈ below, p.2 = s.read p.1) →
      chainLeft s k fuel cur cr top below = some (P, q, rest) →
      P.2 = s.read P.1 ∧ q.2 = s.read q.1 ∧
        ∀ p ∈ rest, p.2 = s.read p.1 := by
  intro fuel
  induction fuel with
  | zero => intro cur cr top below P q rest _ _ _ h; simp [chainLeft] at h
  | succ fuel ih =>
    intro cur cr top below P q rest hcr htop hbelow h
    simp only [chainLeft] at h
    split_ifs at h with hr
    · refine ih _ _ _ _ _ _ _ rfl hcr ?_ h
      intro p hp
      rcases List.mem_cons.mp hp with rfl | hp2
      · exact htop
      · exact hbelow p hp2
    · cases h
      exact ⟨hcr, htop, hbelow⟩

theorem spliceFinish_pn (s₀ s : State) (k : Nat) (y P : Int)
    (newP yr : AvlRec) (pre anc : List PathEntry)
    (s' : State) (rpath : List PathEntry) (yr' : AvlRec)
    (hout : spliceFinish s k y P newP yr pre anc = (s', rpath, yr'))
    (h : pnEq s₀ s) (hpre : ∀ p ∈ pre, recPN s₀ p.1 p.2)
    (hP : recPN s₀ P newP) (hanc : ∀ p ∈ anc, recPN s₀ p.1 p.2)
    (hyr : recPN s₀ y yr) :
    pnEq s₀ s' ∧ (∀ p ∈ rpath, recPN s₀ p.1 p.2) ∧ recPN s₀ y yr' := by
  cases anc with
  | nil =>
    replace hout : (s.setHdr (s.hdr.setRoot k P), pre ++ [(P, newP)], yr) =
        (s', rpath, yr') := hout
    injection hout with ha hbc
    injection hbc with hb hc
    subst ha hb hc
    refine ⟨pnEq_setRoot _ _ _ _ h, ?_, hyr⟩
    intro p hp
    rcases List.mem_append.mp hp with hp2 | hp2
    · exact hpre p hp2
    · have hpe : p = (P, newP) := by simpa using hp2
      rw [hpe]; exact hP
  | cons e anc' =>
    obtain ⟨pp, ppr⟩ := e
    have hppr : recPN s₀ pp ppr := hanc (pp, ppr) (List.mem_cons_self _ _)
    simp only [spliceFinish] at hout
    have hfin : ∀ nppr : AvlRec, recPN s₀ pp nppr →
        (s.write pp nppr, pre ++ (P, newP) :: (pp, nppr) :: anc', yr) =
          (s', rpath, yr') →
        pnEq s₀ s' ∧ (∀ p ∈ rpath, recPN s₀ p.1 p.2) ∧
          recPN s₀ y yr' := by
      intro nppr hnppr heq
      injection heq with ha hbc
      injection hbc with hb hc
      subst ha hb hc
      refine ⟨pnEq_write _ _ _ _ h hnppr, ?_, hyr⟩
      intro p hp
      rcases List.mem_append.mp hp with hp2 | hp2
      · exact hpre p hp2
      · rcases List.mem_cons.mp hp2 with rfl | hp3
        · exact hP
        · rcases List.mem_cons.mp hp3 with rfl | hp4
          · exact hnppr
          · exact hanc p (List.mem_cons_of_mem _ hp4)
    split_ifs at hout with hside
    · refine hfin _ ?_ hout
      exact recPN_ext _ _ _ _ hppr rfl rfl rfl
    · refine hfin _ ?_ hout
      exact recPN_ext _ _ _ _ hppr rfl rfl rfl

theorem spliceDeepL_pn (s₀ s : State) (k : Nat) (y P q : Int)
    (Pr qr yr : AvlRec) (urk : AvlNode) (anc below : List PathEntry)
    (s' : State) (rpath : List PathEntry) (yr' : AvlRec)
    (hout : spliceDeepL s k y yr urk anc ((P, Pr), (q, qr), below) =
      (s', rpath, yr'))
    (h : pnEq s₀ s) (hP : recPN s₀ P Pr) (hq : recPN s₀ q qr)
    (hbelow : ∀ p ∈ below, recPN s₀ p.1 p.2)
    (hanc : ∀ p ∈ anc, recPN s₀ p.1 p.2) (hyr : recPN s₀ y yr) :
    pnEq s₀ s' ∧ (∀ p ∈ rpath, recPN s₀ p.1 p.2) ∧ recPN s₀ y yr' := by
  have hq' : ∀ nd, recPN s₀ q (qr.setNode k nd) := fun nd =>
    recPN_ext _ _ _ _ hq rfl rfl rfl
  have hP' : recPN s₀ P (Pr.setNode k (yr.node k)) :=
    recPN_ext _ _ _ _ hP rfl rfl rfl
  have hmem : ∀ nd, ∀ p ∈ (q, qr.setNode k nd) :: below,
      recPN s₀ p.1 p.2 := by
    intro nd p hp
    rcases List.mem_cons.mp hp with rfl | hp2
    · exact hq' nd
    · exact hbelow p hp2
  simp only [spliceDeepL] at hout
  split_ifs at hout <;>
    first
      | exact spliceFinish_pn _ _ _ _ _ _ _ _ _ _ _ _ hout
          (pnEq_write _ _ _ _
            (pnEq_write _ _ _ _ (pnEq_write _ _ _ _ h (hq' _)) hP')
            (recPN_ext _ _ _ _ (recPN_of_pnEq _ _
              (pnEq_write _ _ _ _ (pnEq_write _ _ _ _ h (hq' _)) hP')
              _ _ (recPN_read _ _)) rfl rfl rfl))
          (hmem _) hP' hanc hyr
      | exact spliceFinish_pn _ _ _ _ _ _ _ _ _ _ _ _ hout
          (pnEq_write _ _ _ _ (pnEq_write _ _ _ _ h (hq' _)) hP')
          (hmem _) hP' hanc hyr

theorem spliceDeepR_pn (s₀ s : State) (k : Nat) (y P q : Int)
    (Pr qr yr : AvlRec) (urk : AvlNode) (anc below : List PathEntry)
    (s' : State) (rpath : List PathEntry) (yr' : AvlRec)
    (hout : spliceDeepR s k y yr urk anc ((P, Pr), (q, qr), below) =
      (s', rpath, yr'))
    (h : pnEq s₀ s) (hP : recPN s₀ P Pr) (hq : recPN s₀ q qr)
    (hbelow : ∀ p ∈ below, recPN s₀ p.1 p.2)
    (hanc : ∀ p ∈ anc, recPN s₀ p.1 p.2) (hyr : recPN s₀ y yr) :
    pnEq s₀ s' ∧ (∀ p ∈ rpath, recPN s₀ p.1 p.2) ∧ recPN s₀ y yr' := by
  have hq' : ∀ nd, recPN s₀ q (qr.setNode k nd) := fun nd =>
    recPN_ext _ _ _ _ hq rfl rfl rfl
  have hP' : recPN s₀ P (Pr.setNode k (yr.node k)) :=
    recPN_ext _ _ _ _ hP rfl rfl rfl
  have hmem : ∀ nd, ∀ p ∈ (q, qr.setNode k nd) :: below,
      recPN s₀ p.1 p.2 := by
    intro nd p hp
    rcases List.mem_cons.mp hp with rfl | hp2
    · exact hq' nd
    · exact hbelow p hp2
  simp only [spliceDeepR] at hout
  split_ifs at hout <;>
    first
      | exact spliceFinish_pn _ _ _ _ _ _ _ _ _ _ _ _ hout
          (pnEq_write _ _ _ _
            (pnEq_write _ _ _ _ (pnEq_write _ _ _ _ h (hq' _)) hP')
            (recPN_ext _ _ _ _ (recPN_of_pnEq _ _
              (pnEq_write _ _ _ _ (pnEq_write _ _ _ _ h (hq' _)) hP')
              _ _ (recPN_read _ _)) rfl rfl rfl))
          (hmem _) hP' hanc hyr
      | exact spliceFinish_pn _ _ _ _ _ _ _ _ _ _ _ _ hout
          (pnEq_write _ _ _ _ (pnEq_write _ _ _ _ h (hq' _)) hP')
          (hmem _) hP' hanc hyr

theorem delSplice_pn (s₀ s : State) (k : Nat) (fuel : Nat) (y : Int)
    (yr ypr : AvlRec) (urk : AvlNode) (anc : List PathEntry)
    (s' : State) (rpath : List PathEntry) (yr' : AvlRec)
    (h : pnEq s₀ s)
    (hanc : ∀ p ∈ anc, recPN s₀ p.1 p.2)
    (hyr : recPN s₀ y yr)
    (hrun : delSplice s k fuel y yr ypr urk anc = some (s', rpath, yr')) :
    pnEq s₀ s' ∧ (∀ p ∈ rpath, recPN s₀ p.1 p.2) ∧ recPN s₀ y yr' := by
  have hyr2 : ∀ nd, recPN s₀ y (yr.setNode k nd) := fun nd =>
    recPN_ext _ _ _ _ hyr rfl rfl rfl
  have hrd : ∀ (o : Int), ∀ nd, recPN s₀ o ((s.read o).setNode k nd) :=
    fun o nd => recPN_ext _ _ _ _ (recPN_of_pnEq _ _ h _ _ (recPN_read s o))
      rfl rfl rfl
  simp only [delSplice] at hrun
  split_ifs at hrun with h1 h2 hthr h3 h4 hthr2
  · -- predecessor strictly below the left child
    obtain ⟨t, hch, hout⟩ := Option.map_eq_some'.mp hrun
    obtain ⟨⟨P, Pr⟩, ⟨q, qr⟩, below⟩ := t
    obtain ⟨hPr, hqr, hbel⟩ := chainRight_entries s k fuel _ _ _ _ _ _ _
      rfl rfl (by simp) hch
    refine spliceDeepL_pn s₀ s k y P q Pr qr yr urk anc below _ _ _
      hout h ?_ ?_ ?_ hanc hyr
    · have hPr' : Pr = s.read P := hPr
      rw [hPr']; exact recPN_of_pnEq _ _ h _ _ (recPN_read s P)
    · have hqr' : qr = s.read q := hqr
      rw [hqr']; exact recPN_of_pnEq _ _ h _ _ (recPN_read s q)
    · intro p hp
      rw [hbel p hp]
      exact recPN_of_pnEq _ _ h _ _ (recPN_read s p.1)
  · -- left child is the predecessor, successor thread rewritten
    rw [Option.some_inj] at hrun
    exact spliceFinish_pn _ _ _ _ _ _ _ _ _ _ _ _ hrun
      (pnEq_write _ _ _ _ (pnEq_write _ _ _ _ h (hrd _ _))
        (recPN_ext _ _ _ _ (recPN_of_pnEq _ _
          (pnEq_write _ _ _ _ h (hrd _ _)) _ _ (recPN_read _ _))
          rfl rfl rfl))
      (by simp) (hrd _ _) hanc (hyr2 _)
  · -- left child is the predecessor, no thread rewrite
    rw [Option.some_inj] at hrun
    exact spliceFinish_pn _ _ _ _ _ _ _ _ _ _ _ _ hrun
      (pnEq_write _ _ _ _ h (hrd _ _)) (by simp) (hrd _ _) hanc (hyr2 _)
  · -- successor strictly below the right child
    obtain ⟨t, hch, hout⟩ := Option.map_eq_some'.mp hrun
    obtain ⟨⟨P, Pr⟩, ⟨q, qr⟩, below⟩ := t
    obtain ⟨hPr, hqr, hbel⟩ := chainLeft_entries s k fuel _ _ _ _ _ _ _
      rfl rfl (by simp) hch
    refine spliceDeepR_pn s₀ s k y P q Pr qr yr urk anc below _ _ _
      hout h ?_ ?_ ?_ hanc hyr
    · have hPr' : Pr = s.read P := hPr
      rw [hPr']; exact recPN_of_pnEq _ _ h _ _ (recPN_read s P)
    · have hqr' : qr = s.read q := hqr
      rw [hqr']; exact recPN_of_pnEq _ _ h _ _ (recPN_read s q)
    · intro p hp
      rw [hbel p hp]
      exact recPN_of_pnEq _ _ h _ _ (recPN_read s p.1)
  · -- right child is the successor, predecessor thread rewritten
    rw [Option.some_inj] at hrun
    exact spliceFinish_pn _ _ _ _ _ _ _ _ _ _ _ _ hrun
      (pnEq_write _ _ _ _ (pnEq_write _ _ _ _ h (hrd _ _))
        (recPN_ext _ _ _ _ (recPN_of_pnEq _ _
          (pnEq_write _ _ _ _ h (hrd _ _)) _ _ (recPN_read _ _))
          rfl rfl rfl))
      (by simp) (hrd _ _) hanc (hyr2 _)
  · -- right child is the successor, no thread rewrite
    rw [Option.some_inj] at hrun
    exact spliceFinish_pn _ _ _ _ _ _ _ _ _ _ _ _ hrun
      (pnEq_write _ _ _ _ h (hrd _ _)) (by simp) (hrd _ _) hanc (hyr2 _)
  · -- leaf removal
    cases anc with
    | nil =>
      rw [Option.some_inj] at hrun
      injection hrun with ha hbc
      injection hbc with hb hc
      subst ha hb hc
      exact ⟨pnEq_setRoot _ _ _ _ h, by simp, hyr⟩
    | cons e anc' =>
      obtain ⟨pp, ppr⟩ := e
      have hppr : recPN s₀ pp ppr := hanc (pp, ppr) (List.mem_cons_self _ _)
      replace hrun :
          (let nppr := if (ppr.node k).l = y then
              ppr.setNode k { ppr.node k with
                l := (yr.node k).l, b := (ppr.node k).b - 1 }
            else if (ppr.node k).r = y then
              ppr.setNode k { ppr.node k with
                r := (yr.node k).r, b := (ppr.node k).b + 1 }
            else ppr
          some (s.write pp nppr, (pp, nppr) :: anc', yr)) =
          some (s', rpath, yr') := hrun
      simp only [] at hrun
      have hfin : ∀ nppr : AvlRec, recPN s₀ pp nppr →
          some (s.write pp nppr, (pp, nppr) :: anc', yr) =
            some (s', rpath, yr') →
          pnEq s₀ s' ∧ (∀ p ∈ rpath, recPN s₀ p.1 p.2) ∧
            recPN s₀ y yr' := by
        intro nppr hnppr heq
        rw [Option.some_inj] at heq
        injection heq with ha hbc
        injection hbc with hb hc
        subst ha hb hc
        refine ⟨pnEq_write _ _ _ _ h hnppr, ?_, hyr⟩
        intro p hp
        rcases List.mem_cons.mp hp with rfl | hp2
        · exact hnppr
        · exact hanc p (List.mem_cons_of_mem _ hp2)
      split_ifs at hrun with hc1 hc2
      · refine hfin _ ?_ hrun
        exact recPN_ext _ _ _ _ hppr rfl rfl rfl
      · refine hfin _ ?_ hrun
        exact recPN_ext _ _ _ _ hppr rfl rfl rfl
      · exact hfin _ hppr hrun

theorem delRebalance_pn (s₀ : State) (k : Nat) :
    ∀ (fuel : Nat) (path : List PathEntry) (s s' : State),
      pnEq s₀ s → (∀ p ∈ path, recPN s₀ p.1 p.2) →
      delRebalance s k fuel path = some s' → pnEq s₀ s' := by
  intro fuel
  induction fuel with
  | zero =>
    intro path s s' _ _ h
    simp [delRebalance] at h
  | succ fuel ih =>
    intro path s s' hpn hpath hrun
    cases path with
    | nil =>
      replace hrun : some s = some s' := hrun
      rw [Option.some_inj] at hrun
      subst hrun
      exact hpn
    | cons e up =>
      obtain ⟨a, ar⟩ := e
      have har : recPN s₀ a ar := hpath (a, ar) (List.mem_cons_self _ _)
      have hup : ∀ p ∈ up, recPN s₀ p.1 p.2 := fun p hp =>
        hpath p (List.mem_cons_of_mem _ hp)
      simp only [delRebalance] at hrun
      split_ifs at hrun with hb1 hb0 hb2 hbp
      · rw [Option.some_inj] at hrun; subst hrun; exact hpn
      · -- balance became 0: propagate upward
        cases up with
        | nil => exact ih _ _ _ hpn (by simp) hrun
        | cons pe rest =>
          obtain ⟨p, pr⟩ := pe
          have hpr : recPN s₀ p pr := hup (p, pr) (List.mem_cons_self _ _)
          have hrest : ∀ q ∈ rest, recPN s₀ q.1 q.2 := fun q hq =>
            hup q (List.mem_cons_of_mem _ hq)
          have hfin : ∀ npr : AvlRec, recPN s₀ p npr →
              delRebalance (s.write p npr) k fuel ((p, npr) :: rest) =
                some s' → pnEq s₀ s' := by
            intro npr hnpr heq
            refine ih _ _ _ (pnEq_write _ _ _ _ hpn hnpr) ?_ heq
            intro q hq
            rcases List.mem_cons.mp hq with rfl | hq2
            · exact hnpr
            · exact hrest q hq2
          replace hrun :
              (let npr := if (pr.node k).l = a then
                  pr.setNode k { pr.node k with b := (pr.node k).b - 1 }
                else if (pr.node k).r = a then
                  pr.setNode k { pr.node k with b := (pr.node k).b + 1 }
                else pr
              delRebalance (s.write p npr) k fuel ((p, npr) :: rest)) =
              some s' := hrun
          simp only [] at hrun
          split_ifs at hrun with hl hr2
          · refine hfin _ ?_ hrun
            exact recPN_ext _ _ _ _ hpr rfl rfl rfl
          · refine hfin _ ?_ hrun
            exact recPN_ext _ _ _ _ hpr rfl rfl rfl
          · exact hfin _ hpr hrun
      · -- rotation with the `+2` single/double rotation
        have hrot := delRotPlus_pn s₀ s k a ar hpn har
        cases up with
        | nil =>
          refine ih _ _ _ (pnEq_setRoot _ _ _ _ hrot.1) ?_ hrun
          intro p hp
          have hpe : p = (delRotPlus s k a ar).2 := by simpa using hp
          rw [hpe]
          exact hrot.2
        | cons pe rest =>
          obtain ⟨p, pr⟩ := pe
          have hpr : recPN s₀ p pr := hup (p, pr) (List.mem_cons_self _ _)
          have hrest : ∀ q ∈ rest, recPN s₀ q.1 q.2 := fun q hq =>
            hup q (List.mem_cons_of_mem _ hq)
          have hfin : ∀ npr : AvlRec, recPN s₀ p npr →
              delRebalance ((delRotPlus s k a ar).1.write p npr) k fuel
                ((delRotPlus s k a ar).2 :: (p, npr) :: rest) =
                some s' → pnEq s₀ s' := by
            intro npr hnpr heq
            refine ih _ _ _ (pnEq_write _ _ _ _ hrot.1 hnpr) ?_ heq
            intro q hq
            rcases List.mem_cons.mp hq with rfl | hq2
            · exact hrot.2
            · rcases List.mem_cons.mp hq2 with rfl | hq3
              · exact hnpr
              · exact hrest q hq3
          replace hrun :
              (let npr := if (pr.node k).l = a then
                  pr.setNode k { pr.node k with l := (delRotPlus s k a ar).2.1 }
                else if (pr.node k).r = a then
                  pr.setNode k { pr.node k with r := (delRotPlus s k a ar).2.1 }
                else pr
              delRebalance ((delRotPlus s k a ar).1.write p npr) k fuel
                ((delRotPlus s k a ar).2 :: (p, npr) :: rest)) = some s' := hrun
          simp only [] at hrun
          split_ifs at hrun with hl hr2
          · refine hfin _ ?_ hrun
            exact recPN_ext _ _ _ _ hpr rfl rfl rfl
          · refine hfin _ ?_ hrun
            exact recPN_ext _ _ _ _ hpr rfl rfl rfl
          · exact hfin _ hpr hrun
      · -- rotation with the `-2` single/double rotation
        have hrot := delRotMinus_pn s₀ s k a ar hpn har
        cases up with
        | nil =>
          refine ih _ _ _ (pnEq_setRoot _ _ _ _ hrot.1) ?_ hrun
          intro p hp
          have hpe : p = (delRotMinus s k a ar).2 := by simpa using hp
          rw [hpe]
          exact hrot.2
        | cons pe rest =>
          obtain ⟨p, pr⟩ := pe
          have hpr : recPN s₀ p pr := hup (p, pr) (List.mem_cons_self _ _)
          have hrest : ∀ q ∈ rest, recPN s₀ q.1 q.2 := fun q hq =>
            hup q (List.mem_cons_of_mem _ hq)
          have hfin : ∀ npr : AvlRec, recPN s₀ p npr →
              delRebalance ((delRotMinus s k a ar).1.write p npr) k fuel
                ((delRotMinus s k a ar).2 :: (p, npr) :: rest) =
                some s' → pnEq s₀ s' := by
            intro npr hnpr heq
            refine ih _ _ _ (pnEq_write _ _ _ _ hrot.1 hnpr) ?_ heq
            intro q hq
            rcases List.mem_cons.mp hq with rfl | hq2
            · exact hrot.2
            · rcases List.mem_cons.mp hq2 with rfl | hq3
              · exact hnpr
              · exact hrest q hq3
          replace hrun :
              (let npr := if (pr.node k).l = a then
                  pr.setNode k { pr.node k with l := (delRotMinus s k a ar).2.1 }
                else if (pr.node k).r = a then
                  pr.setNode k { pr.node k with r := (delRotMinus s k a ar).2.1 }
                else pr
              delRebalance ((delRotMinus s k a ar).1.write p npr) k fuel
                ((delRotMinus s k a ar).2 :: (p, npr) :: rest)) = some s' := hrun
          simp only [] at hrun
          split_ifs at hrun with hl hr2
          · refine hfin _ ?_ hrun
            exact recPN_ext _ _ _ _ hpr rfl rfl rfl
          · refine hfin _ ?_ hrun
            exact recPN_ext _ _ _ _ hpr rfl rfl rfl
          · exact hfin _ hpr hrun
      · rw [Option.some_inj] at hrun; subst hrun; exact hpn

theorem delKey_pn (s₀ s : State) (y : Int) (k : Nat) (fuel : Nat)
    (yr : AvlRec) (urk : AvlNode) (s' : State) (yr' : AvlRec)
    (h : pnEq s₀ s) (hyr : recPN s₀ y yr)
    (hrun : delKey s y k fuel yr urk = some (s', yr')) :
    pnEq s₀ s' ∧ recPN s₀ y yr' := by
  simp only [delKey] at hrun
  rcases hfp : findPath s k yr.b (fun off _ => off == y) fuel
      (s.hdr.rootAt k) [] [] with _ | r <;> rw [hfp] at hrun
  · exact Option.noConfusion hrun
  rcases r with _ | ⟨pre, e⟩
  · replace hrun : some (s, yr) = some (s', yr') := hrun
    rw [Option.some_inj] at hrun
    injection hrun with ha hb
    subst ha hb
    exact ⟨h, hyr⟩
  · obtain ⟨ye, ypr⟩ := e
    obtain ⟨hpre, _⟩ := findPath_entries s k yr.b (fun off _ => off == y)
      fuel (s.hdr.rootAt k) [] [] pre (ye, ypr) (by simp) hfp
    replace hrun :
        (match delSplice s k fuel y yr ypr urk pre.reverse with
          | none => none
          | some (s, rpath, yr) =>
            match delRebalance s k fuel rpath with
            | none => none
            | some s => some (s, yr)) = some (s', yr') := hrun
    rcases hsp : delSplice s k fuel y yr ypr urk pre.reverse
        with _ | ⟨s1, rpath, yr1⟩ <;> rw [hsp] at hrun
    · exact Option.noConfusion hrun
    obtain ⟨h1, hrp, hyr1⟩ := delSplice_pn s₀ s k fuel y yr ypr urk
      pre.reverse s1 rpath yr1 h
      (fun p hp => by
        rw [hpre p (List.mem_reverse.mp hp)]
        exact recPN_of_pnEq _ _ h _ _ (recPN_read s p.1))
      hyr hsp
    replace hrun :
        (match delRebalance s1 k fuel rpath with
          | none => none
          | some s => some (s, yr1)) = some (s', yr') := hrun
    rcases hrb : delRebalance s1 k fuel rpath with _ | s2 <;>
      rw [hrb] at hrun
    · exact Option.noConfusion hrun
    replace hrun : some (s2, yr1) = some (s', yr') := hrun
    rw [Option.some_inj] at hrun
    injection hrun with ha hb
    subst ha hb
    exact ⟨delRebalance_pn s₀ k fuel rpath s1 _ h1 hrp hrb, hyr1⟩

theorem delKeys_pn (s₀ : State) (y : Int) (fuel : Nat)
    (urn : List AvlNode) :
    ∀ (rem k : Nat) (s s' : State) (yr yr' : AvlRec),
      pnEq s₀ s → recPN s₀ y yr →
      delKeys s y fuel urn k rem yr = some (s', yr') →
      pnEq s₀ s' ∧ recPN s₀ y yr' := by
  intro rem
  induction rem with
  | zero =>
    intro k s s' yr yr' h hyr hrun
    replace hrun : some (s, yr) = some (s', yr') := hrun
    rw [Option.some_inj] at hrun
    injection hrun with ha hb
    subst ha hb
    exact ⟨h, hyr⟩
  | succ rem ih =>
    intro k s s' yr yr' h hyr hrun
    simp only [delKeys] at hrun
    rcases hdk : delKey s y k fuel yr (urn.getD k ⟨0, 0, 0⟩)
        with _ | ⟨s1, yr1⟩ <;> rw [hdk] at hrun
    · exact Option.noConfusion hrun
    obtain ⟨h1, hyr1⟩ := delKey_pn s₀ s y k fuel yr _ s1 yr1 h hyr hdk
    replace hrun : delKeys s1 y fuel urn (k + 1) rem yr1 =
        some (s', yr') := hrun
    exact ih _ _ _ _ _ h1 hyr1 hrun

/-! ## Lemmas locating delete's target and re-linking the sequential
list (claim C6) -/

theorem seqSeg_head (s : State) (p h t0 : Int) (B : List Int)
    (hch : seqSeg s p h B t0 = true) : h = B.headD t0 := by
  cases B with
  | nil => simpa [seqSeg] using hch
  | cons x rest =>
    simp only [seqSeg, Bool.and_eq_true, beq_iff_eq] at hch
    exact hch.1.1.1

theorem seqSeg_retarget (t s : State) :
    ∀ (B : List Int) (p h y y' : Int),
      seqSeg s p h B y = true → B ≠ [] → B.Nodup →
      (∀ o ∈ B, o ≠ B.getLastD 0 →
        (t.read o).prev = (s.read o).prev ∧
        (t.read o).next = (s.read o).next) →
      (t.read (B.getLastD 0)).prev = (s.read (B.getLastD 0)).prev →
      (t.read (B.getLastD 0)).next = y' →
      seqSeg t p h B y' = true := by
  intro B
  induction B with
  | nil => intro p h y y' _ hne; exact absurd rfl hne
  | cons x rest ih =>
    intro p h y y' hch _ hnd hmid hlp hln
    simp only [seqSeg, Bool.and_eq_true, beq_iff_eq, decide_eq_true_eq]
      at hch
    obtain ⟨⟨⟨rfl, hpos⟩, hprev⟩, hrest⟩ := hch
    cases rest with
    | nil =>
      have hlast : ([h] : List Int).getLastD 0 = h := rfl
      rw [hlast] at hlp hln
      simp only [seqSeg, Bool.and_eq_true, beq_iff_eq, decide_eq_true_eq]
      exact ⟨⟨⟨trivial, hpos⟩, hlp.trans hprev⟩, by
        simp [seqSeg, hln]⟩
    | cons z rest' =>
      have hxl : h ≠ (z :: rest').getLastD 0 := by
        intro hx
        have hmem2 : (z :: rest').getLastD 0 ∈ z :: rest' := by
          rw [List.getLastD_cons]
          exact List.getLastD_mem_cons _ _
        rw [← hx] at hmem2
        exact (List.nodup_cons.mp hnd).1 hmem2
      have hxfr := hmid h (List.mem_cons_self _ _) (by
        simpa [List.getLastD_cons] using hxl)
      have htail := ih _ _ _ _ hrest (by simp)
        (List.nodup_cons.mp hnd).2
        (fun o ho => hmid o (List.mem_cons_of_mem _ ho))
        (by simpa [List.getLastD_cons] using hlp)
        (by simpa [List.getLastD_cons] using hln)
      rw [seqSeg, hxfr.2]
      simp only [Bool.and_eq_true, beq_iff_eq, decide_eq_true_eq]
      exact ⟨⟨⟨trivial, hpos⟩, hxfr.1.trans hprev⟩, htail⟩

theorem seqSeg_reprev (t s : State) (B : List Int) (p p' h t0 : Int)
    (hch : seqSeg s p h B t0 = true) (hnd : B.Nodup)
    (hhead : B ≠ [] → (t.read (B.headD 0)).prev = p' ∧
      (t.read (B.headD 0)).next = (s.read (B.headD 0)).next)
    (hrest : ∀ o ∈ B, o ≠ B.headD 0 →
      (t.read o).prev = (s.read o).prev ∧
      (t.read o).next = (s.read o).next) :
    seqSeg t p' h B t0 = true := by
  cases B with
  | nil => simpa [seqSeg] using hch
  | cons x rest =>
    simp only [seqSeg, Bool.and_eq_true, beq_iff_eq, decide_eq_true_eq]
      at hch
    obtain ⟨⟨⟨rfl, hpos⟩, _⟩, hrest'⟩ := hch
    obtain ⟨hh1, hh2⟩ := hhead (by simp)
    simp only [List.headD] at hh1 hh2
    simp only [seqSeg, Bool.and_eq_true, beq_iff_eq, decide_eq_true_eq]
    refine ⟨⟨⟨trivial, hpos⟩, hh1⟩, ?_⟩
    have hfr : ∀ o ∈ rest, (t.read o).prev = (s.read o).prev ∧
        (t.read o).next = (s.read o).next := by
      intro o ho
      refine hrest o (List.mem_cons_of_mem _ ho) ?_
      intro he
      exact (List.nodup_cons.mp hnd).1
        ((show o = h from he) ▸ ho)
    rw [hh2, seqSeg_frame s t h (s.read h).next t0 rest hfr]
    exact hrest'

theorem delSeqScan_val (s : State) (data : Payload) :
    ∀ (L : List Int) (p h : Int) (fuel : Nat)
      (r : Option (Int × AvlRec)),
      seqSeg s p h L 0 = true →
      delSeqScan s data fuel h = some r →
      (r = none → ∀ o ∈ L, (s.read o).b ≠ data) ∧
      (∀ y yrec, r = some (y, yrec) →
        y ∈ L ∧ yrec = s.read y ∧ data = yrec.b) := by
  intro L
  induction L with
  | nil =>
    intro p h fuel r hch hrun
    simp only [seqSeg, beq_iff_eq] at hch
    subst hch
    match fuel with
    | 0 => simp [delSeqScan] at hrun
    | fuel + 1 =>
      rw [delSeqScan, if_neg (lt_irrefl 0)] at hrun
      rw [Option.some_inj] at hrun
      subst hrun
      exact ⟨fun _ => by simp, fun y yrec hy => by cases hy⟩
  | cons o rest ih =>
    intro p h fuel r hch hrun
    simp only [seqSeg, Bool.and_eq_true, beq_iff_eq, decide_eq_true_eq]
      at hch
    obtain ⟨⟨⟨rfl, hpos⟩, hprev⟩, hrest⟩ := hch
    match fuel with
    | 0 => simp [delSeqScan] at hrun
    | fuel + 1 =>
      simp only [delSeqScan] at hrun
      rw [if_pos hpos] at hrun
      split_ifs at hrun with hd
      · rw [Option.some_inj] at hrun
        subst hrun
        refine ⟨(fun hno => by cases hno), ?_⟩
        intro y yrec hy
        rw [Option.some_inj] at hy
        injection hy with h1 h2
        subst h1 h2
        exact ⟨List.mem_cons_self _ _, rfl, hd⟩
      · obtain ⟨ha, hb⟩ := ih h (s.read h).next fuel r hrest hrun
        refine ⟨?_, ?_⟩
        · intro hr o' ho'
          rcases List.mem_cons.mp ho' with rfl | h2
          · exact fun hc => hd hc.symm
          · exact ha hr o' h2
        · intro y yrec hy
          obtain ⟨hmem, hrd, hdata⟩ := hb y yrec hy
          exact ⟨List.mem_cons_of_mem _ hmem, hrd, hdata⟩

theorem delPhase1_val (s : State) (data : Payload) (fuel tfuel : Nat)
    (L : List Int) (T : Nat → STree)
    (htree : ∀ j, j < s.n_keys →
      toTree s j tfuel (s.hdr.rootAt j) = some (T j))
    (hsub : ∀ j, j < s.n_keys → ∀ z ∈ (T j).inorder, z ∈ L)
    (hge : ∀ j, j < s.n_keys → geOk s j data (T j) = true)
    (hth : ∀ j, j < s.n_keys → threadsOk s j (T j) 0 0 = true) :
    ∀ (rem k : Nat) (y : Int) (yrec : AvlRec),
      k + rem ≤ s.n_keys →
      delPhase1 s data fuel k rem = some (some (y, yrec)) →
      y ∈ L ∧ yrec = s.read y ∧ data = yrec.b := by
  intro rem
  induction rem with
  | zero =>
    intro k y yrec _ hrun
    replace hrun : (some none : Option (Option (Int × AvlRec))) =
        some (some (y, yrec)) := hrun
    rw [Option.some_inj] at hrun
    cases hrun
  | succ rem ih =>
    intro k y yrec hkn hrun
    simp only [delPhase1] at hrun
    rcases hsd : startgeDescend s k data fuel (s.hdr.rootAt k)
        with _ | a <;> rw [hsd] at hrun
    · exact Option.noConfusion hrun
    replace hrun : (if 0 < a then
        (if s.cmp k data (s.read a).b = 0 then
          (if data = (s.read a).b then some (some (a, s.read a))
            else delPhase1 s data fuel (k + 1) rem)
          else delPhase1 s data fuel (k + 1) rem)
        else delPhase1 s data fuel (k + 1) rem) =
        some (some (y, yrec)) := hrun
    split_ifs at hrun with ha hc he
    · rw [Option.some_inj, Option.some_inj] at hrun
      injection hrun with h1 h2
      subst h1 h2
      have hk : k < s.n_keys := by omega
      refine ⟨?_, rfl, he⟩
      by_cases hroot : 0 < s.hdr.rootAt k
      · have hval := startgeDescend_val s k data fuel (s.hdr.rootAt k)
          (T k) 0 0 a (toTree_isTree s k tfuel _ _ (htree k hk)) hroot
          (hge k hk) (hth k hk) hsd
        cases hf : (T k).inorder.find? fun z =>
            decide (s.cmp k data (s.read z).b ≤ 0) with
        | none =>
          rw [hf] at hval
          simp only [Option.getD_none] at hval
          exact absurd (hval ▸ ha) (lt_irrefl 0)
        | some v =>
          rw [hf] at hval
          simp only [Option.getD_some] at hval
          subst hval
          exact hsub k hk a (List.mem_of_find?_eq_some hf)
      · exfalso
        match fuel, hsd with
        | 0, hsd => simp [startgeDescend] at hsd
        | fuel + 1, hsd =>
          rw [startgeDescend, if_neg hroot, Option.some_inj] at hsd
          subst hsd
          exact hroot ha
    · exact ih (k + 1) y yrec (by omega) hrun
    · exact ih (k + 1) y yrec (by omega) hrun
    · exact ih (k + 1) y yrec (by omega) hrun

theorem delUnlink_spec (s0 t : State) (y : Int) (yr : AvlRec)
    (H : Int) (pre suf : List Int)
    (hpreSeg : seqSeg s0 0 H pre y = true)
    (hsufSeg : seqSeg s0 y (s0.read y).next suf 0 = true)
    (hyprev : (s0.read y).prev = pre.getLastD 0)
    (hynext : (s0.read y).next = suf.headD 0)
    (hH : H = pre.headD y)
    (hnd : (pre ++ y :: suf).Nodup)
    (hposL : ∀ o ∈ pre ++ y :: suf, 0 < o)
    (hpn : ∀ o ∈ pre ++ suf, (t.read o).prev = (s0.read o).prev ∧
      (t.read o).next = (s0.read o).next)
    (hb : ∀ o, (t.read o).b = (s0.read o).b)
    (hhs : t.hdr.head_seq = H)
    (hna : t.hdr.n_avl = s0.hdr.n_avl)
    (hyrp : yr.prev = (s0.read y).prev)
    (hyrn : yr.next = (s0.read y).next) :
    seqChain (delUnlink t y yr) 0 (delUnlink t y yr).hdr.head_seq
      (pre ++ suf) = true ∧
    (∀ o, o ≠ y → ((delUnlink t y yr).read o).b = (s0.read o).b) ∧
    (delUnlink t y yr).hdr.head_empty = y ∧
    (delUnlink t y yr).hdr.n_avl = wrap64 (s0.hdr.n_avl - 1) := by
  rw [List.nodup_append] at hnd
  obtain ⟨hndp, hndys, hdj⟩ := hnd
  have hynp : y ∉ pre := fun hm => hdj hm (List.mem_cons_self _ _)
  have hyns : y ∉ suf := (List.nodup_cons.mp hndys).1
  have hnds : suf.Nodup := (List.nodup_cons.mp hndys).2
  have hdps : ∀ o ∈ pre, o ∉ suf := fun o ho hos =>
    hdj ho (List.mem_cons_of_mem _ hos)
  replace hyrp : yr.prev = pre.getLastD 0 := hyrp.trans hyprev
  replace hyrn : yr.next = suf.headD 0 := hyrn.trans hynext
  have hshell : ∀ (u : State) (h1 h2 : Hdr) (r : AvlRec) (o : Int), o ≠ y →
      ((((u.setHdr h1).write y r).setHdr h2).read o) = u.read o := by
    intro u h1 h2 r o ho
    rw [setHdr_read, read_write_ne _ _ _ _ ho, setHdr_read]
  rcases suf with _ | ⟨sh, suf'⟩ <;> rcases pre with _ | ⟨ph, pre'⟩
  · -- pre = [], suf = []
    replace hyrn : yr.next = 0 := hyrn
    replace hH : H = y := hH
    simp only [delUnlink]
    rw [hyrn, if_neg (lt_irrefl 0),
      if_pos (show t.hdr.head_seq = y from hhs.trans hH)]
    refine ⟨?_, ?_, rfl, ?_⟩
    · show ((0 : Int) == 0) = true
      simp
    · intro o ho
      rw [hshell _ _ _ _ o ho, setHdr_read]
      exact hb o
    · show wrap64 (t.hdr.n_avl - 1) = _
      rw [hna]
  · -- pre = ph :: pre', suf = []
    replace hyrn : yr.next = 0 := hyrn
    replace hH : H = ph := hH
    have hpl : (ph :: pre').getLastD 0 ∈ ph :: pre' := by
      rw [List.getLastD_cons]
      exact List.getLastD_mem_cons _ _
    have hply : (ph :: pre').getLastD 0 ≠ y := fun he => hynp (he ▸ hpl)
    have hHy : t.hdr.head_seq ≠ y := by
      rw [hhs, hH]
      exact fun he => hynp (he ▸ List.mem_cons_self ph pre')
    simp only [delUnlink]
    rw [hyrn, if_neg (lt_irrefl 0), if_neg hHy, hyrp]
    have hrd : ∀ o : Int, o ≠ y →
        o ≠ (ph :: pre').getLastD 0 →
        (t.write ((ph :: pre').getLastD 0)
          { t.read ((ph :: pre').getLastD 0) with next := 0 }).read o =
          t.read o := fun o _ hop => read_write_ne _ _ _ _ hop
    refine ⟨?_, ?_, rfl, ?_⟩
    · rw [List.append_nil]
      show seqSeg _ 0 t.hdr.head_seq (ph :: pre') 0 = true
      rw [hhs]
      refine seqSeg_retarget _ s0 (ph :: pre') 0 H y 0 hpreSeg (by simp)
        hndp ?_ ?_ ?_
      · intro o ho hol
        rw [hshell _ _ _ _ o (fun he => hynp (he ▸ ho)),
          hrd o (fun he => hynp (he ▸ ho)) hol]
        exact hpn o (by rw [List.append_nil]; exact ho)
      · rw [hshell _ _ _ _ _ hply, read_write_self]
        exact (hpn _ (by rw [List.append_nil]; exact hpl)).1
      · rw [hshell _ _ _ _ _ hply, read_write_self]
    · intro o ho
      rw [hshell _ _ _ _ o ho]
      by_cases hop : o = (ph :: pre').getLastD 0
      · rw [hop, read_write_self]
        exact hb _
      · rw [hrd o ho hop]
        exact hb o
    · show wrap64 (t.hdr.n_avl - 1) = _
      rw [hna]
  · -- pre = [], suf = sh :: suf'
    replace hyrp : yr.prev = 0 := hyrp
    replace hyrn : yr.next = sh := hyrn
    replace hH : H = y := hH
    have hshpos : 0 < sh := hposL sh (by simp)
    have hshy : sh ≠ y := fun he => hyns (he ▸ List.mem_cons_self _ _)
    simp only [delUnlink]
    rw [hyrn, hyrp, if_pos hshpos,
      if_pos (show ((t.write sh { t.read sh with prev := 0
        }).hdr.head_seq = y) from hhs.trans hH)]
    have hrd : ∀ o : Int, o ≠ sh →
        (t.write sh { t.read sh with prev := 0 }).read o = t.read o :=
      fun o hop => read_write_ne _ _ _ _ hop
    refine ⟨?_, ?_, rfl, ?_⟩
    · show seqSeg _ 0 sh (([] : List Int) ++ sh :: suf') 0 = true
      rw [List.nil_append]
      have hch0 : seqSeg s0 y sh (sh :: suf') 0 = true := by
        have h0 := hsufSeg
        rw [hynext] at h0
        exact h0
      refine seqSeg_reprev _ s0 (sh :: suf') y 0 sh 0 hch0 hnds ?_ ?_
      · intro _
        simp only [List.headD]
        rw [hshell _ _ _ _ sh hshy]
        constructor
        · rw [setHdr_read, read_write_self]
        · rw [setHdr_read, read_write_self]
          exact ((hpn sh (by simp)).2 : _)
      · intro o ho hohd
        rw [hshell _ _ _ _ o (fun he => hyns (he ▸ ho)), setHdr_read,
          hrd o (by simpa using hohd)]
        exact hpn o (by simp [ho])
    · intro o ho
      rw [hshell _ _ _ _ o ho, setHdr_read]
      by_cases hop : o = sh
      · rw [hop, read_write_self]
        exact hb _
      · rw [hrd o hop]
        exact hb o
    · show wrap64 (t.hdr.n_avl - 1) = _
      rw [hna]
  · -- pre = ph :: pre', suf = sh :: suf'
    replace hyrn : yr.next = sh := hyrn
    replace hH : H = ph := hH
    have hshpos : 0 < sh := hposL sh (by simp)
    have hshy : sh ≠ y := fun he => hyns (he ▸ List.mem_cons_self _ _)
    have hpl : (ph :: pre').getLastD 0 ∈ ph :: pre' := by
      rw [List.getLastD_cons]
      exact List.getLastD_mem_cons _ _
    have hply : (ph :: pre').getLastD 0 ≠ y := fun he => hynp (he ▸ hpl)
    have hpls : (ph :: pre').getLastD 0 ≠ sh := fun he =>
      hdps _ hpl (he ▸ List.mem_cons_self _ _)
    have hHy : (t.write sh { t.read sh with
        prev := (ph :: pre').getLastD 0 }).hdr.head_seq ≠ y := by
      show t.hdr.head_seq ≠ y
      rw [hhs, hH]
      exact fun he => hynp (he ▸ List.mem_cons_self ph pre')
    simp only [delUnlink]
    rw [hyrn, hyrp, if_pos hshpos, if_neg hHy]
    have hw1 : ∀ o : Int, o ≠ sh →
        (t.write sh { t.read sh with
          prev := (ph :: pre').getLastD 0 }).read o = t.read o :=
      fun o hop => read_write_ne _ _ _ _ hop
    have hw2 : ∀ o : Int, o ≠ (ph :: pre').getLastD 0 →
        ((t.write sh { t.read sh with
            prev := (ph :: pre').getLastD 0 }).write
          ((ph :: pre').getLastD 0)
          { (t.write sh { t.read sh with
              prev := (ph :: pre').getLastD 0 }).read
              ((ph :: pre').getLastD 0) with next := sh }).read o =
        (t.write sh { t.read sh with
          prev := (ph :: pre').getLastD 0 }).read o :=
      fun o hop => read_write_ne _ _ _ _ hop
    have hplr : (t.write sh { t.read sh with
        prev := (ph :: pre').getLastD 0 }).read
        ((ph :: pre').getLastD 0) = t.read ((ph :: pre').getLastD 0) :=
      hw1 _ hpls
    refine ⟨?_, ?_, rfl, ?_⟩
    · show seqSeg _ 0 t.hdr.head_seq ((ph :: pre') ++ sh :: suf') 0 = true
      rw [hhs, seqSeg_append, Bool.and_eq_true]
      constructor
      · refine seqSeg_retarget _ s0 (ph :: pre') 0 H y
          ((sh :: suf').headD 0) hpreSeg (by simp) hndp ?_ ?_ ?_
        · intro o ho hol
          have hoy : o ≠ y := fun he => hynp (he ▸ ho)
          have hos : o ≠ sh := fun he =>
            hdps o ho (he ▸ List.mem_cons_self _ _)
          rw [hshell _ _ _ _ o hoy, hw2 o hol, hw1 o hos]
          exact hpn o (by
            simp only [List.mem_cons, List.mem_append] at ho ⊢
            tauto)
        · rw [hshell _ _ _ _ _ hply, read_write_self]
          show ((t.write sh { t.read sh with
              prev := (ph :: pre').getLastD 0 }).read
              ((ph :: pre').getLastD 0)).prev = _
          rw [hplr]
          exact (hpn _ (by
            simp only [List.mem_cons, List.mem_append] at hpl ⊢
            tauto)).1
        · rw [hshell _ _ _ _ _ hply, read_write_self]
          exact rfl
      · have hch0 : seqSeg s0 y sh (sh :: suf') 0 = true := by
          have h0 := hsufSeg
          rw [hynext] at h0
          exact h0
        refine seqSeg_reprev _ s0 (sh :: suf') y
          ((ph :: pre').getLastD 0) sh 0 hch0 hnds ?_ ?_
        · intro _
          simp only [List.headD]
          rw [hshell _ _ _ _ sh hshy, hw2 sh (Ne.symm hpls),
            read_write_self]
          exact ⟨rfl, ((hpn sh (by
            simp only [List.mem_cons, List.mem_append]
            tauto)).2 : _)⟩
        · intro o ho hohd
          have hoy : o ≠ y := fun he => hyns (he ▸ ho)
          have hos : o ≠ sh := by simpa using hohd
          have hopl : o ≠ (ph :: pre').getLastD 0 := fun he =>
            hdps _ (he ▸ hpl) ho
          rw [hshell _ _ _ _ o hoy, hw2 o hopl, hw1 o hos]
          exact hpn o (by
            simp only [List.mem_cons, List.mem_append] at ho ⊢
            tauto)
    · intro o ho
      rw [hshell _ _ _ _ o ho]
      by_cases hop : o = (ph :: pre').getLastD 0
      · rw [hop, read_write_self]
        show ((t.write sh _).read ((ph :: pre').getLastD 0)).b = _
        rw [hplr]
        exact hb _
      · rw [hw2 o hop]
        by_cases hos : o = sh
        · rw [hos, read_write_self]
          exact hb _
        · rw [hw1 o hos]
          exact hb o
    · show wrap64 (t.hdr.n_avl - 1) = _
      rw [hna]

theorem delFinish_spec (s : State) (fuel : Nat) (y : Int)
    (C pre suf : List Int)
    (hchain : seqChain s 0 s.hdr.head_seq (pre ++ y :: suf) = true)
    (hnd : (pre ++ y :: suf).Nodup)
    (hcur : nextChain s s.hdr.head_cpr C = true)
    (hdisj : ∀ o ∈ pre ++ y :: suf, o ∉ C)
    (hfuelC : C.length + 1 ≤ fuel)
    (s' : State) (ret : Int)
    (hrun : delFinish s y (s.read y) fuel = some (s', ret)) :
    ret = 0 ∧
    seqChain s' 0 s'.hdr.head_seq (pre ++ suf) = true ∧
    (∀ o, o ≠ y → (s'.read o).b = (s.read o).b) ∧
    s'.hdr.head_empty = y ∧
    s'.hdr.n_avl = wrap64 (s.hdr.n_avl - 1) := by
  have hchain0 : seqSeg s 0 s.hdr.head_seq (pre ++ y :: suf) 0 = true :=
    hchain
  have hchain2 := hchain0
  rw [seqSeg_append, Bool.and_eq_true] at hchain2
  obtain ⟨hpreSeg, hmidSeg⟩ := hchain2
  replace hpreSeg : seqSeg s 0 s.hdr.head_seq pre y = true := hpreSeg
  replace hmidSeg : seqSeg s (pre.getLastD 0) y (y :: suf) 0 = true :=
    hmidSeg
  simp only [seqSeg, Bool.and_eq_true, beq_iff_eq, decide_eq_true_eq]
    at hmidSeg
  obtain ⟨⟨⟨_, hypos⟩, hyprev⟩, hsufSeg⟩ := hmidSeg
  have hynext : (s.read y).next = suf.headD 0 :=
    seqSeg_head s y _ 0 suf hsufSeg
  have hH : s.hdr.head_seq = pre.headD y :=
    seqSeg_head s 0 _ y pre hpreSeg
  have hposL : ∀ o ∈ pre ++ y :: suf, 0 < o :=
    seqSeg_pos s 0 s.hdr.head_seq 0 _ hchain0
  have hyC : y ∉ C := hdisj y (by simp)
  simp only [delFinish] at hrun
  rcases hnb : delNeighbors s (s.read y) fuel 0 s.n_keys with _ | urn <;>
    rw [hnb] at hrun
  · exact Option.noConfusion hrun
  obtain ⟨s1, hcrun, hoff, hnxb, hhdr1, hcpr1, hnk1, hcmp1⟩ :=
    delCursors_spec y (s.read y).next urn s.n_keys C s fuel
      s.hdr.head_cpr hcur hfuelC
  replace hrun :
      (match delCursors s y (s.read y).next urn s.n_keys fuel
          s.hdr.head_cpr with
        | none => none
        | some t =>
          match delKeys t y fuel urn 0 t.n_keys (s.read y) with
          | none => none
          | some (t, yr) => some (delUnlink t y yr, 0)) =
        some (s', ret) := hrun
  rw [hcrun] at hrun
  replace hrun :
      (match delKeys s1 y fuel urn 0 s1.n_keys (s.read y) with
        | none => none
        | some (t, yr) => some (delUnlink t y yr, 0)) =
        some (s', ret) := hrun
  rcases hdk : delKeys s1 y fuel urn 0 s1.n_keys (s.read y)
      with _ | ⟨s2, yr2⟩ <;> rw [hdk] at hrun
  · exact Option.noConfusion hrun
  replace hrun : some (delUnlink s2 y yr2, 0) = some (s', ret) := hrun
  rw [Option.some_inj] at hrun
  injection hrun with ha hb0
  subst ha hb0
  have hs1y : s1.read y = s.read y := hoff y hyC
  obtain ⟨hpn2, hyr2⟩ := delKeys_pn s1 y fuel urn s1.n_keys 0 s1 s2
    (s.read y) yr2 (pnEq_refl s1)
    (by rw [← hs1y]; exact recPN_read s1 y) hdk
  have hpn : ∀ o ∈ pre ++ suf, (s2.read o).prev = (s.read o).prev ∧
      (s2.read o).next = (s.read o).next := by
    intro o ho
    have hoC : o ∉ C := hdisj o (by
      rcases List.mem_append.mp ho with h1 | h1
      · exact List.mem_append.mpr (Or.inl h1)
      · exact List.mem_append.mpr (Or.inr (List.mem_cons_of_mem _ h1)))
    have h2 := hpn2.1 o
    have h1 := hoff o hoC
    exact ⟨h2.1.trans (by rw [h1]), h2.2.1.trans (by rw [h1])⟩
  have hball : ∀ o, (s2.read o).b = (s.read o).b := fun o =>
    ((hpn2.1 o).2.2).trans (hnxb o).2
  have hhs2 : s2.hdr.head_seq = s.hdr.head_seq := by
    rw [hpn2.2.1, hhdr1]
  have hna2 : s2.hdr.n_avl = s.hdr.n_avl := by
    rw [hpn2.2.2.2.2.1, hhdr1]
  have hyrp : yr2.prev = (s.read y).prev := hyr2.1.trans (by rw [hs1y])
  have hyrn : yr2.next = (s.read y).next := hyr2.2.1.trans (by rw [hs1y])
  obtain ⟨hch', hb', he', hn'⟩ := delUnlink_spec s s2 y yr2
    s.hdr.head_seq pre suf hpreSeg hsufSeg hyprev hynext hH
    (by rw [List.nodup_append] at hnd ⊢; exact hnd)
    hposL hpn hball hhs2 hna2 hyrp hyrn
  exact ⟨rfl, hch', hb', he', hn'⟩

/-- C6: on a well-formed file state — sequential list `L` (no duplicate
offsets, disjoint from the cursor list `C`), per-key trees that are
faithful, contained in `L`, searchable and correctly threaded — a
completed `avl_file_delete` returns `0` and removes exactly one live record
whose entire payload is bytewise equal to `data` whenever such a record
exists (found by tree descent, the duplicate-key stack scan, or the
sequential scan): the survivors keep their payloads and order on the
sequential list, the freed offset heads the free list, and the live count
drops by one.  When no live record matches, it returns `-1` and the state
is unchanged. -/
theorem delete_removes_exactly_one_match
    (s : State) (data : Payload) (fuel tfuel : Nat)
    (L C : List Int) (T : Nat → STree) (s' : State) (ret : Int)
    (hchain : seqChain s 0 s.hdr.head_seq L = true)
    (hnd : L.Nodup)
    (hcur : nextChain s s.hdr.head_cpr C = true)
    (hdisj : ∀ o ∈ L, o ∉ C)
    (hfuelC : C.length + 1 ≤ fuel)
    (htree : ∀ j, j < s.n_keys →
      toTree s j tfuel (s.hdr.rootAt j) = some (T j))
    (hsub : ∀ j, j < s.n_keys → ∀ z ∈ (T j).inorder, z ∈ L)
    (hge : ∀ j, j < s.n_keys → geOk s j data (T j) = true)
    (hth : ∀ j, j < s.n_keys → threadsOk s j (T j) 0 0 = true)
    (hpo : ∀ j, j < s.n_keys → probeOk s j data (T j) = true)
    (hrun : avl_file_delete s data fuel = some (s', ret)) :
    ((∀ o ∈ L, (s.read o).b ≠ data) → ret = -1 ∧ s' = s) ∧
    ((∃ o ∈ L, (s.read o).b = data) → ret = 0 ∧
      ∃ y pre suf, L = pre ++ y :: suf ∧ (s.read y).b = data ∧
        seqChain s' 0 s'.hdr.head_seq (pre ++ suf) = true ∧
        (∀ o, o ≠ y → (s'.read o).b = (s.read o).b) ∧
        s'.hdr.head_empty = y ∧
        s'.hdr.n_avl = wrap64 (s.hdr.n_avl - 1)) := by
  have main : ∀ y : Int, y ∈ L → (s.read y).b = data →
      delFinish s y (s.read y) fuel = some (s', ret) →
      ((∀ o ∈ L, (s.read o).b ≠ data) → ret = -1 ∧ s' = s) ∧
      ((∃ o ∈ L, (s.read o).b = data) → ret = 0 ∧
        ∃ y pre suf, L = pre ++ y :: suf ∧ (s.read y).b = data ∧
          seqChain s' 0 s'.hdr.head_seq (pre ++ suf) = true ∧
          (∀ o, o ≠ y → (s'.read o).b = (s.read o).b) ∧
          s'.hdr.head_empty = y ∧
          s'.hdr.n_avl = wrap64 (s.hdr.n_avl - 1)) := by
    intro y hyL hyb hfin
    obtain ⟨pre, suf, hL⟩ := List.append_of_mem hyL
    subst hL
    obtain ⟨hret, hch, hb, he, hn⟩ := delFinish_spec s fuel y C pre suf
      hchain hnd hcur hdisj hfuelC s' ret hfin
    subst hret
    refine ⟨fun hmiss => absurd hyb (hmiss y hyL), fun _ => ?_⟩
    exact ⟨rfl, y, pre, suf, rfl, hyb, hch, hb, he, hn⟩
  have scanCase :
      (match delSeqScan s data fuel s.hdr.head_seq with
        | none => none
        | some none => some (s, -1)
        | some (some (y, yr)) => delFinish s y yr fuel) =
        some (s', ret) →
      ((∀ o ∈ L, (s.read o).b ≠ data) → ret = -1 ∧ s' = s) ∧
      ((∃ o ∈ L, (s.read o).b = data) → ret = 0 ∧
        ∃ y pre suf, L = pre ++ y :: suf ∧ (s.read y).b = data ∧
          seqChain s' 0 s'.hdr.head_seq (pre ++ suf) = true ∧
          (∀ o, o ≠ y → (s'.read o).b = (s.read o).b) ∧
          s'.hdr.head_empty = y ∧
          s'.hdr.n_avl = wrap64 (s.hdr.n_avl - 1)) := by
    intro hrun2
    rcases hscan : delSeqScan s data fuel s.hdr.head_seq with _ | r3 <;>
      rw [hscan] at hrun2
    · exact Option.noConfusion hrun2
    obtain ⟨hvna, hvb⟩ := delSeqScan_val s data L 0 s.hdr.head_seq fuel
      r3 hchain hscan
    rcases r3 with _ | ⟨y0, yrec⟩
    · replace hrun2 : some ((s, -1) : State × Int) = some (s', ret) :=
        hrun2
      rw [Option.some_inj] at hrun2
      injection hrun2 with ha hb2
      subst ha hb2
      refine ⟨fun _ => ⟨rfl, rfl⟩, ?_⟩
      rintro ⟨o, hoL, hob⟩
      exact absurd hob (hvna rfl o hoL)
    · obtain ⟨hyL, hyrd, hyb⟩ := hvb y0 yrec rfl
      replace hrun2 : delFinish s y0 yrec fuel = some (s', ret) := hrun2
      rw [hyrd] at hrun2
      refine main y0 hyL ?_ hrun2
      rw [hyrd] at hyb
      exact hyb.symm
  simp only [avl_file_delete] at hrun
  rcases hp1 : delPhase1 s data fuel 0 s.n_keys with _ | r1 <;>
    rw [hp1] at hrun
  · exact Option.noConfusion hrun
  rcases r1 with _ | ⟨y0, yrec⟩
  · -- phase 1 found nothing
    by_cases hnk : 0 < s.n_keys
    · rw [if_pos hnk] at hrun
      rcases hfp : findPath s 0 data
          (fun _ pr => allKeysEq s data pr && (data == pr.b)) fuel
          (s.hdr.rootAt 0) [] [] with _ | r2' <;> rw [hfp] at hrun
      · exact Option.noConfusion hrun
      rcases r2' with _ | pe
      · exact scanCase hrun
      · obtain ⟨pre2, e⟩ := pe
        obtain ⟨y0, yrec⟩ := e
        obtain ⟨T0, hT0, hpo0, hc0⟩ :
            ∃ T0, IsTree s 0 (s.hdr.rootAt 0) T0 ∧
              probeOk s 0 data T0 = true ∧
              ∀ z ∈ cands s 0 data T0, z ∈ L := by
          by_cases hroot : 0 < s.hdr.rootAt 0
          · refine ⟨T 0, toTree_isTree s 0 tfuel _ _ (htree 0 hnk),
              hpo 0 hnk, ?_⟩
            intro z hz
            exact hsub 0 hnk z (List.mem_filter.mp hz).1
          · exact ⟨.leaf, IsTree.leaf _ hroot, rfl,
              by simp [cands, STree.inorder]⟩
        have hgo := (findPath_go s 0 data
          (fun _ pr => allKeysEq s data pr && (data == pr.b)) fuel
          (s.hdr.rootAt 0) [] [] T0 [] (some (pre2, (y0, yrec)))
          hT0 hpo0 rfl hfp).2 (pre2, (y0, yrec)) rfl
        obtain ⟨hrd0, htest, hmem0⟩ := hgo
        replace hrd0 : yrec = s.read y0 := hrd0
        have hdata : data = yrec.b := by
          simp only [Bool.and_eq_true, beq_iff_eq] at htest
          exact htest.2
        replace hrun : delFinish s y0 yrec fuel = some (s', ret) := hrun
        rw [hrd0] at hrun
        refine main y0 (hc0 y0 (by simpa using hmem0)) ?_ hrun
        rw [hrd0] at hdata
        exact hdata.symm
    · rw [if_neg hnk] at hrun
      exact scanCase hrun
  · -- phase 1 found the target
    obtain ⟨hyL, hyrd, hyb⟩ := delPhase1_val s data fuel tfuel L T
      htree hsub hge hth s.n_keys 0 y0 yrec (by omega) hp1
    replace hrun : delFinish s y0 yrec fuel = some (s', ret) := hrun
    rw [hyrd] at hrun
    refine main y0 hyL ?_ hrun
    rw [hyrd] at hyb
    exact hyb.symm

/-- One key over the first payload word; live records at offsets 2
(`[10, 200]`, tree root, list head) and 3 (`[5, 100]`, left child and
list tail); no cursors. -/
def c6WitState : State :=
  { n_keys := 1
    cmp := fun k a b =>
      if a.getD k 0 > b.getD k 0 then 1
      else if a.getD k 0 < b.getD k 0 then -1 else 0
    hdr := ⟨2, 0, [2], 2, 0, 0⟩
    slots := fun o =>
      if o = 2 then ⟨[⟨0, 3, 0⟩], 0, 3, [10, 200]⟩
      else if o = 3 then ⟨[⟨0, 0, -2⟩], 2, 0, [5, 100]⟩
      else ⟨[⟨0, 0, 0⟩], 0, 0, []⟩
    cpr := 1
    endOff := 4 }

def c6WitRes : State × Int :=
  (avl_file_delete c6WitState [5, 100] 9).getD (c6WitState, 37)

theorem delete_removes_witness :
    c6WitRes.2 = 0 ∧
    seqChain c6WitRes.1 0 c6WitRes.1.hdr.head_seq [2] = true ∧
    (c6WitRes.1.read 2).b = [10, 200] ∧
    c6WitRes.1.hdr.head_empty = 3 ∧
    c6WitRes.1.hdr.n_avl = 1 := by
  have honekey : ∀ {P : Nat → Prop}, P 0 → ∀ j, j < 1 → P j := by
    intro P h0 j hj
    have hj0 : j = 0 := by omega
    rw [hj0]
    exact h0
  obtain ⟨_, hpos⟩ := delete_removes_exactly_one_match c6WitState
    [5, 100] 9 3 [2, 3] [] (fun _ => .node 2 (.node 3 .leaf .leaf) .leaf)
    c6WitRes.1 c6WitRes.2 (by decide) (by decide) (by decide)
    (by decide) (by decide)
    (honekey (by decide)) (honekey (by decide)) (honekey (by decide))
    (honekey (by decide)) (honekey (by decide)) rfl
  obtain ⟨hret, y, pre, suf, hN, hyb, hch, hb, he, hn⟩ :=
    hpos ⟨3, by decide, by decide⟩
  have hsplit : y = 3 ∧ pre = [2] ∧ suf = ([] : List Int) := by
    rcases pre with _ | ⟨p0, pt⟩
    · rw [List.nil_append] at hN
      injection hN with h1 h2
      rw [← h1] at hyb
      exact absurd hyb (by decide)
    · rcases pt with _ | ⟨p1, pt2⟩
      · simp only [List.cons_append, List.nil_append] at hN
        injection hN with h1 h2
        injection h2 with h2a h2b
        exact ⟨h2a.symm, by rw [← h1], h2b.symm⟩
      · have hlen := congrArg List.length hN
        simp at hlen
  obtain ⟨rfl, rfl, rfl⟩ := hsplit
  refine ⟨hret, hch, (hb 2 (by decide)).trans (by decide), he,
    hn.trans (by decide)⟩

end AvlFile
